import Mathlib

/-
  Shallow embedding of the valhalla-bot watcher/attribution core.

  Sources embedded:
  - src/watcher/attributionCache.ts      (shared attribution cache)
  - src/watcher/encountersWatcher.ts     (second, cursor-based revision in the file)
  - src/watcher/mintsWatcher.ts          (src/unnamed/part_001)
  - src/watcher/pvpQueueWatcher.ts       (rpc wrapper constants)

  Conventions of the embedding:
  - JavaScript numbers / bigints that are always non-negative integers here
    (block numbers, log indices, character ids, token ids, timestamps) are Nat.
  - JS Map is an insertion-ordered association list (List (key x value));
    jsGet / jsSet / jsDelete below reproduce Map.get / Map.set / Map.delete
    including the fact that set on an existing key keeps its position.
  - Async functions become functions in the EM monad (state + exceptions):
    a thrown JS error is Except.error carrying the error message, and state
    mutations performed before a throw persist, exactly as in JS.
  - Remote (RPC) calls are an oracle environment passed in explicitly; a call
    whose retries were exhausted shows up as an Except.error result.
  - Everything is modelled for a single subscriber (chat): the per-chat outer
    maps in the source (seen caches, locks, run tokens, timers) are independent
    per chat, so one chat's slice is embedded.
-/

namespace Valhalla

/-! ## State-and-exception monad mirroring async JS control flow -/

/-- Computation over state sigma that can throw a JS error (a String message).
State written before the throw survives, as in JavaScript. -/
def EM (σ : Type) (α : Type) : Type := σ → Except String α × σ

/-- Monadic bind for EM: JS sequencing, where a throw aborts the rest but keeps
mutations made so far. -/
def EM.bind (x : EM σ α) (f : α → EM σ β) : EM σ β := fun s =>
  match x s with
  | (Except.ok a, s1) => f a s1
  | (Except.error e, s1) => (Except.error e, s1)

/-- Pure computation in EM. -/
def EM.pure (a : α) : EM σ α := fun s => (Except.ok a, s)

instance : Monad (EM σ) where
  pure := EM.pure
  bind := EM.bind

/-- Throwing a JS error. -/
def throwE (e : String) : EM σ α := fun s => (Except.error e, s)

/-- Read the whole state. -/
def getE : EM σ σ := fun s => (Except.ok s, s)

/-- Replace the whole state. -/
def setE (s1 : σ) : EM σ PUnit := fun _ => (Except.ok PUnit.unit, s1)

/-- Update the state. -/
def modifyE (f : σ → σ) : EM σ PUnit := fun s => (Except.ok PUnit.unit, f s)

/-- Lift an oracle result: ok is a normal return, error is a JS throw. -/
def liftE (r : Except String α) : EM σ α := fun s => (r, s)

/-- JS try/catch. -/
def tryCatchE (x : EM σ α) (h : String → EM σ α) : EM σ α := fun s =>
  match x s with
  | (Except.ok a, s1) => (Except.ok a, s1)
  | (Except.error e, s1) => h e s1

/-! ## JS Map as an insertion-ordered association list -/

/-- Map.get: the value stored at key k, if any. -/
def jsGet [DecidableEq κ] : List (κ × β) → κ → Option β
  | [], _ => none
  | (k1, v) :: rest, k => if k1 = k then some v else jsGet rest k

/-- Map.has. -/
def jsHas [DecidableEq κ] (m : List (κ × β)) (k : κ) : Bool := (jsGet m k).isSome

/-- Map.set: update in place if the key exists (keeping its insertion
position), otherwise append at the end. -/
def jsSet [DecidableEq κ] : List (κ × β) → κ → β → List (κ × β)
  | [], k, v => [(k, v)]
  | (k1, v1) :: rest, k, v =>
      if k1 = k then (k1, v) :: rest else (k1, v1) :: jsSet rest k v

/-- Map.delete: remove the entry at the key, if present. -/
def jsDelete [DecidableEq κ] : List (κ × β) → κ → List (κ × β)
  | [], _ => []
  | (k1, v1) :: rest, k => if k1 = k then rest else (k1, v1) :: jsDelete rest k

/-! ## String primitives

The strings handled by the watcher core (hex identifiers, topic ids, error
messages, usernames) are modelled with character-list implementations of the
JS string operations used by the source (toLowerCase, startsWith, slice,
includes-style matching, trim). -/

/-- toLowerCase (the identifiers involved are ASCII). -/
def strLower (s : String) : String := String.mk (s.toList.map Char.toLower)

/-- Check that the second list begins with the first. -/
def charsStarts : List Char → List Char → Bool
  | [], _ => true
  | _ :: _, [] => false
  | p :: ps, c :: cs => p == c && charsStarts ps cs

/-- startsWith. -/
def strStarts (s pat : String) : Bool := charsStarts pat.toList s.toList

/-- Substring occurrence test on character lists. -/
def charsContains : List Char → List Char → Bool
  | [], pat => charsStarts pat []
  | c :: rest, pat => charsStarts pat (c :: rest) || charsContains rest pat

/-- Substring occurrence test, modelling the regex literal-alternative tests
of the source. -/
def containsSub (s pat : String) : Bool := charsContains s.toList pat.toList

/-- trim: remove whitespace from both ends. -/
def trimStr (s : String) : String :=
  String.mk (((s.toList.dropWhile Char.isWhitespace).reverse.dropWhile Char.isWhitespace).reverse)

/-! ## Attribution cache (src/watcher/attributionCache.ts) -/

/-- Wall-clock TTL for attribution entries, VALHALLA_ATTRIB_TTL_MS default. -/
def TTL_MS : Nat := 1800000

/-- One cached attribution: veraId maps to charId, username, expiry time. -/
structure Attrib where
  charId : Nat
  username : Option String
  expiresAt : Nat
deriving DecidableEq, Repr

/-- Cache contents; the source keys by String(veraId), equivalent to keying by
the numeric veraId. -/
abbrev AttribMap := List (Nat × Attrib)

/-- Light branch of prune: iterate in insertion order, delete the first
expired entry found and stop. -/
def pruneLight : AttribMap → Nat → AttribMap
  | [], _ => []
  | (k, v) :: rest, t =>
      if v.expiresAt ≤ t then rest else (k, v) :: pruneLight rest t

/-- Heavy branch of prune (size above 5000): delete every expired entry. -/
def pruneFull (m : AttribMap) (t : Nat) : AttribMap :=
  m.filter fun kv => decide (t < kv.2.expiresAt)

/-- Opportunistic prune run at the top of every cache read and write. -/
def prune (m : AttribMap) (t : Nat) : AttribMap :=
  if m.length > 5000 then pruneFull m t else pruneLight m t

/-- setFromEncounter: prune then store veraId with expiry now + TTL_MS. -/
def setFromEncounter (m : AttribMap) (veraId charId : Nat)
    (username : Option String) (now : Nat) : AttribMap :=
  jsSet (prune m now) veraId
    { charId := charId, username := username, expiresAt := now + TTL_MS }

/-- getAttribution: prune, look up, and drop (returning null) an entry whose
expiry is at or before now. Returns the answer and the cache afterwards. -/
def getAttribution (m : AttribMap) (veraId : Nat) (now : Nat) :
    Option (Nat × Option String) × AttribMap :=
  let m1 := prune m now
  match jsGet m1 veraId with
  | none => (none, m1)
  | some v =>
      if v.expiresAt ≤ now then (none, jsDelete m1 veraId)
      else (some (v.charId, v.username), m1)

/-! ## Dedup cache with block TTL (seenWithTtl in both watcher files) -/

/-- Dedup TTL in blocks for the event-identity namespace, VALHALLA_EVENT_TTL
default. -/
def EVENT_DEDUP_TTL : Nat := 120

/-- Sticky dedup TTL in blocks, VALHALLA_STICKY_TTL default. -/
def STICKY_TTL : Nat := 900

/-- seenWithTtl: true (namespace untouched) when the key is recorded with an
expiry at or beyond the current block; otherwise record key at bn + ttl,
clearing the whole namespace when its size passes 6000, and return false.
Generic in the key type; the source uses composed string keys. -/
def seenWithTtl [DecidableEq κ] (m : List (κ × Nat)) (key : κ) (bn ttl : Nat) :
    Bool × List (κ × Nat) :=
  let exp := (jsGet m key).getD 0
  if bn ≤ exp then (true, m)
  else
    let m1 := jsSet m key (bn + ttl)
    (false, if m1.length > 6000 then [] else m1)

/-! ## RPC retry wrapper (rpc in encountersWatcher.ts, mintsWatcher.ts,
pvpQueueWatcher.ts) -/

/-- Retryable-error predicate of the encounters/mints watchers:
limit exceeded, temporar, timeout, BAD_DATA, missing response, gateway,
case-insensitively. -/
def retryableEnc (msg : String) : Bool :=
  let l := strLower msg
  containsSub l "limit exceeded" || containsSub l "temporar" ||
  containsSub l "timeout" || containsSub l "bad_data" ||
  containsSub l "missing response" || containsSub l "gateway"

/-- Retryable-error predicate of the pvp queue watcher. -/
def retryablePvp (msg : String) : Bool :=
  let l := strLower msg
  containsSub l "tempor" || containsSub l "timeout" || containsSub l "limit" ||
  containsSub l "bad_data" || containsSub l "missing response" ||
  containsSub l "gateway" || containsSub l "econn" ||
  containsSub l "etimedout" || containsSub l "json"

/-- Delay after doubling-and-capping j times from a starting delay. -/
def delayIter (cap : Nat) : Nat → Nat → Nat
  | delay, 0 => delay
  | delay, n + 1 => delayIter cap (min (delay * 2) cap) n

/-- Core retry loop: attempt i of tries, with the number of attempts left as
structural fuel (left = tries - i at every call). outcomes gives each
attempt's thrown-or-returned result, jitter the random addend of each sleep.
Returns the final result and the list of sleeps performed. The fall-through
raise when the loop ends without returning is the typed
rpc-retries-exhausted error (unreachable for tries > 0). -/
def rpcLoop (retryable : String → Bool) (cap : Nat) (outcomes : Nat → Except String α)
    (jitter : Nat → Nat) (label : String) (tries : Nat) :
    Nat → Nat → Nat → Except String α × List Nat
  | 0, _i, _delay => (Except.error ("rpc retries exhausted: " ++ label), [])
  | left + 1, i, delay =>
      match outcomes i with
      | Except.ok v => (Except.ok v, [])
      | Except.error e =>
          if retryable e = false ∨ i = tries - 1 then (Except.error e, [])
          else
            let r := rpcLoop retryable cap outcomes jitter label tries left (i + 1)
              (min (delay * 2) cap)
            (r.1, (delay + jitter i) :: r.2)

/-- The rpc wrapper of encountersWatcher.ts and mintsWatcher.ts: 5 tries,
base delay 250, cap 2000. -/
def rpcEnc (outcomes : Nat → Except String α) (jitter : Nat → Nat) (label : String) :
    Except String α × List Nat :=
  rpcLoop retryableEnc 2000 outcomes jitter label 5 5 0 250

/-- The rpc wrapper of pvpQueueWatcher.ts: 5 tries, base delay 220, cap 1600. -/
def rpcPvp (outcomes : Nat → Except String α) (jitter : Nat → Nat) (label : String) :
    Except String α × List Nat :=
  rpcLoop retryablePvp 1600 outcomes jitter label 5 5 0 220

/-! ## Ordering key (bn, txIndex, logIndex) -/

/-- Ordering key of a decoded log row: (block, txIndex, logIndex). -/
structure Key where
  bn : Nat
  txi : Nat
  li : Nat
deriving DecidableEq, Repr

/-- isAfter from both watcher files: strictly greater by (bn, txi, li); an
absent cursor compares below everything. -/
def isAfter (a : Key) : Option Key → Bool
  | none => true
  | some c =>
      decide (c.bn < a.bn) ||
      (a.bn == c.bn && (decide (c.txi < a.txi) || (a.txi == c.txi && decide (c.li < a.li))))

/-- Non-strict lexicographic order on keys, matching the ascending comparator
(a.bn - b.bn) || (a.txi - b.txi) || (a.li - b.li) used by the row sorts. -/
def keyLe (a b : Key) : Prop :=
  a.bn < b.bn ∨ (a.bn = b.bn ∧ (a.txi < b.txi ∨ (a.txi = b.txi ∧ a.li ≤ b.li)))

instance : DecidableRel keyLe := fun a b => by
  unfold keyLe
  infer_instance

/-- Comparator lifted along a key projection, for sorting rows ascending. -/
def keyLeOn (f : α → Key) (a b : α) : Prop := keyLe (f a) (f b)

instance (f : α → Key) : DecidableRel (keyLeOn f) := fun a b => by
  unfold keyLeOn keyLe
  infer_instance

instance (f : α → Key) : IsTotal α (keyLeOn f) :=
  ⟨fun a b => by unfold keyLeOn keyLe; omega⟩

instance (f : α → Key) : IsTrans α (keyLeOn f) :=
  ⟨fun a b c hab hbc => by unfold keyLeOn keyLe at *; omega⟩

/-! ## Hex and ASCII helpers (mintsWatcher.ts) -/

/-- Test for an ASCII hex digit. -/
def isHexDigitCh (c : Char) : Bool :=
  c.isDigit || (decide ('a' ≤ c) && decide (c ≤ 'f')) || (decide ('A' ≤ c) && decide (c ≤ 'F'))

/-- Numeric value of a hex digit. -/
def hexDigitVal (c : Char) : Nat :=
  if c.isDigit then c.toNat - '0'.toNat
  else if decide ('a' ≤ c) && decide (c ≤ 'f') then c.toNat - 'a'.toNat + 10
  else c.toNat - 'A'.toNat + 10

/-- BigInt(s) on the string forms that occur here: a 0x-prefixed hex literal
(none models the TypeError thrown on malformed input), the empty string
(0n), or a decimal literal. -/
def hexToNat? (s : String) : Option Nat :=
  match s.toList with
  | '0' :: 'x' :: ds =>
      if ds.length ≠ 0 ∧ ds.all isHexDigitCh then
        some (ds.foldl (fun acc c => acc * 16 + hexDigitVal c) 0)
      else none
  | [] => some 0
  | ds =>
      if ds.all Char.isDigit then
        some (ds.foldl (fun acc c => acc * 10 + (c.toNat - '0'.toNat)) 0)
      else none

/-- bytes32ToAddressOrNull: accept a 0x-prefixed 66-char hex string whose last
20 bytes are not all zero, returning the lowercased 0x-address. -/
def bytes32ToAddressOrNull (b32 : String) : Option String :=
  match b32.toList with
  | '0' :: 'x' :: rest =>
      if rest.length ≠ 64 then none
      else
        let hd := rest.take 24
        let tl := rest.drop 24
        if ¬ hd.all isHexDigitCh ∨ ¬ tl.all isHexDigitCh then none
        else if tl.all (fun c => c == '0') then none
        else some (String.mk ('0' :: 'x' :: tl.map Char.toLower))
  | _ => none

/-- Byte value of a 2-hex-char group, with parseInt's prefix-parsing and
NaN-to-0 behaviour. -/
def hexPairByte (c1 c2 : Char) : Nat :=
  if isHexDigitCh c1 then
    if isHexDigitCh c2 then hexDigitVal c1 * 16 + hexDigitVal c2 else hexDigitVal c1
  else 0

/-- Bytes of a hex string taken two characters at a time. -/
def hexPairBytes : List Char → List Nat
  | c1 :: c2 :: rest => hexPairByte c1 c2 :: hexPairBytes rest
  | _ => []

/-- asciiFromBytes32Hex: decode hex to bytes, drop zero bytes, keep the
printable ASCII range (non-ASCII decodes are removed by the printable
filter). -/
def asciiFromBytes32Hex (hexLower : String) : String :=
  let h := match hexLower.toList with
    | '0' :: 'x' :: rest => rest
    | l => l
  let bytes := (hexPairBytes h).filter (fun b => b ≠ 0)
  String.mk ((bytes.filter (fun b => 32 ≤ b ∧ b ≤ 126)).map Char.ofNat)

/-! ## Shared row, session, payload types -/

/-- Decoded EncounterSeed row: tx hash plus ordering key plus characterId. -/
structure EncRow extends Key where
  h : String
  charId : Nat
deriving DecidableEq, Repr

/-- Decoded mint row: tx hash plus ordering key plus tokenId. -/
structure MintRow extends Key where
  h : String
  tokenId : Nat
deriving DecidableEq, Repr

/-- Subscriber session slice used by the watchers (prefs of MySession). -/
structure Session where
  enabled : Bool
  usernames : List String
  lastCursor : Option Key
deriving DecidableEq, Repr

/-- Default session used when none is stored. -/
def defaultSession : Session := { enabled := false, usernames := [], lastCursor := none }

/-- Hydrated vera detail (valhalla__getVera), innate stats flattened. -/
structure Vera where
  level : Nat
  speciesId : Nat
  personality : Option Nat
  strength : Nat
  dexterity : Nat
  vitality : Nat
  intellect : Nat
  wisdom : Nat
  charisma : Nat
deriving DecidableEq, Repr

/-- Notification payload handed to the sink. bn and fromPending are
specification instrumentation recording the originating row's block and
whether the delivery came from the pending-attribution queue. -/
structure Card where
  veraId : Nat
  level : Nat
  speciesId : Nat
  personality : Option Nat
  username : Option String
  bn : Nat
  fromPending : Bool
deriving DecidableEq, Repr

/-- Raw Store_SetRecord log as returned by the provider, at the level the
watcher sees it: ethers parse result (none when parseLog fails) plus
position and transaction hash. -/
structure SParsed where
  tableId : String
  keyTuple : List String
deriving DecidableEq, Repr

/-- Raw store-event log with ordering position. -/
structure SLog extends Key where
  parsed : Option SParsed
  txHash : String
deriving DecidableEq, Repr

/-- Raw ERC-721 Transfer log: parse result (tokenId) plus position. -/
structure MintLog extends Key where
  parsedTokenId : Option Nat
  txHash : String
deriving DecidableEq, Repr

/-- Receipt log as scanned by the same-transaction attribution strategy. -/
structure RLog where
  topic0 : String
  topic1 : String
  keyTuple : Option (List String)
deriving DecidableEq, Repr

/-- EncounterSeed table id constant (tbvalhalla...EncounterSeed). -/
def ENCOUNTER_SEED : String :=
  "0x746276616c68616c6c61000000000000456e636f756e74657253656564000000"

/-- VeraTokenBacklog table id constant, lowercased at its definition site. -/
def TABLE_VERA_TOKEN_BACKLOG : String :=
  "0x746276616c68616c6c6100000000000056657261546f6b656e4261636b6c6f67"

/-- Stand-in for the keccak topic id of Store_SetRecord (only compared for
equality; already lowercase like the real hash string). -/
def TOPIC_STORE_SET_RECORD : String := "0xkeccak.store.setrecord"

/-- Stand-in for the keccak topic id of Store_DeleteRecord. -/
def TOPIC_STORE_DELETE_RECORD : String := "0xkeccak.store.deleterecord"

/-- Block-range batch size for log queries, VALHALLA_BLOCK_BATCH default. -/
def BLOCK_BATCH : Nat := 6000

/-- Backfill window in blocks, VALHALLA_BACKFILL_BLOCKS default. -/
def BACKFILL_BLOCKS : Nat := 12000

/-- Optional row cap on backfill scans, VALHALLA_BACKFILL_LIMIT default 0. -/
def BACKFILL_LIMIT : Nat := 0

/-- Maximum attribution retry count, VALHALLA_ATTRIB_MAX_RETRIES default. -/
def ATTRIB_MAX_RETRIES : Nat := 8

/-- Live-probe snapshot cap, VALHALLA_PROBE_MAX default. -/
def PROBE_MAX_CHARACTERS : Nat := 300

/-- Historical backscan window, VALHALLA_ATTRIB_BACKSCAN_BLOCKS default. -/
def ATTRIB_BACKSCAN_BLOCKS : Nat := 8000

/-- Start blocks of the fixed-size batches covering [fromB, toB]. -/
def batchStarts (fromB toB step : Nat) : List Nat :=
  if toB < fromB ∨ step = 0 then []
  else (List.range ((toB - fromB) / step + 1)).map (fun i => fromB + step * i)

/-- Case-base-insensitive username comparison (Intl.Collator sensitivity
base, modelled as lowercase equality). -/
def collEq (a b : String) : Bool := strLower a == strLower b

/-- usernamePass: empty filter list allows all; otherwise the resolved name
must match one filter (unresolved names fail a non-empty filter). -/
def usernamePass (list : List String) (name : Option String) : Bool :=
  if list.length = 0 then true
  else match name with
    | none => false
    | some n => list.any (fun u => collEq u n)

/-- usernameFromCharacterId, shared shape of both watcher files: try the
battle-data username, then the character name, trimming and requiring
non-empty; RPC failures are swallowed. -/
def usernameFromTwo (battle cname : Except String String) : Option String :=
  let first :=
    match battle with
    | Except.ok u => let t := trimStr u; if t = "" then none else some t
    | Except.error _ => none
  match first with
  | some t => some t
  | none =>
      match cname with
      | Except.ok c => let t := trimStr c; if t = "" then none else some t
      | Except.error _ => none

/-! ## Encounters watcher (encountersWatcher.ts, cursor-based revision) -/

/-- Oracle environment for one encounters poll: the net result of each
(retry-wrapped) remote call; an Except.error is a call whose retries were
exhausted. oppVeras is indexed by the in-tick attempt number of the
opponent-list retry loop. -/
structure EncEnv where
  now : Nat
  blockNumber : Except String Nat
  getLogs : Nat → Nat → Except String (List SLog)
  oppVeras : Nat → Nat → Except String (List Nat)
  battleUsername : Nat → Except String String
  characterName : Nat → Except String String
  getVera : Nat → Except String Vera

/-- Mutable state of the encounters watcher for one subscriber: module maps
(lock, run token, dedup namespaces, shared attribution cache), the persisted
session, and the list of cards handed to the sink. processed is
specification instrumentation: the ordering keys of the rows handed to
per-row processing, in order. -/
structure EncSt where
  lock : Bool
  runToken : Nat
  store : Option Session
  seenEvent : List (String × Nat)
  seenSticky : List (String × Nat)
  cache : AttribMap
  sink : List Card
  processed : List Key
deriving DecidableEq, Repr

/-- Resolve a username for a character id in the encounters watcher. -/
def usernameFromCharacterIdEnc (env : EncEnv) (charId : Nat) : Option String :=
  usernameFromTwo (env.battleUsername charId) (env.characterName charId)

/-- getSession with the inline default used at every call site. -/
def encGetSession : EM EncSt Session := do
  let st ← getE
  pure (st.store.getD defaultSession)

/-- setSession persists the session object. -/
def encSetSession (s : Session) : EM EncSt PUnit :=
  modifyE (fun st => { st with store := some s })

/-- Decode one Store_SetRecord log into an EncounterSeed row, skipping logs
that fail parsing or structural validation. -/
def decodeEncLog (lg : SLog) : Option EncRow :=
  match lg.parsed with
  | none => none
  | some p =>
      if strLower p.tableId ≠ strLower ENCOUNTER_SEED then none
      else match p.keyTuple with
        | [] => none
        | k0 :: _ =>
            if ¬ strStarts k0 "0x" ∨ k0.length ≠ 66 then none
            else
              (hexToNat? k0).map fun charId =>
                { bn := lg.bn, txi := lg.txi, li := lg.li, h := lg.txHash, charId := charId }

/-- Issue one getLogs call per block batch and concatenate the raw logs. -/
def fetchEncBatches (env : EncEnv) (toB step : Nat) : List Nat → EM EncSt (List SLog)
  | [] => pure []
  | b :: rest => do
      let logs ← liftE (env.getLogs b (min toB (b + step - 1)))
      let more ← fetchEncBatches env toB step rest
      pure (logs ++ more)

/-- getEncounterRowsAsc: batch-scan [fromB, toB], decode, sort ascending by
(bn, txi, li), and trim to the most recent BACKFILL_LIMIT rows when a cap is
configured. -/
def getEncounterRowsAscEnc (env : EncEnv) (fromB toB : Nat) : EM EncSt (List EncRow) := do
  let logs ← fetchEncBatches env toB BLOCK_BATCH (batchStarts fromB toB BLOCK_BATCH)
  let out := (logs.filterMap decodeEncLog).insertionSort (keyLeOn EncRow.toKey)
  pure (if 0 < BACKFILL_LIMIT ∧ BACKFILL_LIMIT < out.length
        then out.drop (out.length - BACKFILL_LIMIT) else out)

/-- hydrateVera via the entry contract. -/
def hydrateVeraEnc (env : EncEnv) (veraId : Nat) : EM EncSt Vera :=
  liftE (env.getVera veraId)

/-- Retry loop fetching the opponent list until non-empty, with the number of
attempts left as structural fuel (the source's for-loop bound of 3). -/
def oppRetryEncAux (env : EncEnv) (charId : Nat) : Nat → Nat → EM EncSt (List Nat)
  | 0, _ => pure []
  | left + 1, i => do
      let opp ← liftE (env.oppVeras i charId)
      if opp.length ≠ 0 then pure opp
      else if left = 0 then pure opp
      else oppRetryEncAux env charId left (i + 1)

/-- Retry loop fetching the opponent list up to 3 times until non-empty. -/
def oppRetryEnc (env : EncEnv) (charId : Nat) : EM EncSt (List Nat) :=
  oppRetryEncAux env charId 3 0

/-- Per-opponent body of sendEncounterForCharacter: cache the attribution,
dedup on the event key then the sticky key, hydrate, filter, send. -/
def encOppLoop (env : EncEnv) (bn : Nat) (txHash : String) (charId : Nat)
    (username : Option String) (session : Session) : List Nat → EM EncSt PUnit
  | [] => pure PUnit.unit
  | veraId :: rest => do
      modifyE (fun st =>
        { st with cache := setFromEncounter st.cache veraId charId username env.now })
      let ek := toString bn ++ ":" ++ txHash ++ ":" ++ toString veraId
      let st1 ← getE
      let d1 := seenWithTtl st1.seenEvent ek bn EVENT_DEDUP_TTL
      setE { st1 with seenEvent := d1.2 }
      if d1.1 then encOppLoop env bn txHash charId username session rest
      else do
        let sk := toString charId ++ ":" ++ toString veraId
        let st2 ← getE
        let d2 := seenWithTtl st2.seenSticky sk bn STICKY_TTL
        setE { st2 with seenSticky := d2.2 }
        if d2.1 then encOppLoop env bn txHash charId username session rest
        else do
          let hv ← hydrateVeraEnc env veraId
          if usernamePass session.usernames username then do
            modifyE (fun st => { st with sink := st.sink ++ [{
              veraId := veraId, level := hv.level, speciesId := hv.speciesId,
              personality := hv.personality,
              username := some (username.getD ("#" ++ toString charId)),
              bn := bn, fromPending := false }] })
            encOppLoop env bn txHash charId username session rest
          else encOppLoop env bn txHash charId username session rest

/-- sendEncounterForCharacter: resolve the username, fetch the (fresh)
opponent list with a small retry, then process each opponent vera. -/
def sendEncounterForCharacter (env : EncEnv) (bn : Nat) (txHash : String)
    (charId : Nat) (session : Session) (_token : Nat) : EM EncSt Bool := do
  let username := usernameFromCharacterIdEnc env charId
  let opp ← oppRetryEnc env charId
  encOppLoop env bn txHash charId username session opp
  pure false

/-- Row loop of the encounters pollOnce, tracking the last processed key. -/
def encProcessLoop (env : EncEnv) (session : Session) (token : Nat) :
    List EncRow → Option Key → EM EncSt (Option Key)
  | [], last => pure last
  | r :: rest, _ => do
      modifyE (fun st => { st with processed := st.processed ++ [r.toKey] })
      let _ ← sendEncounterForCharacter env r.bn r.h r.charId session token
      encProcessLoop env session token rest (some r.toKey)

/-- Body of the encounters pollOnce guarded by try/catch below. -/
def pollOnceEncInner (env : EncEnv) (token : Nat) : EM EncSt PUnit := do
  let s ← encGetSession
  if ¬ s.enabled then pure PUnit.unit
  else do
    let head ← liftE env.blockNumber
    let cur := s.lastCursor
    let fromBn := match cur with
      | some c => c.bn
      | none => head
    if head < fromBn then pure PUnit.unit
    else do
      let rows ← getEncounterRowsAscEnc env fromBn head
      let todo := rows.filter (fun r => isAfter r.toKey cur)
      let last ← encProcessLoop env s token todo none
      match last with
      | some k => encSetSession { s with lastCursor := some k }
      | none => pure PUnit.unit

/-- pollOnce of the encounters watcher: run-token check, per-subscriber
lock check, then the guarded body with the lock released in finally. -/
def pollOnceEnc (env : EncEnv) (tokenArg : Option Nat) : EM EncSt PUnit := do
  let st0 ← getE
  let tk := tokenArg.getD st0.runToken
  if st0.runToken ≠ tk then pure PUnit.unit
  else if st0.lock then pure PUnit.unit
  else do
    modifyE (fun st => { st with lock := true })
    tryCatchE (pollOnceEncInner env tk) (fun _e => pure PUnit.unit)
    modifyE (fun st => { st with lock := false })

/-- Backfill row loop. The shared run token can be bumped by pause between
suspension points; tokenAt i is its value observed at the checkpoint of
iteration i (the loop aborts when it no longer equals the captured token or
the subscriber is disabled). -/
def runBackfillLoop (env : EncEnv) (tokenAt : Nat → Nat) (token : Nat)
    (s : Session) : List EncRow → Nat → Option Key → EM EncSt PUnit
  | [], _, _ => pure PUnit.unit
  | r :: rest, i, cur => do
      let st ← getE
      let en := (st.store.getD defaultSession).enabled
      if tokenAt i ≠ token ∨ ¬ en then pure PUnit.unit
      else if cur.isSome ∧ ¬ isAfter r.toKey cur then
        runBackfillLoop env tokenAt token s rest (i + 1) cur
      else do
        modifyE (fun st1 => { st1 with processed := st1.processed ++ [r.toKey] })
        let _ ← sendEncounterForCharacter env r.bn r.h r.charId s token
        encSetSession { s with lastCursor := some r.toKey }
        runBackfillLoop env tokenAt token s rest (i + 1) (some r.toKey)

/-- runBackfill: scan the recent window, then process rows in order with a
pause-aware checkpoint before each row. -/
def runBackfill (env : EncEnv) (tokenAt : Nat → Nat) (head token : Nat) : EM EncSt PUnit := do
  let rows0 ← getEncounterRowsAscEnc env (head - BACKFILL_BLOCKS) head
  let rows := if 0 < BACKFILL_LIMIT ∧ BACKFILL_LIMIT < rows0.length
              then rows0.drop (rows0.length - BACKFILL_LIMIT) else rows0
  let s ← encGetSession
  runBackfillLoop env tokenAt token s rows 0 s.lastCursor

/-- bumpRun of the encounters watcher: increment the subscriber's run token. -/
def bumpRun (st : EncSt) : EncSt := { st with runToken := st.runToken + 1 }

/-- pause of the encounters watcher: clear the timer (external to this model)
and bump the run token to invalidate in-flight work. -/
def pauseEnc (st : EncSt) : EncSt := bumpRun st

/-! ## Mints watcher (mintsWatcher.ts) -/

/-- Strategy tags recorded in the model's attempt trace: the shared-cache
query, the same-transaction scan, the live probe, and the historical
backscan, in source priority order. -/
inductive Strat
  | cacheQ
  | sameTx
  | probe
  | backscan
deriving DecidableEq, Repr

/-- Pending-attribution entry: one mint awaiting resolution. -/
structure Pending where
  chatId : Nat
  bn : Nat
  txHash : String
  tokenId : Nat
  attempts : Nat
  firstSeen : Nat
deriving DecidableEq, Repr

/-- Attribution result shape: both fields optional, empty when unresolved. -/
structure MaybeAttrib where
  charId : Option Nat
  username : Option String
deriving DecidableEq, Repr

/-- Empty MaybeAttrib. -/
def MaybeAttrib.none0 : MaybeAttrib := { charId := none, username := none }

/-- JS truthiness of a nullable string (null and the empty string are
falsy). -/
def strTruthy : Option String → Bool
  | some s => s ≠ ""
  | none => false

/-- Oracle environment for one mints poll tick: the net result of each
retry-wrapped remote call. receiptAt is indexed by the attempt number of the
receipt wait loop. -/
structure MintEnv where
  now : Nat
  blockNumber : Except String Nat
  mintLogs : Nat → Nat → Except String (List MintLog)
  receiptAt : Nat → Except String (Option (List RLog))
  selectedCharacterId : String → Except String Nat
  oppVeraIds : Nat → Except String (List Nat)
  battleUsername : Nat → Except String String
  characterName : Nat → Except String String
  queuedCharacterIds : Except String (List Nat)
  setLogs : Nat → Nat → Except String (List SLog)
  getVera : Nat → Except String Vera

/-- Mutable state of the mints watcher for one subscriber: persisted session,
the pending-attribution queue, the event dedup namespace, the shared
attribution cache, the sink output, the strategy-attempt trace and the
processed-row keys (the last two are specification instrumentation). -/
structure MintSt where
  store : Option Session
  pending : List (String × Pending)
  seenEvent : List (String × Nat)
  cache : AttribMap
  sink : List Card
  trace : List Strat
  processed : List Key
deriving DecidableEq, Repr

/-- Resolve a username for a character id in the mints watcher. -/
def usernameFromCharacterIdM (env : MintEnv) (charId : Nat) : Option String :=
  usernameFromTwo (env.battleUsername charId) (env.characterName charId)

/-- characterOwnsOpponentVera: the character's current opponent list contains
the minted token; RPC failure counts as false. -/
def characterOwnsOpponentVera (env : MintEnv) (charId tokenId : Nat) : Bool :=
  match env.oppVeraIds charId with
  | Except.ok ids => ids.contains tokenId
  | Except.error _ => false

/-- Write a resolution into the shared attribution cache. -/
def cacheSetM (veraId charId : Nat) (username : Option String) (now : Nat) :
    EM MintSt PUnit :=
  modifyE (fun st => { st with cache := setFromEncounter st.cache veraId charId username now })

/-- Append a strategy tag to the attempt trace (model instrumentation). -/
def traceMark (t : Strat) : EM MintSt PUnit :=
  modifyE (fun st => { st with trace := st.trace ++ [t] })

/-- Receipt wait loop with the number of attempts left as structural fuel
(the source's for-loop bound of 10). -/
def waitReceiptAux (env : MintEnv) : Nat → Nat → EM MintSt (Option (List RLog))
  | 0, _ => pure none
  | left + 1, i => do
      let r ← liftE (env.receiptAt i)
      match r with
      | some rc => pure (some rc)
      | none => if left = 0 then pure none else waitReceiptAux env left (i + 1)

/-- Receipt wait loop: poll getTransactionReceipt up to 10 times. -/
def waitReceipt (env : MintEnv) : EM MintSt (Option (List RLog)) :=
  waitReceiptAux env 10 0

/-- Per-key body of the same-transaction scan: first the address reading of
the key (selectedCharacterId, membership check, username), then the uint
reading; any hit is cached and returned. -/
def tryKeysAttrib (env : MintEnv) (tokenId : Nat) : List String → EM MintSt (Option MaybeAttrib)
  | [] => pure none
  | k :: rest => do
      let hit1 : Option (Nat × String) :=
        match bytes32ToAddressOrNull k with
        | none => none
        | some addr =>
            match env.selectedCharacterId addr with
            | Except.error _ => none
            | Except.ok charId =>
                if 0 < charId ∧ characterOwnsOpponentVera env charId tokenId = true then
                  match usernameFromCharacterIdM env charId with
                  | some u => if strTruthy (some u) then some (charId, u) else none
                  | none => none
                else none
      match hit1 with
      | some (charId, u) => do
          cacheSetM tokenId charId (some u) env.now
          pure (some { charId := some charId, username := some u })
      | none =>
          let hit2 : Option (Nat × String) :=
            match hexToNat? k with
            | none => none
            | some charId =>
                if 0 < charId ∧ characterOwnsOpponentVera env charId tokenId = true then
                  match usernameFromCharacterIdM env charId with
                  | some u => if strTruthy (some u) then some (charId, u) else none
                  | none => none
                else none
          match hit2 with
          | some (charId, u) => do
              cacheSetM tokenId charId (some u) env.now
              pure (some { charId := some charId, username := some u })
          | none => tryKeysAttrib env tokenId rest

/-- Strict pass of the same-transaction scan: only Store_DeleteRecord logs of
the VeraTokenBacklog table. -/
def scanLogsStrict (env : MintEnv) (tokenId : Nat) : List RLog → EM MintSt (Option MaybeAttrib)
  | [] => pure none
  | lg :: rest =>
      if strLower lg.topic0 ≠ TOPIC_STORE_DELETE_RECORD ∨
         strLower lg.topic1 ≠ TABLE_VERA_TOKEN_BACKLOG then
        scanLogsStrict env tokenId rest
      else
        match lg.keyTuple with
        | none => scanLogsStrict env tokenId rest
        | some kt =>
            if kt.length = 0 then scanLogsStrict env tokenId rest
            else do
              let r ← tryKeysAttrib env tokenId kt
              match r with
              | some a => pure (some a)
              | none => scanLogsStrict env tokenId rest

/-- Broad pass of the same-transaction scan: any Store_SetRecord or
Store_DeleteRecord log in the transaction. -/
def scanLogsBroad (env : MintEnv) (tokenId : Nat) : List RLog → EM MintSt (Option MaybeAttrib)
  | [] => pure none
  | lg :: rest =>
      if strLower lg.topic0 ≠ TOPIC_STORE_SET_RECORD ∧
         strLower lg.topic0 ≠ TOPIC_STORE_DELETE_RECORD then
        scanLogsBroad env tokenId rest
      else
        match lg.keyTuple with
        | none => scanLogsBroad env tokenId rest
        | some kt =>
            if kt.length = 0 then scanLogsBroad env tokenId rest
            else do
              let r ← tryKeysAttrib env tokenId kt
              match r with
              | some a => pure (some a)
              | none => scanLogsBroad env tokenId rest

/-- Strategy A, tryAttributionFromSameTx: wait for the receipt, then the
strict backlog pass, then the broad pass. -/
def tryAttributionFromSameTx (env : MintEnv) (_txHash : String) (tokenId : Nat) :
    EM MintSt MaybeAttrib := do
  let rcpt ← waitReceipt env
  match rcpt with
  | none => pure MaybeAttrib.none0
  | some logs => do
      let r1 ← scanLogsStrict env tokenId logs
      match r1 with
      | some a => pure a
      | none => do
          let r2 ← scanLogsBroad env tokenId logs
          match r2 with
          | some a => pure a
          | none => pure MaybeAttrib.none0

/-- Per-character body of the live probe: accept the first queued character
whose opponent list contains the token (cached even when the username is
null). -/
def probeLoop (env : MintEnv) (tokenId : Nat) : List Nat → EM MintSt (Option MaybeAttrib)
  | [] => pure none
  | charId :: rest =>
      match env.oppVeraIds charId with
      | Except.error _ => probeLoop env tokenId rest
      | Except.ok ids =>
          if ids.contains tokenId then do
            let username := usernameFromCharacterIdM env charId
            cacheSetM tokenId charId username env.now
            pure (some { charId := some charId, username := username })
          else probeLoop env tokenId rest

/-- Strategy B, tryAttributionByOpponentProbe: enumerate up to
PROBE_MAX_CHARACTERS queued characters. -/
def tryAttributionByOpponentProbe (env : MintEnv) (tokenId : Nat) : EM MintSt MaybeAttrib := do
  let charIds :=
    match env.queuedCharacterIds with
    | Except.ok l => l.take PROBE_MAX_CHARACTERS
    | Except.error _ => []
  let r ← probeLoop env tokenId charIds
  pure (r.getD MaybeAttrib.none0)

/-- Decode one Store_SetRecord log for the backscan: any table whose ASCII
name hints at Encounter, keyTuple[0] a structurally valid bytes32. -/
def decodeSetLogBackscan (lg : SLog) : Option EncRow :=
  match lg.parsed with
  | none => none
  | some p =>
      if ¬ containsSub (strLower (asciiFromBytes32Hex (strLower p.tableId))) "encounter" then none
      else match p.keyTuple with
        | [] => none
        | k0 :: _ =>
            if ¬ strStarts k0 "0x" ∨ k0.length ≠ 66 then none
            else
              (hexToNat? k0).map fun charId =>
                { bn := lg.bn, txi := lg.txi, li := lg.li, h := lg.txHash, charId := charId }

/-- Batched Store_SetRecord fetch for the backscan. -/
def fetchSetBatches (env : MintEnv) (toB step : Nat) : List Nat → EM MintSt (List SLog)
  | [] => pure []
  | b :: rest => do
      let logs ← liftE (env.setLogs b (min toB (b + step - 1)))
      let more ← fetchSetBatches env toB step rest
      pure (logs ++ more)

/-- getEncounterRowsAsc of the mints watcher (backscan variant, no cap). -/
def getEncounterRowsAscM (env : MintEnv) (fromB toB : Nat) : EM MintSt (List EncRow) := do
  let logs ← fetchSetBatches env toB BLOCK_BATCH (batchStarts fromB toB BLOCK_BATCH)
  pure ((logs.filterMap decodeSetLogBackscan).insertionSort (keyLeOn EncRow.toKey))

/-- Per-row body of the backscan: first row whose character currently lists
the token as opponent wins (in chronological order). -/
def backscanLoop (env : MintEnv) (tokenId : Nat) : List EncRow → EM MintSt (Option MaybeAttrib)
  | [] => pure none
  | r :: rest =>
      match env.oppVeraIds r.charId with
      | Except.error _ => backscanLoop env tokenId rest
      | Except.ok opp =>
          if opp.contains tokenId then do
            let username := usernameFromCharacterIdM env r.charId
            cacheSetM tokenId r.charId username env.now
            pure (some { charId := some r.charId, username := username })
          else backscanLoop env tokenId rest

/-- Strategy C, populateAttributionNearMint: scan a bounded window before the
mint block for encounter rows and probe each in ascending order. -/
def populateAttributionNearMint (env : MintEnv) (mintBn tokenId : Nat) :
    EM MintSt MaybeAttrib := do
  let rows ← getEncounterRowsAscM env (mintBn - ATTRIB_BACKSCAN_BLOCKS) mintBn
  let r ← backscanLoop env tokenId rows
  pure (r.getD MaybeAttrib.none0)

/-- tryResolveAttribution: shared cache, then same-transaction scan, then
live probe, then historical backscan, short-circuiting on the first result
with a truthy username. Each source attempt is recorded in the trace. -/
def tryResolveAttribution (env : MintEnv) (bn : Nat) (txHash : String) (tokenId : Nat) :
    EM MintSt MaybeAttrib := do
  traceMark Strat.cacheQ
  let st ← getE
  let g := getAttribution st.cache tokenId env.now
  setE { st with cache := g.2 }
  let cached : MaybeAttrib :=
    match g.1 with
    | some cu => { charId := some cu.1, username := cu.2 }
    | none => MaybeAttrib.none0
  if strTruthy cached.username then pure cached
  else do
    traceMark Strat.sameTx
    let a ← tryAttributionFromSameTx env txHash tokenId
    if strTruthy a.username then pure a
    else do
      traceMark Strat.probe
      let b ← tryAttributionByOpponentProbe env tokenId
      if strTruthy b.username then pure b
      else do
        traceMark Strat.backscan
        let c ← populateAttributionNearMint env bn tokenId
        if strTruthy c.username then pure c
        else pure MaybeAttrib.none0

/-- hydrateVera in the mints watcher. -/
def hydrateVeraM (env : MintEnv) (veraId : Nat) : EM MintSt Vera :=
  liftE (env.getVera veraId)

/-- sendCardWithResolved: hydrate the token and hand the card to the sink
(fromPending is model instrumentation set by the caller). -/
def sendCardWithResolved (env : MintEnv) (_chatId bn : Nat) (_txHash : String)
    (tokenId : Nat) (username : Option String) (fromPending : Bool) : EM MintSt PUnit := do
  let hv ← hydrateVeraM env tokenId
  modifyE (fun st => { st with sink := st.sink ++ [{
    veraId := tokenId, level := hv.level, speciesId := hv.speciesId,
    personality := hv.personality, username := username, bn := bn,
    fromPending := fromPending }] })

/-- Pending-map key of a token. -/
def pendKey (tokenId : Nat) : String := toString tokenId

/-- Synchronous head of handleMint up to the first suspension inside the
send: event dedup, attribution, cache write on success or pending enqueue on
failure. Returns the username to send with, or none when nothing is sent. -/
def handleMintPre (env : MintEnv) (chatId bn : Nat) (txHash : String) (tokenId : Nat) :
    EM MintSt (Option (Option String)) := do
  let ek := toString bn ++ ":" ++ txHash ++ ":" ++ toString tokenId
  let st ← getE
  let d := seenWithTtl st.seenEvent ek bn EVENT_DEDUP_TTL
  setE { st with seenEvent := d.2 }
  if d.1 then pure none
  else do
    let attrib ← tryResolveAttribution env bn txHash tokenId
    if strTruthy attrib.username then do
      cacheSetM tokenId (attrib.charId.getD 0) attrib.username env.now
      pure (some attrib.username)
    else do
      let st2 ← getE
      if jsHas st2.pending (pendKey tokenId) then pure none
      else do
        let entry : Pending :=
          { chatId := chatId, bn := bn, txHash := txHash, tokenId := tokenId,
            attempts := 0, firstSeen := env.now }
        setE { st2 with pending := jsSet st2.pending (pendKey tokenId) entry }
        pure none

/-- handleMint: deliver the mint only when a username resolves, otherwise
enqueue it on the pending queue. -/
def handleMint (env : MintEnv) (chatId bn : Nat) (txHash : String) (tokenId : Nat)
    (_session : Session) : EM MintSt Bool := do
  let r ← handleMintPre env chatId bn txHash tokenId
  match r with
  | some username => do
      sendCardWithResolved env chatId bn txHash tokenId username false
      pure true
  | none => pure false

/-- Pending queue drain loop over a snapshot of the queue: skip entries whose
quadratic backoff has not elapsed; deliver and remove on success; otherwise
bump attempts, removing the entry once it reaches ATTRIB_MAX_RETRIES. -/
def processPendingLoop (env : MintEnv) : List (String × Pending) → EM MintSt PUnit
  | [] => pure PUnit.unit
  | (k, p) :: rest => do
      let nextDelay := 500 * (p.attempts + 1) ^ 2
      if env.now - p.firstSeen < nextDelay then processPendingLoop env rest
      else do
        let attrib ← tryResolveAttribution env p.bn p.txHash p.tokenId
        if strTruthy attrib.username then do
          sendCardWithResolved env p.chatId p.bn p.txHash p.tokenId attrib.username true
          modifyE (fun st => { st with pending := jsDelete st.pending k })
          processPendingLoop env rest
        else do
          let p1 := { p with attempts := p.attempts + 1 }
          if ATTRIB_MAX_RETRIES ≤ p1.attempts then
            modifyE (fun st => { st with pending := jsDelete st.pending k })
          else
            modifyE (fun st => { st with pending := jsSet st.pending k p1 })
          processPendingLoop env rest

/-- processPending: drain a snapshot of the pending queue. -/
def processPending (env : MintEnv) : EM MintSt PUnit := do
  let st ← getE
  processPendingLoop env st.pending

/-- Decode one Transfer log into a mint row. -/
def decodeMintLog (lg : MintLog) : Option MintRow :=
  lg.parsedTokenId.map fun t =>
    { bn := lg.bn, txi := lg.txi, li := lg.li, h := lg.txHash, tokenId := t }

/-- Batched mint-log fetch. -/
def fetchMintBatches (env : MintEnv) (toB step : Nat) : List Nat → EM MintSt (List MintLog)
  | [] => pure []
  | b :: rest => do
      let logs ← liftE (env.mintLogs b (min toB (b + step - 1)))
      let more ← fetchMintBatches env toB step rest
      pure (logs ++ more)

/-- getMintLogsAsc: batch-scan [fromB, toB] for mints, decode, sort
ascending. -/
def getMintLogsAsc (env : MintEnv) (fromB toB : Nat) : EM MintSt (List MintRow) := do
  let logs ← fetchMintBatches env toB BLOCK_BATCH (batchStarts fromB toB BLOCK_BATCH)
  pure ((logs.filterMap decodeMintLog).insertionSort (keyLeOn MintRow.toKey))

/-- getSession with the inline default, mints watcher. -/
def mintGetSession : EM MintSt Session := do
  let st ← getE
  pure (st.store.getD defaultSession)

/-- setSession, mints watcher. -/
def mintSetSession (s : Session) : EM MintSt PUnit :=
  modifyE (fun st => { st with store := some s })

/-- Row loop of the mints pollOnce. -/
def mintProcessLoop (env : MintEnv) (chatId : Nat) (session : Session) :
    List MintRow → Option Key → EM MintSt (Option Key)
  | [], last => pure last
  | r :: rest, _ => do
      modifyE (fun st => { st with processed := st.processed ++ [r.toKey] })
      let _ ← handleMint env chatId r.bn r.h r.tokenId session
      mintProcessLoop env chatId session rest (some r.toKey)

/-- Read phase of the mints pollOnce up to the row loop: session check,
pending drain, head fetch, scan, cursor filter. Returns none on the early
exits. -/
def mintScanPhase (env : MintEnv) : EM MintSt (Option (Session × List MintRow)) := do
  let s ← mintGetSession
  if ¬ s.enabled then pure none
  else do
    processPending env
    let head ← liftE env.blockNumber
    let cur := s.lastCursor
    let fromB := match cur with
      | some c => c.bn
      | none => head
    if head < fromB then pure none
    else do
      let rows ← getMintLogsAsc env fromB head
      pure (some (s, rows.filter (fun r => isAfter r.toKey cur)))

/-- pollOnce of the mints watcher: drain pending, scan fresh mints, process
them in order, persist the cursor. There is no per-subscriber lock and no
try/catch around the body. -/
def pollOnceMints (env : MintEnv) (chatId : Nat) : EM MintSt PUnit := do
  let r ← mintScanPhase env
  match r with
  | none => pure PUnit.unit
  | some st =>
      match st with
      | (s, todo) => do
          let last ← mintProcessLoop env chatId s todo none
          match last with
          | some k => mintSetSession { s with lastCursor := some k }
          | none => pure PUnit.unit

/-! ## Auxiliary specification notions and concrete scenario data -/

/-- Well-formed JS map: keys are unique (true of every map built by jsSet and
jsDelete from an empty map). -/
def jsWF [DecidableEq κ] (m : List (κ × β)) : Prop := (m.map Prod.fst).Nodup

/-- Order on optional cursors: an absent cursor is below everything. -/
def cursorLe : Option Key → Option Key → Prop
  | none, _ => True
  | some _, none => False
  | some a, some b => keyLe a b

/-- Persisted cursor of the encounters watcher state. -/
def encCursorOf (st : EncSt) : Option Key := (st.store.getD defaultSession).lastCursor

/-- Persisted cursor of the mints watcher state. -/
def mintCursorOf (st : MintSt) : Option Key := (st.store.getD defaultSession).lastCursor

/-- Run one mints poll tick per environment in sequence; a tick's rejection
does not stop later ticks (each interval callback is independent). -/
def runMintPolls (chatId : Nat) : List MintEnv → MintSt → MintSt
  | [], st => st
  | env :: rest, st => runMintPolls chatId rest ((pollOnceMints env chatId) st).2

/-- Every tick of the run returns without throwing. -/
def mintTicksOk (chatId : Nat) : List MintEnv → MintSt → Prop
  | [], _ => True
  | env :: rest, st =>
      ((pollOnceMints env chatId) st).1 = Except.ok PUnit.unit ∧
      mintTicksOk chatId rest ((pollOnceMints env chatId) st).2

/-- Blocks of the scan-originated (non-pending) deliveries, in sink order. -/
def scanBns (st : MintSt) : List Nat :=
  (st.sink.filter (fun c => c.fromPending = false)).map Card.bn

/-- Dedup namespace holding 6000 distinct keys, for the size-ceiling
behaviour. -/
def bigDedupMap : List (Nat × Nat) := (List.range 6000).map (fun i => (i, 0))

/-- Vera record with given level and species and unit innate stats. -/
def veraOf (lvl sp : Nat) : Vera :=
  { level := lvl, speciesId := sp, personality := none, strength := 1, dexterity := 1,
    vitality := 1, intellect := 1, wisdom := 1, charisma := 1 }

/-- Baseline mints environment: empty chain, all name lookups fail, head
query fails (overridden per scenario). -/
def mintEnvBase : MintEnv :=
  { now := 0
    blockNumber := Except.error "timeout: eth_blockNumber"
    mintLogs := fun _ _ => Except.ok []
    receiptAt := fun _ => Except.ok none
    selectedCharacterId := fun _ => Except.error "timeout: selId"
    oppVeraIds := fun _ => Except.ok []
    battleUsername := fun _ => Except.error "missing response"
    characterName := fun _ => Except.error "missing response"
    queuedCharacterIds := Except.ok []
    setLogs := fun _ _ => Except.ok []
    getVera := fun v => Except.ok (veraOf 1 v) }

/-- Baseline encounters environment. -/
def encEnvBase : EncEnv :=
  { now := 0
    blockNumber := Except.ok 100
    getLogs := fun _ _ => Except.ok []
    oppVeras := fun _ _ => Except.ok []
    battleUsername := fun _ => Except.error "missing response"
    characterName := fun _ => Except.error "missing response"
    getVera := fun v => Except.ok (veraOf 1 v) }

/-- Baseline encounters state: enabled subscriber, no cursor, empty caches. -/
def encStBase : EncSt :=
  { lock := false, runToken := 0,
    store := some { enabled := true, usernames := [], lastCursor := none },
    seenEvent := [], seenSticky := [], cache := [], sink := [], processed := [] }

/-- Pending entry one failed attempt away from the maximum retry count. -/
def c1Pending : Pending :=
  { chatId := 0, bn := 101, txHash := "0xt7", tokenId := 7, attempts := 7, firstSeen := 0 }

/-- State whose pending queue holds only c1Pending, with every attribution
source empty. -/
def c1St : MintSt :=
  { store := some { enabled := true, usernames := [], lastCursor := some ⟨101, 0, 0⟩ },
    pending := [(pendKey 7, c1Pending)], seenEvent := [], cache := [], sink := [],
    trace := [], processed := [] }

/-- Environment for the exhaustion scenario: backoff long elapsed, every
attribution strategy misses. -/
def c1Env : MintEnv := { mintEnvBase with now := 40000 }

/-- State for the tick-degradation scenario: enabled subscriber with a
cursor, nothing pending. -/
def c9St : MintSt :=
  { store := some { enabled := true, usernames := [], lastCursor := some ⟨100, 0, 0⟩ },
    pending := [], seenEvent := [], cache := [], sink := [], trace := [], processed := [] }

/-- Session state for the delivery-order scenario: cursor at block 100, a
cached attribution for token 8 only. -/
def c3St0 : MintSt :=
  { store := some { enabled := true, usernames := [], lastCursor := some ⟨100, 0, 0⟩ },
    pending := [], seenEvent := [],
    cache := [(8, { charId := 5, username := some "bob", expiresAt := 99999999 })],
    sink := [], trace := [], processed := [] }

/-- Raw mint log of token 7 at (101,0,0). -/
def c3Log7 : MintLog := { bn := 101, txi := 0, li := 0, parsedTokenId := some 7, txHash := "0xt7" }

/-- Raw mint log of token 8 at (102,0,0). -/
def c3Log8 : MintLog := { bn := 102, txi := 0, li := 0, parsedTokenId := some 8, txHash := "0xt8" }

/-- Tick 1 environment: head 101, one mint of token 7 at (101,0,0), no
attribution source available. -/
def c3Env1 : MintEnv :=
  { mintEnvBase with
    now := 1000
    blockNumber := Except.ok 101
    mintLogs := fun a _ => if a = 100 then Except.ok [c3Log7] else Except.ok [] }

/-- Tick 2 environment: head 102, one mint of token 8 at (102,0,0),
attributable from the cache; the pending retry backoff has not elapsed. -/
def c3Env2 : MintEnv :=
  { mintEnvBase with
    now := 1000
    blockNumber := Except.ok 102
    mintLogs := fun a _ => if a = 101 then Except.ok [c3Log8] else Except.ok [] }

/-- Tick 3 environment: no new mints; the live probe now resolves token 7 to
character 5 (alice). -/
def c3Env3 : MintEnv :=
  { mintEnvBase with
    now := 999999
    blockNumber := Except.ok 102
    queuedCharacterIds := Except.ok [5]
    oppVeraIds := fun c => if c = 5 then Except.ok [7] else Except.ok []
    battleUsername := fun c =>
      if c = 5 then Except.ok "alice" else Except.error "missing response" }

/-- Final state of the three-tick delivery-order scenario. -/
def c3Run : MintSt := runMintPolls 0 [c3Env1, c3Env2, c3Env3] c3St0

/-- Card delivered for token 8 from the scan of tick 2. -/
def c3Card8 : Card :=
  { veraId := 8, level := 1, speciesId := 8, personality := none, username := some "bob",
    bn := 102, fromPending := false }

/-- Card delivered for token 7 from the pending queue in tick 3. -/
def c3Card7 : Card :=
  { veraId := 7, level := 1, speciesId := 7, personality := none, username := some "alice",
    bn := 101, fromPending := true }

/-- Attribution cache for the concurrency scenario: both tokens resolvable
synchronously. -/
def c4Cache : AttribMap :=
  [(7, { charId := 5, username := some "alice", expiresAt := 99999999 }),
   (8, { charId := 6, username := some "bob", expiresAt := 99999999 })]

/-- Initial state of the concurrency scenario. -/
def c4St0 : MintSt :=
  { store := some { enabled := true, usernames := [], lastCursor := some ⟨100, 0, 0⟩ },
    pending := [], seenEvent := [], cache := c4Cache, sink := [], trace := [], processed := [] }

/-- Raw mint log of token 7 at (101,0,0), concurrency scenario. -/
def c4Log7 : MintLog := { bn := 101, txi := 0, li := 0, parsedTokenId := some 7, txHash := "0xt78" }

/-- Raw mint log of token 8 at (101,0,1), concurrency scenario. -/
def c4Log8 : MintLog := { bn := 101, txi := 0, li := 1, parsedTokenId := some 8, txHash := "0xt78" }

/-- Environment of the concurrency scenario: two mints in block 101 of one
transaction. -/
def c4Env : MintEnv :=
  { mintEnvBase with
    now := 1000
    blockNumber := Except.ok 101
    mintLogs := fun a _ => if a = 100 then Except.ok [c4Log7, c4Log8] else Except.ok [] }

/-- Invocation A of the concurrency scenario, run to its first suspension
inside the send of its first row (every earlier await of A completed before
invocation B started). Returns A's local context. -/
def c4SegA1 : EM MintSt (Option (Session × List MintRow × Option (Option String))) := do
  let rA ← mintScanPhase c4Env
  match rA with
  | some (sA, r1 :: rest) => do
      modifyE (fun st => { st with processed := st.processed ++ [r1.toKey] })
      let pre ← handleMintPre c4Env 0 r1.bn r1.h r1.tokenId
      pure (some (sA, r1 :: rest, pre))
  | _ => pure none

/-- Resumption of invocation A after B's tick: completes the pending send,
the remaining rows, and the cursor write. -/
def c4SegA2 (ctx : Option (Session × List MintRow × Option (Option String))) :
    EM MintSt PUnit :=
  match ctx with
  | some (sA, r1 :: rest, pre) => do
      (match pre with
       | some username => sendCardWithResolved c4Env 0 r1.bn r1.h r1.tokenId username false
       | none => pure PUnit.unit)
      let last ← mintProcessLoop c4Env 0 sA rest (some r1.toKey)
      (match last with
       | some k => mintSetSession { sA with lastCursor := some k }
       | none => pure PUnit.unit)
  | _ => pure PUnit.unit

/-- Cooperative interleaving of two mints pollOnce invocations for the same
subscriber: A up to the await inside its first send, then B's entire tick
during that suspension, then A's continuation. c4SegA1 followed directly by
c4SegA2 is exactly one pollOnce (shown below), so this schedule is a legal
interleaving of two pollOnce executions. -/
def c4Schedule : EM MintSt PUnit := do
  let ctx ← c4SegA1
  pollOnceMints c4Env 0
  c4SegA2 ctx

/-- Card delivered by invocation B for token 8. -/
def c4Card8 : Card :=
  { veraId := 8, level := 1, speciesId := 8, personality := none, username := some "bob",
    bn := 101, fromPending := false }

/-- Card delivered by invocation A for token 7. -/
def c4Card7 : Card :=
  { veraId := 7, level := 1, speciesId := 7, personality := none, username := some "alice",
    bn := 101, fromPending := false }

/-- Components of the mints state untouched by the attribution machinery:
everything except the cache and the trace. -/
def MPres (st st1 : MintSt) : Prop :=
  st1.store = st.store ∧ st1.pending = st.pending ∧ st1.seenEvent = st.seenEvent ∧
  st1.sink = st.sink ∧ st1.processed = st.processed

/-- Components of the encounters state untouched by per-row processing:
the persisted session and the processed instrumentation. -/
def EPres (st st1 : EncSt) : Prop :=
  st1.store = st.store ∧ st1.processed = st.processed

/-- The cursor has advanced from c0: either unchanged or strictly after it. -/
def curAdv (c0 c : Option Key) : Prop :=
  c = c0 ∨ ∃ k, c = some k ∧ isAfter k c0 = true

/-- The store, processed and sink components of the mints state are
unchanged. -/
def KPres (st st1 : MintSt) : Prop :=
  st1.store = st.store ∧ st1.processed = st.processed ∧ st1.sink = st.sink

/-- Card assembled by the mints send for a hydrated vera. -/
def mkMintCard (tok : Nat) (hv : Vera) (u : Option String) (bn : Nat) (fp : Bool) : Card :=
  { veraId := tok, level := hv.level, speciesId := hv.speciesId,
    personality := hv.personality, username := u, bn := bn, fromPending := fp }

/-! # Theorems -/

@[simp] theorem EM_bind_apply (x : EM σ α) (f : α → EM σ β) (s : σ) :
    (x >>= f) s = match x s with
      | (Except.ok a, s1) => f a s1
      | (Except.error e, s1) => (Except.error e, s1) := rfl

@[simp] theorem EM_pure_apply (a : α) (s : σ) :
    (Pure.pure a : EM σ α) s = (Except.ok a, s) := rfl

@[simp] theorem throwE_apply (e : String) (s : σ) :
    (throwE e : EM σ α) s = (Except.error e, s) := rfl

@[simp] theorem getE_apply (s : σ) : (getE : EM σ σ) s = (Except.ok s, s) := rfl

@[simp] theorem setE_apply (s1 s : σ) : (setE s1 : EM σ PUnit) s = (Except.ok PUnit.unit, s1) := rfl

@[simp] theorem modifyE_apply (f : σ → σ) (s : σ) :
    (modifyE f : EM σ PUnit) s = (Except.ok PUnit.unit, f s) := rfl

@[simp] theorem liftE_apply (r : Except String α) (s : σ) : (liftE r : EM σ α) s = (r, s) := rfl

@[simp] theorem tryCatchE_apply (x : EM σ α) (h : String → EM σ α) (s : σ) :
    tryCatchE x h s = match x s with
      | (Except.ok a, s1) => (Except.ok a, s1)
      | (Except.error e, s1) => h e s1 := rfl

theorem jsGet_eq_none [DecidableEq κ] (m : List (κ × β)) (k : κ)
    (h : ∀ p ∈ m, p.1 ≠ k) : jsGet m k = none := by
  induction m with
  | nil => rfl
  | cons hd tl ih =>
      simp only [jsGet]
      rw [if_neg (h hd (List.mem_cons_self hd tl))]
      exact ih fun p hp => h p (List.mem_cons_of_mem hd hp)

theorem jsSet_of_absent [DecidableEq κ] (m : List (κ × β)) (k : κ) (v : β)
    (h : ∀ p ∈ m, p.1 ≠ k) : jsSet m k v = m ++ [(k, v)] := by
  induction m with
  | nil => rfl
  | cons hd tl ih =>
      simp only [jsSet]
      rw [if_neg (h hd (List.mem_cons_self hd tl))]
      rw [ih fun p hp => h p (List.mem_cons_of_mem hd hp)]
      rfl

theorem jsGet_jsSet_self [DecidableEq κ] (m : List (κ × β)) (k : κ) (v : β) :
    jsGet (jsSet m k v) k = some v := by
  induction m with
  | nil => simp [jsSet, jsGet]
  | cons hd tl ih =>
      by_cases h : hd.1 = k
      · simp [jsSet, jsGet, h]
      · simpa [jsSet, jsGet, h] using ih

theorem jsGet_jsSet_other [DecidableEq κ] (m : List (κ × β)) (k k1 : κ) (v : β)
    (h : k1 ≠ k) : jsGet (jsSet m k v) k1 = jsGet m k1 := by
  induction m with
  | nil =>
      simp only [jsSet, jsGet]
      rw [if_neg (Ne.symm h)]
  | cons hd tl ih =>
      obtain ⟨a, b⟩ := hd
      by_cases hh : a = k
      · subst hh
        simp only [jsSet, if_pos rfl, jsGet]
        rw [if_neg (fun h2 : a = k1 => h (h2.symm)), if_neg (fun h2 : a = k1 => h (h2.symm))]
      · simp only [jsSet, if_neg hh, jsGet]
        by_cases h2 : a = k1
        · rw [if_pos h2, if_pos h2]
        · rw [if_neg h2, if_neg h2, ih]

theorem mem_of_jsGet [DecidableEq κ] {m : List (κ × β)} {k : κ} {v : β}
    (h : jsGet m k = some v) : (k, v) ∈ m := by
  induction m with
  | nil => simp [jsGet] at h
  | cons hd tl ih =>
      obtain ⟨a, b⟩ := hd
      by_cases ha : a = k
      · subst ha
        rw [jsGet, if_pos rfl] at h
        have hb : b = v := by injection h
        subst hb
        exact List.mem_cons_self _ _
      · rw [jsGet, if_neg ha] at h
        exact List.mem_cons_of_mem _ (ih h)

theorem jsGet_of_mem_wf [DecidableEq κ] {m : List (κ × β)} {k : κ} {v : β}
    (hw : jsWF m) (h : (k, v) ∈ m) : jsGet m k = some v := by
  induction m with
  | nil => cases h
  | cons hd tl ih =>
      obtain ⟨a, b⟩ := hd
      rw [jsWF, List.map_cons, List.nodup_cons] at hw
      rcases List.mem_cons.mp h with heq | htl
      · have h1 : a = k := congrArg Prod.fst heq.symm
        have h2 : b = v := congrArg Prod.snd heq.symm
        rw [jsGet, if_pos h1, h2]
      · have hkmem : k ∈ tl.map Prod.fst := List.mem_map.mpr ⟨(k, v), htl, rfl⟩
        have hne : a ≠ k := fun he => hw.1 (by rw [he]; exact hkmem)
        rw [jsGet, if_neg hne]
        exact ih hw.2 htl

theorem mem_keys_jsSet [DecidableEq κ] {m : List (κ × β)} {k a : κ} {v : β}
    (h : a ∈ (jsSet m k v).map Prod.fst) : a ∈ m.map Prod.fst ∨ a = k := by
  induction m with
  | nil =>
      rw [jsSet, List.map_cons, List.map_nil] at h
      exact Or.inr (List.mem_singleton.mp h)
  | cons hd tl ih =>
      obtain ⟨a1, b1⟩ := hd
      by_cases ha : a1 = k
      · rw [jsSet, if_pos ha, List.map_cons] at h
        rw [List.map_cons]
        exact Or.inl h
      · rw [jsSet, if_neg ha, List.map_cons] at h
        rw [List.map_cons]
        rcases List.mem_cons.mp h with h1 | h1
        · exact Or.inl (List.mem_cons.mpr (Or.inl h1))
        · rcases ih h1 with h2 | h2
          · exact Or.inl (List.mem_cons.mpr (Or.inr h2))
          · exact Or.inr h2

theorem jsWF_jsSet [DecidableEq κ] {m : List (κ × β)} (hw : jsWF m) (k : κ) (v : β) :
    jsWF (jsSet m k v) := by
  induction m with
  | nil => simp [jsWF, jsSet]
  | cons hd tl ih =>
      obtain ⟨a, b⟩ := hd
      rw [jsWF, List.map_cons, List.nodup_cons] at hw
      by_cases ha : a = k
      · rw [jsWF, jsSet, if_pos ha, List.map_cons, List.nodup_cons]
        exact hw
      · rw [jsWF, jsSet, if_neg ha, List.map_cons, List.nodup_cons]
        refine ⟨fun hmem => ?_, ih hw.2⟩
        rcases mem_keys_jsSet hmem with h2 | h2
        · exact hw.1 h2
        · exact ha h2

theorem jsDelete_sublist [DecidableEq κ] (m : List (κ × β)) (k : κ) :
    List.Sublist (jsDelete m k) m := by
  induction m with
  | nil => simp [jsDelete]
  | cons hd tl ih =>
      obtain ⟨a, b⟩ := hd
      by_cases ha : a = k
      · rw [jsDelete, if_pos ha]
        exact List.sublist_cons_self (a, b) tl
      · rw [jsDelete, if_neg ha]
        exact ih.cons₂ (a, b)

theorem jsWF_sublist [DecidableEq κ] {m m2 : List (κ × β)} (h : List.Sublist m2 m)
    (hw : jsWF m) : jsWF m2 :=
  List.Nodup.sublist (h.map Prod.fst) hw

theorem jsGet_jsDelete_self [DecidableEq κ] {m : List (κ × β)} (hw : jsWF m) (k : κ) :
    jsGet (jsDelete m k) k = none := by
  induction m with
  | nil => rfl
  | cons hd tl ih =>
      obtain ⟨a, b⟩ := hd
      rw [jsWF, List.map_cons, List.nodup_cons] at hw
      by_cases ha : a = k
      · subst ha
        rw [jsDelete, if_pos rfl]
        exact jsGet_eq_none _ _ fun p hp => fun he =>
          hw.1 (List.mem_map.mpr ⟨p, hp, he⟩)
      · rw [jsDelete, if_neg ha, jsGet, if_neg ha]
        exact ih hw.2

/-! ## Attribution cache lemmas -/

theorem jsGet_pruneLight {m : AttribMap} {t k : Nat} {v : Attrib}
    (hget : jsGet m k = some v) (hun : t < v.expiresAt) :
    jsGet (pruneLight m t) k = some v := by
  induction m with
  | nil => simp [jsGet] at hget
  | cons hd tl ih =>
      obtain ⟨k1, v1⟩ := hd
      by_cases hk : k1 = k
      · subst hk
        rw [jsGet, if_pos rfl] at hget
        obtain rfl : v1 = v := by injection hget
        rw [pruneLight, if_neg (by omega)]
        rw [jsGet, if_pos rfl]
      · rw [jsGet, if_neg hk] at hget
        rw [pruneLight]
        by_cases he : v1.expiresAt ≤ t
        · rw [if_pos he]
          exact hget
        · rw [if_neg he, jsGet, if_neg hk]
          exact ih hget

theorem jsGet_pruneFull {m : AttribMap} {t k : Nat} {v : Attrib}
    (hget : jsGet m k = some v) (hun : t < v.expiresAt) :
    jsGet (pruneFull m t) k = some v := by
  induction m with
  | nil => simp [jsGet] at hget
  | cons hd tl ih =>
      obtain ⟨k1, v1⟩ := hd
      by_cases hk : k1 = k
      · subst hk
        rw [jsGet, if_pos rfl] at hget
        obtain rfl : v1 = v := by injection hget
        rw [pruneFull, List.filter_cons, if_pos (by simpa using hun)]
        rw [jsGet, if_pos rfl]
      · rw [jsGet, if_neg hk] at hget
        rw [pruneFull, List.filter_cons]
        by_cases he : t < v1.expiresAt
        · rw [if_pos (by simpa using he), jsGet, if_neg hk]
          exact ih hget
        · rw [if_neg (by simpa using he)]
          exact ih hget

theorem jsGet_prune {m : AttribMap} {t k : Nat} {v : Attrib}
    (hget : jsGet m k = some v) (hun : t < v.expiresAt) :
    jsGet (prune m t) k = some v := by
  rw [prune]
  by_cases hl : m.length > 5000
  · rw [if_pos hl]
    exact jsGet_pruneFull hget hun
  · rw [if_neg hl]
    exact jsGet_pruneLight hget hun

theorem pruneLight_sublist (m : AttribMap) (t : Nat) : List.Sublist (pruneLight m t) m := by
  induction m with
  | nil => simp [pruneLight]
  | cons hd tl ih =>
      obtain ⟨k1, v1⟩ := hd
      rw [pruneLight]
      by_cases he : v1.expiresAt ≤ t
      · rw [if_pos he]
        exact List.sublist_cons_self (k1, v1) tl
      · rw [if_neg he]
        exact ih.cons₂ (k1, v1)

theorem prune_sublist (m : AttribMap) (t : Nat) : List.Sublist (prune m t) m := by
  rw [prune]
  by_cases hl : m.length > 5000
  · rw [if_pos hl]
    exact List.filter_sublist m
  · rw [if_neg hl]
    exact pruneLight_sublist m t

theorem jsGet_some_of_sublist [DecidableEq κ] {m m2 : List (κ × β)} (h : List.Sublist m2 m)
    (hw : jsWF m) {k : κ} {v : β} (hget : jsGet m2 k = some v) : jsGet m k = some v :=
  jsGet_of_mem_wf hw (h.subset (mem_of_jsGet hget))

/-- C6 counterexample: with 6000 entries already recorded, a fresh key at
block 101 with TTL 900 returns false but is not recorded afterwards — the
insertion passes the size ceiling and the whole namespace is cleared, so a
lookup of the key yields nothing, contradicting the claim that the call
records key -> currentBlock + ttlBlocks. -/
theorem C6_dedup_ceiling_counterexample :
    (seenWithTtl bigDedupMap 6000 101 900).1 = false ∧
    (seenWithTtl bigDedupMap 6000 101 900).2 = [] ∧
    jsGet ((seenWithTtl bigDedupMap 6000 101 900).2) 6000 = none := by
  have habs : ∀ p ∈ bigDedupMap, p.1 ≠ 6000 := by
    intro p hp
    simp only [bigDedupMap, List.mem_map, List.mem_range] at hp
    obtain ⟨i, hi, rfl⟩ := hp
    simpa using Nat.ne_of_lt hi
  have h1 : jsGet bigDedupMap 6000 = none := jsGet_eq_none _ _ habs
  have h3 : (jsSet bigDedupMap 6000 (101 + 900)).length = 6001 := by
    rw [jsSet_of_absent _ _ _ habs]
    simp [bigDedupMap]
  have h4 : seenWithTtl bigDedupMap 6000 101 900 = (false, []) := by
    simp only [seenWithTtl, h1, Option.getD_none]
    rw [if_neg (by omega : ¬ (101 : Nat) ≤ 0), if_pos (by rw [h3]; omega)]
  exact ⟨by rw [h4], by rw [h4], by rw [h4]; rfl⟩

/-- C6 (amended): seenWithTtl returns true and leaves the namespace unchanged
when the key is recorded with expiry at or beyond the current block;
otherwise it returns false and records key -> currentBlock + ttlBlocks,
except that an insertion passing the 6000-entry ceiling clears the whole
namespace; the sticky-TTL-900 scenario (delivered at 101, suppressed at 500,
delivered again at 1050) holds. -/
theorem C6_seenWithTtl_contract [DecidableEq κ] (m : List (κ × Nat)) (key : κ) (bn ttl : Nat) :
    (bn ≤ (jsGet m key).getD 0 → seenWithTtl m key bn ttl = (true, m)) ∧
    ((jsGet m key).getD 0 < bn →
      (seenWithTtl m key bn ttl).1 = false ∧
      ((jsSet m key (bn + ttl)).length ≤ 6000 →
        jsGet (seenWithTtl m key bn ttl).2 key = some (bn + ttl)) ∧
      (6000 < (jsSet m key (bn + ttl)).length → (seenWithTtl m key bn ttl).2 = [])) ∧
    ((seenWithTtl ([] : List (κ × Nat)) key 101 900).1 = false ∧
     seenWithTtl (seenWithTtl ([] : List (κ × Nat)) key 101 900).2 key 500 900
        = (true, (seenWithTtl ([] : List (κ × Nat)) key 101 900).2) ∧
     (seenWithTtl (seenWithTtl (seenWithTtl ([] : List (κ × Nat)) key 101 900).2 key 500 900).2
        key 1050 900).1 = false) := by
  refine ⟨fun h => ?_, fun h => ⟨?_, fun hlen => ?_, fun hlen => ?_⟩, ?_, ?_, ?_⟩
  · rw [seenWithTtl, if_pos h]
  · rw [seenWithTtl, if_neg (by omega)]
  · rw [seenWithTtl, if_neg (by omega)]
    simp only
    rw [if_neg (by omega)]
    exact jsGet_jsSet_self m key (bn + ttl)
  · rw [seenWithTtl, if_neg (by omega)]
    simp only
    rw [if_pos (by omega)]
  · simp [seenWithTtl, jsGet, jsSet]
  · simp [seenWithTtl, jsGet, jsSet]
  · simp [seenWithTtl, jsGet, jsSet]

/-- C6 witness: a key recorded with expiry 5 suppresses at block 1 and keeps
the namespace; a fresh key is recorded and delivered. -/
theorem C6_seenWithTtl_contract_witness :
    seenWithTtl [((0 : Nat), 5)] 0 1 1 = (true, [(0, 5)]) ∧
    (seenWithTtl ([] : List (Nat × Nat)) 0 1 1).1 = false :=
  ⟨(C6_seenWithTtl_contract [((0 : Nat), 5)] 0 1 1).1 (by decide),
   ((C6_seenWithTtl_contract ([] : List (Nat × Nat)) 0 1 1).2.1 (by decide)).1⟩

/-- C10: immediately after setFromEncounter(veraId, charId, username),
getAttribution(veraId) returns exactly (charId, username) while the
wall-clock TTL has not elapsed; once the expiry is at or before now it
returns null and the entry is gone from the cache afterwards; and any
successful getAttribution read comes from an entry whose expiry is strictly
beyond now — an expired entry is never returned. -/
theorem C10_attribution_cache_contract :
    (∀ (m : AttribMap) (veraId charId : Nat) (username : Option String) (now t : Nat),
      t < now + TTL_MS →
      (getAttribution (setFromEncounter m veraId charId username now) veraId t).1
        = some (charId, username)) ∧
    (∀ (m : AttribMap), jsWF m →
      ∀ (veraId charId : Nat) (username : Option String) (now t : Nat),
      now + TTL_MS ≤ t →
      (getAttribution (setFromEncounter m veraId charId username now) veraId t).1 = none ∧
      jsGet (getAttribution (setFromEncounter m veraId charId username now) veraId t).2
        veraId = none) ∧
    (∀ (m : AttribMap) (id t : Nat) (r : Nat × Option String),
      (getAttribution m id t).1 = some r →
      ∃ v : Attrib, jsGet (prune m t) id = some v ∧ t < v.expiresAt ∧
        v.charId = r.1 ∧ v.username = r.2) := by
  refine ⟨?_, ?_, ?_⟩
  · intro m veraId charId username now t ht
    have hset : jsGet (setFromEncounter m veraId charId username now) veraId
        = some (⟨charId, username, now + TTL_MS⟩ : Attrib) :=
      jsGet_jsSet_self _ _ _
    have hun : t < (⟨charId, username, now + TTL_MS⟩ : Attrib).expiresAt := ht
    have hp := jsGet_prune (t := t) hset hun
    have hga : getAttribution (setFromEncounter m veraId charId username now) veraId t
        = (some (charId, username),
           prune (setFromEncounter m veraId charId username now) t) := by
      rw [getAttribution]
      simp only [hp]
      rw [if_neg (by omega : ¬ ((⟨charId, username, now + TTL_MS⟩ : Attrib).expiresAt ≤ t))]
    rw [hga]
  · intro m hw veraId charId username now t ht
    have hwp : jsWF (setFromEncounter m veraId charId username now) :=
      jsWF_jsSet (jsWF_sublist (prune_sublist m now) hw) _ _
    have hset : jsGet (setFromEncounter m veraId charId username now) veraId
        = some (⟨charId, username, now + TTL_MS⟩ : Attrib) :=
      jsGet_jsSet_self _ _ _
    have hwp2 : jsWF (prune (setFromEncounter m veraId charId username now) t) :=
      jsWF_sublist (prune_sublist _ t) hwp
    cases hg : jsGet (prune (setFromEncounter m veraId charId username now) t) veraId with
    | none =>
        have hga : getAttribution (setFromEncounter m veraId charId username now) veraId t
            = (none, prune (setFromEncounter m veraId charId username now) t) := by
          rw [getAttribution]
          simp only [hg]
        rw [hga]
        exact ⟨rfl, hg⟩
    | some v =>
        have hvv : jsGet (setFromEncounter m veraId charId username now) veraId = some v :=
          jsGet_some_of_sublist (prune_sublist _ t) hwp hg
        rw [hset] at hvv
        have hve : v.expiresAt = now + TTL_MS := by
          have h2 := Option.some.inj hvv
          rw [← h2]
        have hga : getAttribution (setFromEncounter m veraId charId username now) veraId t
            = (none,
               jsDelete (prune (setFromEncounter m veraId charId username now) t) veraId) := by
          rw [getAttribution]
          simp only [hg]
          rw [if_pos (by omega)]
        rw [hga]
        exact ⟨rfl, jsGet_jsDelete_self hwp2 veraId⟩
  · intro m id t r hr
    have hlet : (getAttribution m id t).1
        = (match jsGet (prune m t) id with
           | none => (none, prune m t)
           | some v =>
              if v.expiresAt ≤ t then
                ((none : Option (Nat × Option String)), jsDelete (prune m t) id)
              else (some (v.charId, v.username), prune m t)).1 := rfl
    rw [hlet] at hr
    cases hg : jsGet (prune m t) id with
    | none => rw [hg] at hr; cases hr
    | some v =>
        rw [hg] at hr
        have hr2 : (if v.expiresAt ≤ t then
              ((none : Option (Nat × Option String)), jsDelete (prune m t) id)
            else (some (v.charId, v.username), prune m t)).1 = some r := hr
        by_cases he : v.expiresAt ≤ t
        · rw [if_pos he] at hr2
          cases hr2
        · rw [if_neg he] at hr2
          have h2 := Prod.mk.inj (Option.some.inj hr2)
          exact ⟨v, rfl, by omega, h2.1.symm ▸ rfl, h2.2.symm ▸ rfl⟩

/-! ## RPC retry lemmas -/

theorem rpcLoop_step_ok (retryable : String → Bool) (cap : Nat)
    (outcomes : Nat → Except String α) (jitter : Nat → Nat) (label : String)
    (tries left i delay : Nat) (v : α) (h : outcomes i = Except.ok v) :
    rpcLoop retryable cap outcomes jitter label tries (left + 1) i delay
      = (Except.ok v, []) := by
  rw [rpcLoop, h]

theorem rpcLoop_step_err (retryable : String → Bool) (cap : Nat)
    (outcomes : Nat → Except String α) (jitter : Nat → Nat) (label : String)
    (tries left i delay : Nat) (e : String) (h : outcomes i = Except.error e) :
    rpcLoop retryable cap outcomes jitter label tries (left + 1) i delay
      = if retryable e = false ∨ i = tries - 1 then (Except.error e, [])
        else
          ((rpcLoop retryable cap outcomes jitter label tries left (i + 1)
              (min (delay * 2) cap)).1,
           (delay + jitter i) ::
             (rpcLoop retryable cap outcomes jitter label tries left (i + 1)
               (min (delay * 2) cap)).2) := by
  rw [rpcLoop, h]

theorem rpcLoop_allFail (retryable : String → Bool) (cap : Nat)
    (outcomes : Nat → Except String α) (jitter : Nat → Nat) (label : String) (tries : Nat)
    (errAt : Nat → String) (hout : ∀ j, outcomes j = Except.error (errAt j))
    (hret : ∀ j, retryable (errAt j) = true) :
    ∀ (l i delay : Nat), i + (l + 1) = tries →
      rpcLoop retryable cap outcomes jitter label tries (l + 1) i delay
        = (Except.error (errAt (tries - 1)),
           (List.range l).map (fun j => delayIter cap delay j + jitter (i + j))) := by
  intro l
  induction l with
  | zero =>
      intro i delay hi
      have h1 : i = tries - 1 := by omega
      rw [rpcLoop_step_err retryable cap outcomes jitter label tries 0 i delay (errAt i)
        (hout i)]
      rw [if_pos (Or.inr h1), h1]
      rfl
  | succ l ih =>
      intro i delay hi
      rw [rpcLoop_step_err retryable cap outcomes jitter label tries (l + 1) i delay (errAt i)
        (hout i)]
      rw [if_neg (by
        rintro (hc | hc)
        · rw [hret i] at hc
          cases hc
        · omega)]
      rw [ih (i + 1) (min (delay * 2) cap) (by omega)]
      simp only [List.range_succ_eq_map, List.map_cons, List.map_map]
      refine congrArg _ ?_
      have hhead : delay + jitter i
          = delayIter cap delay 0 + jitter (i + 0) := rfl
      rw [hhead]
      refine congrArg _ ?_
      have htail : (fun j => delayIter cap (min (delay * 2) cap) j + jitter (i + 1 + j))
          = ((fun j => delayIter cap delay j + jitter (i + j)) ∘ Nat.succ) := by
        funext j
        show delayIter cap (min (delay * 2) cap) j + jitter (i + 1 + j)
            = delayIter cap delay (j + 1) + jitter (i + (j + 1))
        rw [show i + 1 + j = i + (j + 1) by omega]
        rfl
      rw [htail]

theorem rpcLoop_success (retryable : String → Bool) (cap : Nat)
    (outcomes : Nat → Except String α) (jitter : Nat → Nat) (label : String) (tries : Nat)
    (errAt : Nat → String) (hret : ∀ j, retryable (errAt j) = true) :
    ∀ (k : Nat) (v : α) (l i delay : Nat), k ≤ l → i + (l + 1) = tries →
      outcomes (i + k) = Except.ok v →
      (∀ j, j < k → outcomes (i + j) = Except.error (errAt (i + j))) →
      (rpcLoop retryable cap outcomes jitter label tries (l + 1) i delay).1 = Except.ok v ∧
      (rpcLoop retryable cap outcomes jitter label tries (l + 1) i delay).2.length = k := by
  intro k
  induction k with
  | zero =>
      intro v l i delay _hk _hi hsucc _hfail
      have hs : outcomes i = Except.ok v := by simpa using hsucc
      rw [rpcLoop_step_ok retryable cap outcomes jitter label tries l i delay v hs]
      exact ⟨rfl, rfl⟩
  | succ k ih =>
      intro v l i delay hk hi hsucc hfail
      obtain ⟨l1, rfl⟩ : ∃ l1, l = l1 + 1 := ⟨l - 1, by omega⟩
      have hf0 : outcomes i = Except.error (errAt i) := by simpa using hfail 0 (by omega)
      rw [rpcLoop_step_err retryable cap outcomes jitter label tries (l1 + 1) i delay
        (errAt i) hf0]
      rw [if_neg (by
        rintro (hc | hc)
        · rw [hret i] at hc
          cases hc
        · omega)]
      have h2 := ih v l1 (i + 1) (min (delay * 2) cap) (by omega) (by omega)
        (by rw [show i + 1 + k = i + (k + 1) by omega]; exact hsucc)
        (fun j hj => by rw [show i + 1 + j = i + (j + 1) by omega]; exact hfail (j + 1) (by omega))
      simp only [List.length_cons]
      exact ⟨h2.1, by rw [h2.2]⟩

theorem delayIter_eq_min (cap : Nat) :
    ∀ (j base : Nat), base ≤ cap → delayIter cap base j = min (base * 2 ^ j) cap := by
  intro j
  induction j with
  | zero =>
      intro base hb
      show base = min (base * 2 ^ 0) cap
      rw [pow_zero, Nat.mul_one]
      omega
  | succ j ih =>
      intro base hb
      rw [delayIter, ih (min (base * 2) cap) (by omega)]
      by_cases h2 : base * 2 ≤ cap
      · rw [Nat.min_eq_left h2]
        have : base * 2 * 2 ^ j = base * 2 ^ (j + 1) := by ring
        rw [this]
      · have hcap : min (base * 2) cap = cap := by omega
        rw [hcap]
        have h1 : cap ≤ cap * 2 ^ j := Nat.le_mul_of_pos_right cap (Nat.pos_pow_of_pos j (by omega))
        have h3 : cap ≤ base * 2 ^ (j + 1) := by
          have : base * 2 ≤ base * 2 ^ (j + 1) := by
            have h4 : (2 : Nat) ≤ 2 ^ (j + 1) := by
              calc (2 : Nat) = 2 ^ 1 := by norm_num
              _ ≤ 2 ^ (j + 1) := Nat.pow_le_pow_right (by omega) (by omega)
            exact Nat.mul_le_mul_left base h4
          omega
        omega

/-- C8 counterexample: a call whose five attempts all fail with the transient
error timeout re-raises the bare original error after the exponential,
capped waits — not the typed rpc-retries-exhausted failure that carries the
label, which is the only failure shape in the code carrying both the
original error context and the label. -/
theorem C8_exhaustion_counterexample :
    rpcEnc (fun _ => (Except.error "timeout" : Except String Nat)) (fun _ => 0) "L"
      = (Except.error "timeout", [250, 500, 1000, 2000]) ∧
    ("timeout" : String) ≠ "rpc retries exhausted: L" := ⟨rfl, by decide⟩

/-- C8 (amended): through the retry loop shared by all three rpc wrappers, a
non-retryable first error is raised immediately with no sleeps; a run of
transient errors is retried with exponentially doubling delays capped at the
wrapper's cap (plus jitter), succeeding as soon as an attempt returns; and
exhausting all attempts re-raises the last original error itself (the typed
rpc-retries-exhausted failure is never reached for a positive try count). -/
theorem C8_rpc_retry_contract :
    (∀ (retryable : String → Bool) (cap : Nat) (outcomes : Nat → Except String Nat)
       (jitter : Nat → Nat) (label : String) (tries base : Nat) (e : String),
      0 < tries → outcomes 0 = Except.error e → retryable e = false →
      rpcLoop retryable cap outcomes jitter label tries tries 0 base = (Except.error e, [])) ∧
    (∀ (retryable : String → Bool) (cap : Nat) (outcomes : Nat → Except String Nat)
       (jitter : Nat → Nat) (label : String) (tries base : Nat) (errAt : Nat → String),
      0 < tries → base ≤ cap →
      (∀ j, outcomes j = Except.error (errAt j)) →
      (∀ j, retryable (errAt j) = true) →
      rpcLoop retryable cap outcomes jitter label tries tries 0 base
        = (Except.error (errAt (tries - 1)),
           (List.range (tries - 1)).map (fun j => min (base * 2 ^ j) cap + jitter j))) ∧
    (∀ (retryable : String → Bool) (cap : Nat) (outcomes : Nat → Except String Nat)
       (jitter : Nat → Nat) (label : String) (tries base k : Nat) (v : Nat)
       (errAt : Nat → String),
      k < tries →
      (∀ j, retryable (errAt j) = true) →
      outcomes k = Except.ok v →
      (∀ j, j < k → outcomes j = Except.error (errAt j)) →
      (rpcLoop retryable cap outcomes jitter label tries tries 0 base).1 = Except.ok v ∧
      (rpcLoop retryable cap outcomes jitter label tries tries 0 base).2.length = k) := by
  refine ⟨?_, ?_, ?_⟩
  · intro retryable cap outcomes jitter label tries base e htries hout hret
    obtain ⟨l, rfl⟩ : ∃ l, tries = l + 1 := ⟨tries - 1, by omega⟩
    rw [rpcLoop_step_err retryable cap outcomes jitter label (l + 1) l 0 base e hout]
    rw [if_pos (Or.inl hret)]
  · intro retryable cap outcomes jitter label tries base errAt htries hbase hout hret
    obtain ⟨l, rfl⟩ : ∃ l, tries = l + 1 := ⟨tries - 1, by omega⟩
    rw [rpcLoop_allFail retryable cap outcomes jitter label (l + 1) errAt hout hret l 0 base
      (by omega)]
    have hw : ∀ j, delayIter cap base j = min (base * 2 ^ j) cap :=
      fun j => delayIter_eq_min cap j base hbase
    simp only [hw, Nat.zero_add, Nat.add_sub_cancel]
  · intro retryable cap outcomes jitter label tries base k v errAt hk hret hsucc hfail
    obtain ⟨l, rfl⟩ : ∃ l, tries = l + 1 := ⟨tries - 1, by omega⟩
    exact rpcLoop_success retryable cap outcomes jitter label (l + 1) errAt hret k v l 0 base
      (by omega) (by omega) (by simpa using hsucc) (fun j hj => by simpa using hfail j hj)

/-- C8 witness: the encounters wrapper instantiation — immediate raise of a
non-retryable error, full transient exhaustion with waits 250, 500, 1000,
2000, and success at the third attempt with two sleeps. -/
theorem C8_rpc_retry_contract_witness :
    rpcLoop retryableEnc 2000 (fun _ => (Except.error "boom" : Except String Nat))
      (fun _ => 0) "L" 5 5 0 250 = (Except.error "boom", []) ∧
    rpcLoop retryableEnc 2000 (fun _ => (Except.error "timeout" : Except String Nat))
      (fun _ => 0) "L" 5 5 0 250
      = (Except.error "timeout",
         (List.range 4).map (fun j => min (250 * 2 ^ j) 2000 + 0)) ∧
    (rpcLoop retryableEnc 2000
        (fun i => if i = 2 then Except.ok 9 else (Except.error "timeout" : Except String Nat))
        (fun _ => 0) "L" 5 5 0 250).1 = Except.ok 9 := by
  refine ⟨?_, ?_, ?_⟩
  · exact C8_rpc_retry_contract.1 retryableEnc 2000 _ _ "L" 5 250 "boom" (by omega) rfl
      (by decide)
  · exact C8_rpc_retry_contract.2.1 retryableEnc 2000 _ _ "L" 5 250 (fun _ => "timeout")
      (by omega) (by omega) (fun _ => rfl)
      (fun _ => show retryableEnc "timeout" = true by decide)
  · exact (C8_rpc_retry_contract.2.2 retryableEnc 2000 _ _ "L" 5 250 2 9 (fun _ => "timeout")
      (by omega) (fun _ => show retryableEnc "timeout" = true by decide) rfl
      (fun j hj => by interval_cases j <;> rfl)).1

/-- C10 witness: after caching token 7 as character 3 (alice) at time 0, a
read at time 1 returns it and a read at the TTL boundary returns null. -/
theorem C10_attribution_cache_contract_witness :
    (getAttribution (setFromEncounter [] 7 3 (some "alice") 0) 7 1).1 = some (3, some "alice") ∧
    (getAttribution (setFromEncounter [] 7 3 (some "alice") 0) 7 TTL_MS).1 = none :=
  ⟨C10_attribution_cache_contract.1 [] 7 3 (some "alice") 0 1 (by norm_num [TTL_MS]),
   (C10_attribution_cache_contract.2.1 [] (by simp [jsWF]) 7 3 (some "alice") 0 TTL_MS
      (by omega)).1⟩

/-! ## EM congruence and step equations -/

theorem EM_bind_congr (x : EM σ α) (f g : α → EM σ β) (s : σ)
    (h : ∀ a s1, f a s1 = g a s1) : (x >>= f) s = (x >>= g) s := by
  show EM.bind x f s = EM.bind x g s
  rw [EM.bind, EM.bind]
  cases hx : x s with
  | mk r s1 =>
      cases r with
      | ok a => exact h a s1
      | error e => rfl

theorem runBackfillLoop_cons (env : EncEnv) (tokenAt : Nat → Nat) (token : Nat)
    (s : Session) (r : EncRow) (rows : List EncRow) (i : Nat) (cur : Option Key)
    (st : EncSt) :
    runBackfillLoop env tokenAt token s (r :: rows) i cur st
      = (if tokenAt i ≠ token ∨ ¬ (st.store.getD defaultSession).enabled
         then (Except.ok PUnit.unit, st)
         else if cur.isSome ∧ ¬ isAfter r.toKey cur then
           runBackfillLoop env tokenAt token s rows (i + 1) cur st
         else
           ((do
              modifyE (fun st1 => { st1 with processed := st1.processed ++ [r.toKey] })
              let _ ← sendEncounterForCharacter env r.bn r.h r.charId s token
              encSetSession { s with lastCursor := some r.toKey }
              runBackfillLoop env tokenAt token s rows (i + 1) (some r.toKey)) : EM EncSt PUnit)
             st) := by
  rw [runBackfillLoop]
  simp only [EM_bind_apply, getE_apply]
  by_cases h1 : tokenAt i ≠ token ∨ ¬ (st.store.getD defaultSession).enabled
  · rw [if_pos h1, if_pos h1]
    rfl
  · rw [if_neg h1, if_neg h1]
    by_cases h2 : cur.isSome ∧ ¬ isAfter r.toKey cur
    · rw [if_pos h2, if_pos h2]
    · rw [if_neg h2, if_neg h2]
      simp only [EM_bind_apply, modifyE_apply]

/-- C5: after pause bumps the run token past a backfill's captured token, the
backfill makes no further progress — a checkpoint that observes a stale token
returns immediately leaving the state untouched (no sink call, no cursor
write), and under a token stale from checkpoint k onwards the whole loop
behaves exactly as if only the rows before k existed, even though the row at
the pause boundary may already be mid-flight. -/
theorem C5_pause_aborts_backfill :
    (∀ st : EncSt, (pauseEnc st).runToken = st.runToken + 1) ∧
    (∀ (env : EncEnv) (tokenAt : Nat → Nat) (token : Nat) (s : Session) (r : EncRow)
       (rows : List EncRow) (i : Nat) (cur : Option Key) (st : EncSt),
      tokenAt i ≠ token →
      runBackfillLoop env tokenAt token s (r :: rows) i cur st = (Except.ok PUnit.unit, st)) ∧
    (∀ (env : EncEnv) (tokenAt : Nat → Nat) (token : Nat) (s : Session)
       (rows : List EncRow) (i k : Nat) (cur : Option Key) (st : EncSt),
      (∀ j, k ≤ j → tokenAt j ≠ token) →
      runBackfillLoop env tokenAt token s rows i cur st
        = runBackfillLoop env tokenAt token s (rows.take (k - i)) i cur st) := by
  have habort : ∀ (env : EncEnv) (tokenAt : Nat → Nat) (token : Nat) (s : Session)
      (r : EncRow) (rows : List EncRow) (i : Nat) (cur : Option Key) (st : EncSt),
      tokenAt i ≠ token →
      runBackfillLoop env tokenAt token s (r :: rows) i cur st = (Except.ok PUnit.unit, st) := by
    intro env tokenAt token s r rows i cur st h
    rw [runBackfillLoop_cons, if_pos (Or.inl h)]
  refine ⟨fun st => rfl, habort, ?_⟩
  intro env tokenAt token s rows
  induction rows with
  | nil =>
      intro i k cur st _h
      rw [List.take_nil]
  | cons r rest ih =>
      intro i k cur st h
      by_cases hik : k ≤ i
      · rw [show k - i = 0 by omega, List.take_zero]
        rw [habort env tokenAt token s r rest i cur st (h i hik)]
        rfl
      · obtain ⟨d, hd⟩ : ∃ d, k - i = d + 1 := ⟨k - i - 1, by omega⟩
        rw [hd, List.take_succ_cons]
        rw [runBackfillLoop_cons, runBackfillLoop_cons]
        by_cases hc1 : tokenAt i ≠ token ∨ ¬ (st.store.getD defaultSession).enabled
        · rw [if_pos hc1, if_pos hc1]
        · rw [if_neg hc1, if_neg hc1]
          by_cases hc2 : cur.isSome ∧ ¬ isAfter r.toKey cur
          · rw [if_pos hc2, if_pos hc2]
            rw [ih (i + 1) k cur st h]
            rw [show k - (i + 1) = d by omega]
          · rw [if_neg hc2, if_neg hc2]
            refine EM_bind_congr _ _ _ st fun a s1 => ?_
            refine EM_bind_congr _ _ _ s1 fun a2 s2 => ?_
            refine EM_bind_congr _ _ _ s2 fun a3 s3 => ?_
            rw [ih (i + 1) k (some r.toKey) s3 h]
            rw [show k - (i + 1) = d by omega]

/-- C5 witness: a backfill checkpoint holding token 0 while the shared run
token is already 1 aborts without touching the state. -/
theorem C5_pause_aborts_backfill_witness :
    runBackfillLoop encEnvBase (fun _ => 1) 0 defaultSession
      [{ bn := 1, txi := 0, li := 0, h := "t", charId := 1 }] 0 none encStBase
      = (Except.ok PUnit.unit, encStBase) :=
  C5_pause_aborts_backfill.2.1 encEnvBase (fun _ => 1) 0 defaultSession
    { bn := 1, txi := 0, li := 0, h := "t", charId := 1 } [] 0 none encStBase (by decide)

/-- C4 (amended): in the encounters watcher, a pollOnce tick that finds the
per-subscriber lock held returns immediately with the state untouched — no
log scan, no attribution, no sink call, no cursor change. The mints watcher
has no such lock; its concurrency violation is exhibited separately. -/
theorem C4_encounters_lock_noop (env : EncEnv) (tokenArg : Option Nat) (st : EncSt)
    (h : st.lock = true) : pollOnceEnc env tokenArg st = (Except.ok PUnit.unit, st) := by
  rw [pollOnceEnc]
  simp only [EM_bind_apply, getE_apply]
  by_cases h1 : st.runToken ≠ tokenArg.getD st.runToken
  · rw [if_pos h1]
    rfl
  · rw [if_neg h1, if_pos h]
    rfl

/-- C4 witness: the locked-tick no-op at a concrete locked state. -/
theorem C4_encounters_lock_noop_witness :
    pollOnceEnc encEnvBase none { encStBase with lock := true }
      = (Except.ok PUnit.unit, { encStBase with lock := true }) :=
  C4_encounters_lock_noop encEnvBase none { encStBase with lock := true } rfl

theorem mintPollDecomp (st : MintSt) :
    (c4SegA1 >>= c4SegA2) st = (pollOnceMints c4Env 0) st := by
  rw [c4SegA1, pollOnceMints]
  simp only [c4SegA2, handleMint, mintProcessLoop, EM_bind_apply,
    EM_pure_apply, modifyE_apply]
  cases hscan : mintScanPhase c4Env st with
  | mk r1 s1 =>
      cases r1 with
      | error e => rfl
      | ok rA =>
          rcases rA with _ | ⟨s, _ | ⟨r1, rest⟩⟩
          · rfl
          · rfl
          · simp only [mintProcessLoop, handleMint, EM_bind_apply, EM_pure_apply, modifyE_apply]
            cases hp : handleMintPre c4Env 0 r1.bn r1.h r1.tokenId
                { s1 with processed := s1.processed ++ [r1.toKey] } with
            | mk pr s3 =>
                cases pr with
                | error e => rfl
                | ok pre =>
                    cases pre with
                    | none => rfl
                    | some u =>
                        simp only [EM_bind_apply, EM_pure_apply]
                        cases hsend : sendCardWithResolved c4Env 0 r1.bn r1.h r1.tokenId u false
                            s3 with
                        | mk sr s4 =>
                            cases sr with
                            | error e => rfl
                            | ok a => rfl

/-- C4 counterexample: a legal cooperative interleaving of two mints pollOnce
invocations for the same subscriber (c4Schedule; c4SegA1 followed by c4SegA2
is exactly one pollOnce, by mintPollDecomp above). Both invocations execute
the scan/attribution/sink sequence: the overlapping second invocation B
delivers token 8 and advances the persisted cursor — it is not a no-op — and
the first invocation A then delivers token 7, so the final sink holds one
card from each invocation. -/
theorem C4_concurrent_polls_counterexample :
    (c4Schedule c4St0).2.sink = [c4Card8, c4Card7] ∧
    ((pollOnceMints c4Env 0) ((c4SegA1 c4St0).2)).2.sink = [c4Card8] ∧
    ((pollOnceMints c4Env 0) ((c4SegA1 c4St0).2)).2.store
      = some { enabled := true, usernames := [], lastCursor := some ⟨101, 0, 1⟩ } := by
  refine ⟨by decide, by decide, by decide⟩

/-! ## Mints-side state preservation -/

theorem MPres_refl (st : MintSt) : MPres st st := ⟨rfl, rfl, rfl, rfl, rfl⟩

theorem MPres_trans {a b c : MintSt} (h1 : MPres a b) (h2 : MPres b c) : MPres a c := by
  obtain ⟨x1, x2, x3, x4, x5⟩ := h1
  obtain ⟨y1, y2, y3, y4, y5⟩ := h2
  exact ⟨y1.trans x1, y2.trans x2, y3.trans x3, y4.trans x4, y5.trans x5⟩

theorem bind_MPres (x : EM MintSt α) (f : α → EM MintSt β) (s : MintSt)
    (hx : MPres s ((x s).2)) (hf : ∀ a s1, MPres s1 ((f a s1).2)) :
    MPres s (((x >>= f) s).2) := by
  show MPres s ((EM.bind x f s).2)
  rw [EM.bind]
  cases hx2 : x s with
  | mk r s1 =>
      rw [hx2] at hx
      cases r with
      | ok a => exact MPres_trans hx (hf a s1)
      | error e => exact hx

theorem MPres_of_state_eq {s s1 : MintSt} (h : s1 = s) : MPres s s1 := by
  rw [h]
  exact MPres_refl s

theorem waitReceiptAux_state (env : MintEnv) :
    ∀ (l i : Nat) (st : MintSt), ((waitReceiptAux env l i) st).2 = st := by
  intro l
  induction l with
  | zero => intro i st; rfl
  | succ l ih =>
      intro i st
      rw [waitReceiptAux]
      simp only [EM_bind_apply, liftE_apply]
      cases env.receiptAt i with
      | error e => rfl
      | ok r =>
          cases r with
          | some rc => rfl
          | none =>
              by_cases hl : l = 0
              · rw [if_pos hl]
                rfl
              · rw [if_neg hl]
                exact ih (i + 1) st

theorem waitReceipt_state (env : MintEnv) (st : MintSt) : ((waitReceipt env) st).2 = st :=
  waitReceiptAux_state env 10 0 st

theorem fetchSetBatches_state (env : MintEnv) (toB step : Nat) :
    ∀ (bs : List Nat) (st : MintSt), ((fetchSetBatches env toB step bs) st).2 = st := by
  intro bs
  induction bs with
  | nil => intro st; rfl
  | cons b rest ih =>
      intro st
      rw [fetchSetBatches]
      simp only [EM_bind_apply, liftE_apply]
      cases env.setLogs b (min toB (b + step - 1)) with
      | error e => rfl
      | ok logs =>
          dsimp only
          cases hrest : fetchSetBatches env toB step rest st with
          | mk r2 s2 =>
              have h2 : s2 = st := by
                have h3 := ih st
                rw [hrest] at h3
                exact h3
              cases r2 with
              | ok more => exact h2
              | error e => exact h2

theorem fetchMintBatches_state (env : MintEnv) (toB step : Nat) :
    ∀ (bs : List Nat) (st : MintSt), ((fetchMintBatches env toB step bs) st).2 = st := by
  intro bs
  induction bs with
  | nil => intro st; rfl
  | cons b rest ih =>
      intro st
      rw [fetchMintBatches]
      simp only [EM_bind_apply, liftE_apply]
      cases env.mintLogs b (min toB (b + step - 1)) with
      | error e => rfl
      | ok logs =>
          dsimp only
          cases hrest : fetchMintBatches env toB step rest st with
          | mk r2 s2 =>
              have h2 : s2 = st := by
                have h3 := ih st
                rw [hrest] at h3
                exact h3
              cases r2 with
              | ok more => exact h2
              | error e => exact h2

theorem getEncounterRowsAscM_state (env : MintEnv) (a b : Nat) (st : MintSt) :
    ((getEncounterRowsAscM env a b) st).2 = st := by
  rw [getEncounterRowsAscM]
  simp only [EM_bind_apply]
  cases hf : (fetchSetBatches env b BLOCK_BATCH (batchStarts a b BLOCK_BATCH)) st with
  | mk r s1 =>
      have h2 : s1 = st := by
        have h3 := fetchSetBatches_state env b BLOCK_BATCH (batchStarts a b BLOCK_BATCH) st
        rw [hf] at h3
        exact h3
      cases r with
      | ok logs => exact h2
      | error e => exact h2


theorem getMintLogsAsc_state (env : MintEnv) (a b : Nat) (st : MintSt) :
    ((getMintLogsAsc env a b) st).2 = st := by
  rw [getMintLogsAsc]
  simp only [EM_bind_apply]
  cases hf : (fetchMintBatches env b BLOCK_BATCH (batchStarts a b BLOCK_BATCH)) st with
  | mk r s1 =>
      have h2 : s1 = st := by
        have h3 := fetchMintBatches_state env b BLOCK_BATCH (batchStarts a b BLOCK_BATCH) st
        rw [hf] at h3
        exact h3
      cases r with
      | ok logs => exact h2
      | error e => exact h2

theorem cacheSetM_MPres (v c : Nat) (u : Option String) (n : Nat) (st : MintSt) :
    MPres st (((cacheSetM v c u n) st).2) := ⟨rfl, rfl, rfl, rfl, rfl⟩

theorem traceMark_MPres (t : Strat) (st : MintSt) :
    MPres st (((traceMark t) st).2) := ⟨rfl, rfl, rfl, rfl, rfl⟩

theorem tryKeysAttrib_MPres (env : MintEnv) (tok : Nat) :
    ∀ (ks : List String) (st : MintSt), MPres st (((tryKeysAttrib env tok ks) st).2) := by
  intro ks
  induction ks with
  | nil => intro st; exact MPres_refl st
  | cons k rest ih =>
      intro st
      rw [tryKeysAttrib]
      cases h1 : (match bytes32ToAddressOrNull k with
        | none => none
        | some addr =>
            match env.selectedCharacterId addr with
            | Except.error _ => none
            | Except.ok charId =>
                if 0 < charId ∧ characterOwnsOpponentVera env charId tok = true then
                  match usernameFromCharacterIdM env charId with
                  | some u => if strTruthy (some u) then some (charId, u) else none
                  | none => none
                else none : Option (Nat × String)) with
      | some cu =>
          obtain ⟨c, u⟩ := cu
          exact bind_MPres _ _ st (cacheSetM_MPres _ _ _ _ st) fun a s1 => MPres_refl s1
      | none =>
          cases h2 : (match hexToNat? k with
            | none => none
            | some charId =>
                if 0 < charId ∧ characterOwnsOpponentVera env charId tok = true then
                  match usernameFromCharacterIdM env charId with
                  | some u => if strTruthy (some u) then some (charId, u) else none
                  | none => none
                else none : Option (Nat × String)) with
          | some cu =>
              obtain ⟨c, u⟩ := cu
              exact bind_MPres _ _ st (cacheSetM_MPres _ _ _ _ st) fun a s1 => MPres_refl s1
          | none => exact ih st

theorem scanLogsStrict_MPres (env : MintEnv) (tok : Nat) :
    ∀ (ls : List RLog) (st : MintSt), MPres st (((scanLogsStrict env tok ls) st).2) := by
  intro ls
  induction ls with
  | nil => intro st; exact MPres_refl st
  | cons lg rest ih =>
      intro st
      rw [scanLogsStrict]
      by_cases hc : strLower lg.topic0 ≠ TOPIC_STORE_DELETE_RECORD ∨
          strLower lg.topic1 ≠ TABLE_VERA_TOKEN_BACKLOG
      · rw [if_pos hc]
        exact ih st
      · rw [if_neg hc]
        cases lg.keyTuple with
        | none => exact ih st
        | some kt =>
            dsimp only
            by_cases hk : kt.length = 0
            · rw [if_pos hk]
              exact ih st
            · rw [if_neg hk]
              refine bind_MPres _ _ st (tryKeysAttrib_MPres env tok kt st) fun a s1 => ?_
              cases a with
              | some a2 => exact MPres_refl s1
              | none => exact ih s1

theorem scanLogsBroad_MPres (env : MintEnv) (tok : Nat) :
    ∀ (ls : List RLog) (st : MintSt), MPres st (((scanLogsBroad env tok ls) st).2) := by
  intro ls
  induction ls with
  | nil => intro st; exact MPres_refl st
  | cons lg rest ih =>
      intro st
      rw [scanLogsBroad]
      by_cases hc : strLower lg.topic0 ≠ TOPIC_STORE_SET_RECORD ∧
          strLower lg.topic0 ≠ TOPIC_STORE_DELETE_RECORD
      · rw [if_pos hc]
        exact ih st
      · rw [if_neg hc]
        cases lg.keyTuple with
        | none => exact ih st
        | some kt =>
            dsimp only
            by_cases hk : kt.length = 0
            · rw [if_pos hk]
              exact ih st
            · rw [if_neg hk]
              refine bind_MPres _ _ st (tryKeysAttrib_MPres env tok kt st) fun a s1 => ?_
              cases a with
              | some a2 => exact MPres_refl s1
              | none => exact ih s1

theorem tryAttributionFromSameTx_MPres (env : MintEnv) (tx : String) (tok : Nat)
    (st : MintSt) : MPres st (((tryAttributionFromSameTx env tx tok) st).2) := by
  rw [tryAttributionFromSameTx]
  refine bind_MPres _ _ st (MPres_of_state_eq (waitReceipt_state env st)) fun rc s1 => ?_
  cases rc with
  | none => exact MPres_refl s1
  | some logs =>
      refine bind_MPres _ _ s1 (scanLogsStrict_MPres env tok logs s1) fun r1 s2 => ?_
      cases r1 with
      | some a => exact MPres_refl s2
      | none =>
          refine bind_MPres _ _ s2 (scanLogsBroad_MPres env tok logs s2) fun r2 s3 => ?_
          cases r2 with
          | some a => exact MPres_refl s3
          | none => exact MPres_refl s3

theorem probeLoop_MPres (env : MintEnv) (tok : Nat) :
    ∀ (cs : List Nat) (st : MintSt), MPres st (((probeLoop env tok cs) st).2) := by
  intro cs
  induction cs with
  | nil => intro st; exact MPres_refl st
  | cons c rest ih =>
      intro st
      rw [probeLoop]
      cases env.oppVeraIds c with
      | error e => exact ih st
      | ok ids =>
          dsimp only
          by_cases hm : ids.contains tok
          · rw [if_pos hm]
            exact bind_MPres _ _ st (cacheSetM_MPres _ _ _ _ st) fun a s1 => MPres_refl s1
          · rw [if_neg hm]
            exact ih st

theorem tryAttributionByOpponentProbe_MPres (env : MintEnv) (tok : Nat) (st : MintSt) :
    MPres st (((tryAttributionByOpponentProbe env tok) st).2) := by
  rw [tryAttributionByOpponentProbe]
  refine bind_MPres _ _ st (probeLoop_MPres env tok _ st) fun r s1 => MPres_refl s1

theorem backscanLoop_MPres (env : MintEnv) (tok : Nat) :
    ∀ (rows : List EncRow) (st : MintSt), MPres st (((backscanLoop env tok rows) st).2) := by
  intro rows
  induction rows with
  | nil => intro st; exact MPres_refl st
  | cons r rest ih =>
      intro st
      rw [backscanLoop]
      cases env.oppVeraIds r.charId with
      | error e => exact ih st
      | ok opp =>
          dsimp only
          by_cases hm : opp.contains tok
          · rw [if_pos hm]
            exact bind_MPres _ _ st (cacheSetM_MPres _ _ _ _ st) fun a s1 => MPres_refl s1
          · rw [if_neg hm]
            exact ih st

theorem populateAttributionNearMint_MPres (env : MintEnv) (bn tok : Nat) (st : MintSt) :
    MPres st (((populateAttributionNearMint env bn tok) st).2) := by
  rw [populateAttributionNearMint]
  refine bind_MPres _ _ st (MPres_of_state_eq (getEncounterRowsAscM_state env _ _ st))
    fun rows s1 => ?_
  refine bind_MPres _ _ s1 (backscanLoop_MPres env tok rows s1) fun r s2 => MPres_refl s2

theorem tryResolveAttribution_MPres (env : MintEnv) (bn : Nat) (tx : String) (tok : Nat)
    (st : MintSt) : MPres st (((tryResolveAttribution env bn tx tok) st).2) := by
  rw [tryResolveAttribution]
  refine bind_MPres _ _ st (traceMark_MPres Strat.cacheQ st) fun a s1 => ?_
  rw [EM_bind_apply, getE_apply]
  dsimp only
  refine bind_MPres _ _ s1 (⟨rfl, rfl, rfl, rfl, rfl⟩ :
      MPres s1 ((setE { s1 with cache := (getAttribution s1.cache tok env.now).2 } s1).2))
    fun a2 s2 => ?_
  dsimp only
  by_cases hc : strTruthy (match (getAttribution s1.cache tok env.now).1 with
      | some cu => ({ charId := some cu.1, username := cu.2 } : MaybeAttrib)
      | none => MaybeAttrib.none0).username
  · rw [if_pos hc]
    exact MPres_refl s2
  · rw [if_neg hc]
    refine bind_MPres _ _ s2 (traceMark_MPres Strat.sameTx s2) fun a4 s4 => ?_
    refine bind_MPres _ _ s4 (tryAttributionFromSameTx_MPres env tx tok s4) fun ra s5 => ?_
    by_cases hca : strTruthy ra.username
    · rw [if_pos hca]
      exact MPres_refl s5
    · rw [if_neg hca]
      refine bind_MPres _ _ s5 (traceMark_MPres Strat.probe s5) fun a6 s6 => ?_
      refine bind_MPres _ _ s6 (tryAttributionByOpponentProbe_MPres env tok s6) fun rb s7 => ?_
      by_cases hcb : strTruthy rb.username
      · rw [if_pos hcb]
        exact MPres_refl s7
      · rw [if_neg hcb]
        refine bind_MPres _ _ s7 (traceMark_MPres Strat.backscan s7) fun a8 s8 => ?_
        refine bind_MPres _ _ s8 (populateAttributionNearMint_MPres env bn tok s8)
          fun rc s9 => ?_
        by_cases hcc : strTruthy rc.username
        · rw [if_pos hcc]
          exact MPres_refl s9
        · rw [if_neg hcc]
          exact MPres_refl s9

theorem keyLe_refl (a : Key) : keyLe a a := by
  unfold keyLe
  omega

theorem bn_le_of_keyLe {a b : Key} (h : keyLe a b) : a.bn ≤ b.bn := by
  unfold keyLe at h
  omega

theorem isAfter_some_iff (a c : Key) :
    isAfter a (some c) = true ↔
      (c.bn < a.bn ∨ (a.bn = c.bn ∧ (c.txi < a.txi ∨ (a.txi = c.txi ∧ c.li < a.li)))) := by
  unfold isAfter
  simp only [Bool.or_eq_true, Bool.and_eq_true, decide_eq_true_eq, beq_iff_eq]

theorem isAfter_trans {a b : Key} {c : Option Key} (h1 : isAfter a (some b) = true)
    (h2 : isAfter b c = true) : isAfter a c = true := by
  cases c with
  | none => rfl
  | some c0 =>
      rw [isAfter_some_iff] at h1 h2 ⊢
      omega

theorem cursorLe_refl (c : Option Key) : cursorLe c c := by
  cases c with
  | none => trivial
  | some k => exact keyLe_refl k

theorem cursorLe_of_isAfter {k : Key} {c : Option Key} (h : isAfter k c = true) :
    cursorLe c (some k) := by
  cases c with
  | none => trivial
  | some c0 =>
      rw [isAfter_some_iff] at h
      unfold cursorLe keyLe
      omega

theorem bn_le_of_isAfter {k c : Key} (h : isAfter k (some c) = true) : c.bn ≤ k.bn := by
  rw [isAfter_some_iff] at h
  omega

theorem pairwise_keyLe_getLast (f : α → Key) :
    ∀ (l : List α) (x : α), List.Pairwise (keyLeOn f) l → l.getLast? = some x →
      ∀ y ∈ l, keyLeOn f y x := by
  intro l
  induction l with
  | nil => intro x _ hx; cases hx
  | cons a t ih =>
      intro x hp hx y hy
      cases t with
      | nil =>
          simp only [List.getLast?_singleton, Option.some.injEq] at hx
          rcases List.mem_singleton.mp hy with rfl
          rw [← hx]
          exact keyLe_refl (f y)
      | cons b t2 =>
          have hx2 : (b :: t2).getLast? = some x := by
            rw [← hx, List.getLast?_cons_cons]
          have hxm : x ∈ b :: t2 := by
            obtain ⟨hne, hxe⟩ :=
              List.mem_getLast?_eq_getLast (show x ∈ (b :: t2).getLast? from hx2)
            rw [hxe]
            exact List.getLast_mem hne
          rcases List.mem_cons.mp hy with rfl | hy2
          · exact (List.pairwise_cons.mp hp).1 x hxm
          · exact ih x (List.pairwise_cons.mp hp).2 hx2 y hy2

/-- C1 (amended): when a pending entry whose backoff has elapsed fails to
resolve on its last permitted attempt (attempts + 1 reaching
ATTRIB_MAX_RETRIES), processPending deletes the entry and continues with the
rest of the queue without emitting anything: the attribution attempt leaves
the sink and the queue untouched, and no unattributed fallback notification
is produced — the event is silently dropped. -/
theorem C1_pending_exhaustion_drops (env : MintEnv) (k : String) (p : Pending)
    (rest : List (String × Pending)) (st : MintSt) (attrib : MaybeAttrib)
    (hdue : 500 * (p.attempts + 1) ^ 2 ≤ env.now - p.firstSeen)
    (hlast : ATTRIB_MAX_RETRIES ≤ p.attempts + 1)
    (hres : ((tryResolveAttribution env p.bn p.txHash p.tokenId) st).1 = Except.ok attrib)
    (hfail : strTruthy attrib.username = false) :
    (processPendingLoop env ((k, p) :: rest)) st
      = (processPendingLoop env rest)
          { ((tryResolveAttribution env p.bn p.txHash p.tokenId) st).2 with
            pending :=
              jsDelete (((tryResolveAttribution env p.bn p.txHash p.tokenId) st).2).pending k }
    ∧ (((tryResolveAttribution env p.bn p.txHash p.tokenId) st).2).sink = st.sink
    ∧ (((tryResolveAttribution env p.bn p.txHash p.tokenId) st).2).pending = st.pending := by
  refine ⟨?_, (tryResolveAttribution_MPres env p.bn p.txHash p.tokenId st).2.2.2.1,
    (tryResolveAttribution_MPres env p.bn p.txHash p.tokenId st).2.1⟩
  rw [processPendingLoop]
  rw [if_neg (not_lt.mpr hdue)]
  simp only [EM_bind_apply]
  have hsplit : (tryResolveAttribution env p.bn p.txHash p.tokenId) st
      = (Except.ok attrib, ((tryResolveAttribution env p.bn p.txHash p.tokenId) st).2) := by
    rw [← hres]
  rw [hsplit]
  dsimp only
  rw [if_neg (by simp [hfail])]
  rw [if_pos hlast]
  simp only [EM_bind_apply, modifyE_apply]

/-- C1 counterexample: a pending entry one attempt from the maximum, with
every attribution source empty and its backoff elapsed; the drain returns
normally, removes the entry, and emits nothing — contradicting the claimed
exactly-one unattributed notification. -/
theorem C1_pending_exhaustion_counterexample :
    ((processPending c1Env) c1St).1 = Except.ok PUnit.unit ∧
    ((processPending c1Env) c1St).2.sink = [] ∧
    ((processPending c1Env) c1St).2.pending = [] :=
  ⟨rfl, by decide, by decide⟩

/-- Witness for C1 at the concrete exhaustion scenario. -/
theorem C1_pending_exhaustion_drops_witness :
    (processPendingLoop c1Env [(pendKey 7, c1Pending)]) c1St
      = (processPendingLoop c1Env [])
          { ((tryResolveAttribution c1Env c1Pending.bn c1Pending.txHash c1Pending.tokenId)
              c1St).2 with
            pending :=
              jsDelete (((tryResolveAttribution c1Env c1Pending.bn c1Pending.txHash
                c1Pending.tokenId) c1St).2).pending (pendKey 7) }
    ∧ (((tryResolveAttribution c1Env c1Pending.bn c1Pending.txHash c1Pending.tokenId)
        c1St).2).sink = c1St.sink
    ∧ (((tryResolveAttribution c1Env c1Pending.bn c1Pending.txHash c1Pending.tokenId)
        c1St).2).pending = c1St.pending :=
  C1_pending_exhaustion_drops c1Env (pendKey 7) c1Pending [] c1St MaybeAttrib.none0
    (by decide) (by decide) rfl rfl

theorem bind_pres (P : σ → σ → Prop)
    (htrans : ∀ a b c, P a b → P b c → P a c)
    (x : EM σ α) (f : α → EM σ β) (s : σ)
    (hx : P s ((x s).2)) (hf : ∀ a s1, P s1 ((f a s1).2)) :
    P s (((x >>= f) s).2) := by
  show P s ((EM.bind x f s).2)
  rw [EM.bind]
  cases hx2 : x s with
  | mk r s1 =>
      rw [hx2] at hx
      cases r with
      | ok a => exact htrans _ _ _ hx (hf a s1)
      | error e => exact hx

theorem bind_getE_pres (P : σ → σ → Prop) (f : σ → EM σ β) (s : σ)
    (hf : P s ((f s s).2)) : P s (((getE >>= f) s).2) := hf

theorem KPres_refl (s : MintSt) : KPres s s := ⟨rfl, rfl, rfl⟩

theorem KPres_trans : ∀ a b c : MintSt, KPres a b → KPres b c → KPres a c :=
  fun _ _ _ h1 h2 => ⟨h2.1.trans h1.1, h2.2.1.trans h1.2.1, h2.2.2.trans h1.2.2⟩

theorem sendCardWithResolved_eq (env : MintEnv) (chatId bn : Nat) (tx : String)
    (tok : Nat) (u : Option String) (fp : Bool) (st : MintSt) :
    (sendCardWithResolved env chatId bn tx tok u fp) st =
      match env.getVera tok with
      | Except.ok hv =>
          (Except.ok PUnit.unit, { st with sink := st.sink ++ [mkMintCard tok hv u bn fp] })
      | Except.error e => (Except.error e, st) := by
  cases h : env.getVera tok with
  | ok hv =>
      rw [sendCardWithResolved, hydrateVeraM]
      simp only [EM_bind_apply, liftE_apply, h, modifyE_apply]
      rfl
  | error e =>
      rw [sendCardWithResolved, hydrateVeraM]
      simp only [EM_bind_apply, liftE_apply, h]

theorem handleMintPre_pres (env : MintEnv) (chatId bn : Nat) (tx : String) (tok : Nat)
    (st : MintSt) : KPres st (((handleMintPre env chatId bn tx tok) st).2) := by
  rw [handleMintPre]
  refine bind_getE_pres KPres _ st ?_
  refine bind_pres KPres KPres_trans _ _ st (KPres_refl _) fun a2 s2 => ?_
  dsimp only
  by_cases hd : (seenWithTtl st.seenEvent
      (toString bn ++ ":" ++ tx ++ ":" ++ toString tok) bn EVENT_DEDUP_TTL).1 = true
  · rw [if_pos hd]
    exact KPres_refl s2
  · rw [if_neg hd]
    refine bind_pres KPres KPres_trans _ _ s2 ?_ fun attrib s3 => ?_
    · have hm := tryResolveAttribution_MPres env bn tx tok s2
      exact ⟨hm.1, hm.2.2.2.2, hm.2.2.2.1⟩
    · by_cases ht : strTruthy attrib.username = true
      · rw [if_pos ht]
        exact bind_pres KPres KPres_trans _ _ s3 (KPres_refl _) fun a4 s4 => KPres_refl s4
      · rw [if_neg ht]
        refine bind_getE_pres KPres _ s3 ?_
        by_cases hp : jsHas s3.pending (pendKey tok) = true
        · rw [if_pos hp]
          exact KPres_refl s3
        · rw [if_neg hp]
          exact bind_pres KPres KPres_trans _ _ s3 (KPres_refl _) fun a4 s4 => KPres_refl s4

theorem handleMint_spec (env : MintEnv) (chatId bn : Nat) (tx : String) (tok : Nat)
    (sess : Session) (st : MintSt) :
    (((handleMint env chatId bn tx tok sess) st).2).store = st.store ∧
    (((handleMint env chatId bn tx tok sess) st).2).processed = st.processed ∧
    ∃ d, (((handleMint env chatId bn tx tok sess) st).2).sink = st.sink ++ d ∧
      (d.map Card.bn = [] ∨ d.map Card.bn = [bn]) ∧
      ∀ cd ∈ d, cd.fromPending = false := by
  have hpre := handleMintPre_pres env chatId bn tx tok st
  rw [handleMint]
  simp only [EM_bind_apply]
  cases hp : (handleMintPre env chatId bn tx tok) st with
  | mk r s1 =>
      rw [hp] at hpre
      obtain ⟨hst, hpr, hsk⟩ := hpre
      dsimp only at hst hpr hsk
      cases r with
      | error e =>
          dsimp only
          exact ⟨hst, hpr, [], by rw [hsk, List.append_nil], Or.inl rfl,
            fun cd h => absurd h (List.not_mem_nil cd)⟩
      | ok a =>
          dsimp only
          cases a with
          | none =>
              dsimp only
              exact ⟨hst, hpr, [], by simp only [EM_pure_apply, hsk, List.append_nil], Or.inl rfl,
                fun cd h => absurd h (List.not_mem_nil cd)⟩
          | some u =>
              dsimp only
              simp only [EM_bind_apply]
              rw [sendCardWithResolved_eq]
              cases hv : env.getVera tok with
              | ok veraV =>
                  dsimp only
                  refine ⟨hst, hpr, [mkMintCard tok veraV u bn false], ?_, Or.inr rfl, ?_⟩
                  · rw [hsk]
                    rfl
                  · intro cd h
                    rcases List.mem_singleton.mp h with rfl
                    rfl
              | error e =>
                  dsimp only
                  exact ⟨hst, hpr, [], by rw [hsk, List.append_nil], Or.inl rfl,
                    fun cd h => absurd h (List.not_mem_nil cd)⟩

theorem processPendingLoop_spec (env : MintEnv) :
    ∀ (l : List (String × Pending)) (st : MintSt),
      (((processPendingLoop env l) st).2).store = st.store ∧
      (((processPendingLoop env l) st).2).processed = st.processed ∧
      ∃ d, (((processPendingLoop env l) st).2).sink = st.sink ++ d ∧
        ∀ cd ∈ d, cd.fromPending = true := by
  intro l
  induction l with
  | nil =>
      intro st
      refine ⟨rfl, rfl, [], ?_, fun cd h => absurd h (List.not_mem_nil cd)⟩
      rw [List.append_nil]
      rfl
  | cons kp rest ih =>
      obtain ⟨k, p⟩ := kp
      intro st
      rw [processPendingLoop]
      by_cases hdue : env.now - p.firstSeen < 500 * (p.attempts + 1) ^ 2
      · rw [if_pos hdue]
        exact ih st
      · rw [if_neg hdue]
        simp only [EM_bind_apply]
        cases ht : (tryResolveAttribution env p.bn p.txHash p.tokenId) st with
        | mk r s1 =>
            have hm := tryResolveAttribution_MPres env p.bn p.txHash p.tokenId st
            rw [ht] at hm
            obtain ⟨hm1, hm2, hm3, hm4, hm5⟩ := hm
            dsimp only at hm1 hm2 hm3 hm4 hm5
            cases r with
            | error e =>
                dsimp only
                exact ⟨hm1, hm5, [], by rw [hm4, List.append_nil],
                  fun cd h => absurd h (List.not_mem_nil cd)⟩
            | ok attrib =>
                dsimp only
                by_cases hu : strTruthy attrib.username = true
                · rw [if_pos hu]
                  simp only [EM_bind_apply]
                  rw [sendCardWithResolved_eq]
                  cases hv : env.getVera p.tokenId with
                  | ok veraV =>
                      dsimp only
                      simp only [EM_bind_apply, modifyE_apply]
                      obtain ⟨h1, h2, d2, h3, h4⟩ := ih
                        { s1 with
                          pending := jsDelete s1.pending k
                          sink := s1.sink ++ [mkMintCard p.tokenId veraV attrib.username
                            p.bn true] }
                      refine ⟨h1.trans hm1, h2.trans hm5,
                        mkMintCard p.tokenId veraV attrib.username p.bn true :: d2, ?_, ?_⟩
                      · rw [h3]
                        dsimp only
                        rw [hm4, List.append_assoc, List.singleton_append]
                      · intro cd h
                        rcases List.mem_cons.mp h with rfl | h2m
                        · rfl
                        · exact h4 cd h2m
                  | error e =>
                      dsimp only
                      exact ⟨hm1, hm5, [], by rw [hm4, List.append_nil],
                        fun cd h => absurd h (List.not_mem_nil cd)⟩
                · rw [if_neg hu]
                  by_cases hmax : ATTRIB_MAX_RETRIES ≤ p.attempts + 1
                  · rw [if_pos hmax]
                    simp only [EM_bind_apply, modifyE_apply]
                    obtain ⟨h1, h2, d2, h3, h4⟩ := ih { s1 with pending := jsDelete s1.pending k }
                    refine ⟨h1.trans hm1, h2.trans hm5, d2, ?_, h4⟩
                    rw [h3]
                    dsimp only
                    rw [hm4]
                  · rw [if_neg hmax]
                    simp only [EM_bind_apply, modifyE_apply]
                    obtain ⟨h1, h2, d2, h3, h4⟩ := ih
                      { s1 with
                        pending := jsSet s1.pending k { p with attempts := p.attempts + 1 } }
                    refine ⟨h1.trans hm1, h2.trans hm5, d2, ?_, h4⟩
                    rw [h3]
                    dsimp only
                    rw [hm4]

theorem processPending_spec (env : MintEnv) (st : MintSt) :
    (((processPending env) st).2).store = st.store ∧
    (((processPending env) st).2).processed = st.processed ∧
    ∃ d, (((processPending env) st).2).sink = st.sink ++ d ∧
      ∀ cd ∈ d, cd.fromPending = true :=
  processPendingLoop_spec env st.pending st

theorem getMintLogsAsc_sorted (env : MintEnv) (a b : Nat) (st : MintSt) (v : List MintRow)
    (h : ((getMintLogsAsc env a b) st).1 = Except.ok v) :
    List.Pairwise (keyLeOn MintRow.toKey) v := by
  rw [getMintLogsAsc] at h
  simp only [EM_bind_apply] at h
  cases hf : (fetchMintBatches env b BLOCK_BATCH (batchStarts a b BLOCK_BATCH)) st with
  | mk r s1 =>
      rw [hf] at h
      cases r with
      | error e => exact Except.noConfusion h
      | ok logs =>
          dsimp only at h
          simp only [EM_pure_apply] at h
          have hv := Except.ok.inj h
          rw [← hv]
          exact List.sorted_insertionSort _ _

theorem mintScanPhase_spec (env : MintEnv) (st : MintSt) :
    (((mintScanPhase env) st).2).store = st.store ∧
    (((mintScanPhase env) st).2).processed = st.processed ∧
    (∃ d, (((mintScanPhase env) st).2).sink = st.sink ++ d ∧
      ∀ cd ∈ d, cd.fromPending = true) ∧
    ∀ s todo, ((mintScanPhase env) st).1 = Except.ok (some (s, todo)) →
      s = st.store.getD defaultSession ∧
      List.Pairwise (keyLeOn MintRow.toKey) todo ∧
      ∀ r ∈ todo, isAfter r.toKey s.lastCursor = true := by
  rw [mintScanPhase, mintGetSession]
  simp only [EM_bind_apply, getE_apply, EM_pure_apply]
  by_cases hEn : (st.store.getD defaultSession).enabled = true
  · rw [if_neg (not_not_intro hEn)]
    simp only [EM_bind_apply]
    cases hPP : (processPending env) st with
    | mk r1 s1 =>
        have hps := processPending_spec env st
        rw [hPP] at hps
        obtain ⟨hq1, hq2, d0, hq3, hq4⟩ := hps
        dsimp only at hq1 hq2 hq3
        cases r1 with
        | error e =>
            exact ⟨hq1, hq2, ⟨d0, hq3, hq4⟩, fun s todo h => Except.noConfusion h⟩
        | ok u1 =>
            cases hBN : env.blockNumber with
            | error e =>
                simp only [EM_bind_apply, liftE_apply, hBN]
                exact ⟨hq1, hq2, ⟨d0, hq3, hq4⟩, fun s todo h => Except.noConfusion h⟩
            | ok head =>
                simp only [EM_bind_apply, liftE_apply, hBN]
                by_cases hLt : head < (match (st.store.getD defaultSession).lastCursor with
                  | some c => c.bn
                  | none => head)
                · rw [if_pos hLt]
                  exact ⟨hq1, hq2, ⟨d0, hq3, hq4⟩,
                    fun s todo h => Option.noConfusion (Except.ok.inj h)⟩
                · rw [if_neg hLt]
                  simp only [EM_bind_apply]
                  cases hGL : (getMintLogsAsc env (match
                      (st.store.getD defaultSession).lastCursor with
                    | some c => c.bn
                    | none => head) head) s1 with
                  | mk r2 s2 =>
                      have hGs := getMintLogsAsc_state env (match
                          (st.store.getD defaultSession).lastCursor with
                        | some c => c.bn
                        | none => head) head s1
                      rw [hGL] at hGs
                      dsimp only at hGs
                      subst hGs
                      cases r2 with
                      | error e =>
                          exact ⟨hq1, hq2, ⟨d0, hq3, hq4⟩,
                            fun s todo h => Except.noConfusion h⟩
                      | ok rows =>
                          dsimp only
                          refine ⟨hq1, hq2, ⟨d0, hq3, hq4⟩, fun s todo h => ?_⟩
                          obtain ⟨hs, htd⟩ := Prod.mk.inj (Option.some.inj (Except.ok.inj h))
                          subst hs
                          subst htd
                          refine ⟨rfl, ?_, fun r hr => (List.mem_filter.mp hr).2⟩
                          exact List.Pairwise.filter _
                            (getMintLogsAsc_sorted env _ _ _ rows (congrArg Prod.fst hGL))
  · rw [if_pos hEn]
    exact ⟨rfl, rfl, ⟨[], by rw [List.append_nil]; rfl, fun cd h => absurd h (List.not_mem_nil cd)⟩,
      fun s todo h => Option.noConfusion (Except.ok.inj h)⟩

theorem mintProcessLoop_spec (env : MintEnv) (chatId : Nat) (sess : Session) :
    ∀ (rows : List MintRow) (l0 : Option Key) (st : MintSt),
      (((mintProcessLoop env chatId sess rows l0) st).2).store = st.store ∧
      (∃ ks, (((mintProcessLoop env chatId sess rows l0) st).2).processed
          = st.processed ++ ks ∧
        ∀ k ∈ ks, k ∈ rows.map MintRow.toKey) ∧
      (∃ d, (((mintProcessLoop env chatId sess rows l0) st).2).sink = st.sink ++ d ∧
        List.Sublist (d.map Card.bn) (rows.map (fun x => x.bn)) ∧
        ∀ cd ∈ d, cd.fromPending = false) ∧
      ∀ lv, ((mintProcessLoop env chatId sess rows l0) st).1 = Except.ok lv →
        (rows = [] ∧ lv = l0) ∨
        ∃ r0, rows.getLast? = some r0 ∧ lv = some r0.toKey := by
  intro rows
  induction rows with
  | nil =>
      intro l0 st
      refine ⟨rfl, ⟨[], by rw [List.append_nil]; rfl, fun k hk => absurd hk (List.not_mem_nil k)⟩,
        ⟨[], by rw [List.append_nil]; rfl, List.nil_sublist _,
          fun cd h => absurd h (List.not_mem_nil cd)⟩, fun lv h => ?_⟩
      exact Or.inl ⟨rfl, (Except.ok.inj h).symm⟩
  | cons r rest ih =>
      intro l0 st
      rw [mintProcessLoop]
      simp only [EM_bind_apply, modifyE_apply]
      cases hh : (handleMint env chatId r.bn r.h r.tokenId sess)
          { st with processed := st.processed ++ [r.toKey] } with
      | mk hr s2 =>
          have hsp := handleMint_spec env chatId r.bn r.h r.tokenId sess
            { st with processed := st.processed ++ [r.toKey] }
          rw [hh] at hsp
          obtain ⟨hst, hpr, d1, hsink, hbn, hfp⟩ := hsp
          dsimp only at hst hpr hsink
          cases hr with
          | error e =>
              dsimp only
              refine ⟨hst, ⟨[r.toKey], hpr, ?_⟩, ⟨d1, hsink, ?_, hfp⟩,
                fun lv h => Except.noConfusion h⟩
              · intro k hk
                rcases List.mem_singleton.mp hk with rfl
                exact List.mem_map_of_mem MintRow.toKey (List.mem_cons_self r rest)
              · rcases hbn with h0 | h0
                · rw [h0]
                  exact List.nil_sublist _
                · rw [h0, List.map_cons]
                  exact List.Sublist.cons₂ _ (List.nil_sublist _)
          | ok b =>
              dsimp only
              obtain ⟨i1, ⟨ks2, i2, i3⟩, ⟨d2, i4, i5, i6⟩, ilast⟩ :=
                ih (some r.toKey) s2
              refine ⟨i1.trans hst, ⟨r.toKey :: ks2, ?_, ?_⟩, ⟨d1 ++ d2, ?_, ?_, ?_⟩,
                fun lv h => ?_⟩
              · rw [i2, hpr, List.append_assoc, List.singleton_append]
              · intro k hk
                rcases List.mem_cons.mp hk with rfl | hk2
                · exact List.mem_map_of_mem MintRow.toKey (List.mem_cons_self r rest)
                · rw [List.map_cons]
                  exact List.mem_cons_of_mem _ (i3 k hk2)
              · rw [i4, hsink, List.append_assoc]
              · rw [List.map_append, List.map_cons]
                rcases hbn with h0 | h0
                · rw [h0, List.nil_append]
                  exact List.Sublist.cons _ i5
                · rw [h0, List.singleton_append]
                  exact List.Sublist.cons₂ _ i5
              · intro cd hcd
                rcases List.mem_append.mp hcd with h1 | h1
                · exact hfp cd h1
                · exact i6 cd h1
              · rcases ilast lv h with ⟨hre, hlv⟩ | ⟨r0, hg, hlv⟩
                · subst hre
                  exact Or.inr ⟨r, List.getLast?_singleton r, hlv⟩
                · refine Or.inr ⟨r0, ?_, hlv⟩
                  cases rest with
                  | nil => exact Option.noConfusion hg
                  | cons b2 t2 => rw [List.getLast?_cons_cons]; exact hg

theorem mintCursorOf_eq_of_store {a b : MintSt} (h : a.store = b.store) :
    mintCursorOf a = mintCursorOf b := by
  unfold mintCursorOf
  rw [h]

theorem mintCursorOf_set (s2 : MintSt) (s : Session) (k : Key) :
    mintCursorOf { s2 with store := some { s with lastCursor := some k } } = some k := rfl

theorem pollOnceMints_spec (env : MintEnv) (chatId : Nat) (st : MintSt) :
    (∀ e, ((pollOnceMints env chatId) st).1 = Except.error e →
      (((pollOnceMints env chatId) st).2).store = st.store) ∧
    cursorLe (mintCursorOf st) (mintCursorOf (((pollOnceMints env chatId) st).2)) ∧
    ∃ ks, (((pollOnceMints env chatId) st).2).processed = st.processed ++ ks ∧
      ∀ k ∈ ks, isAfter k (mintCursorOf st) = true := by
  have hsp := mintScanPhase_spec env st
  rw [pollOnceMints]
  simp only [EM_bind_apply]
  cases hS : (mintScanPhase env) st with
  | mk rs s1 =>
      rw [hS] at hsp
      obtain ⟨h1, h2, hdel, hok⟩ := hsp
      dsimp only at h1 h2
      cases rs with
      | error e =>
          dsimp only
          refine ⟨fun e2 he => h1, ?_, [], by rw [List.append_nil]; exact h2,
            fun k hk => absurd hk (List.not_mem_nil k)⟩
          rw [mintCursorOf_eq_of_store h1]
          exact cursorLe_refl _
      | ok ropt =>
          dsimp only
          cases ropt with
          | none =>
              simp only [EM_pure_apply]
              refine ⟨fun e2 he => Except.noConfusion he, ?_, [],
                by rw [List.append_nil]; exact h2,
                fun k hk => absurd hk (List.not_mem_nil k)⟩
              rw [mintCursorOf_eq_of_store h1]
              exact cursorLe_refl _
          | some pr =>
              obtain ⟨s, todo⟩ := pr
              obtain ⟨hsess, hsort, hafter⟩ := hok s todo rfl
              dsimp only
              simp only [EM_bind_apply]
              cases hL : (mintProcessLoop env chatId s todo none) s1 with
              | mk rl s2 =>
                  have hlp := mintProcessLoop_spec env chatId s todo none s1
                  rw [hL] at hlp
                  obtain ⟨l1, ⟨ks, l2, l3⟩, hld, llast⟩ := hlp
                  dsimp only at l1 l2
                  have hcur0 : mintCursorOf st = s.lastCursor := by
                    rw [mintCursorOf, hsess]
                  have hafterk : ∀ k ∈ ks, isAfter k (mintCursorOf st) = true := by
                    intro k hk
                    rcases List.mem_map.mp (l3 k hk) with ⟨r, hr, rfl⟩
                    rw [hcur0]
                    exact hafter r hr
                  cases rl with
                  | error e =>
                      dsimp only
                      refine ⟨fun e2 he => l1.trans h1, ?_, ks, by rw [l2, h2], hafterk⟩
                      rw [mintCursorOf_eq_of_store (l1.trans h1)]
                      exact cursorLe_refl _
                  | ok lv =>
                      dsimp only
                      cases lv with
                      | none =>
                          simp only [EM_pure_apply]
                          refine ⟨fun e2 he => Except.noConfusion he, ?_, ks,
                            by rw [l2, h2], hafterk⟩
                          rw [mintCursorOf_eq_of_store (l1.trans h1)]
                          exact cursorLe_refl _
                      | some kk =>
                          simp only [mintSetSession, modifyE_apply]
                          refine ⟨fun e2 he => Except.noConfusion he, ?_, ks,
                            by rw [l2, h2], hafterk⟩
                          rcases llast (some kk) rfl with ⟨htd, hlv⟩ | ⟨r0, hg, hlv⟩
                          · exact Option.noConfusion hlv
                          · have hr0 : r0 ∈ todo := by
                              obtain ⟨hne, hxe⟩ := List.mem_getLast?_eq_getLast
                                (show r0 ∈ todo.getLast? from hg)
                              rw [hxe]
                              exact List.getLast_mem hne
                            have haf : isAfter r0.toKey s.lastCursor = true := hafter r0 hr0
                            rw [hcur0]
                            have hkk : kk = r0.toKey := Option.some.inj hlv
                            rw [mintCursorOf_set, hkk]
                            exact cursorLe_of_isAfter haf

theorem pollOnceEnc_ok (env : EncEnv) (tokenArg : Option Nat) (st : EncSt) :
    ((pollOnceEnc env tokenArg) st).1 = Except.ok PUnit.unit := by
  rw [pollOnceEnc]
  rw [EM_bind_apply, getE_apply]
  dsimp only
  by_cases h1 : st.runToken ≠ tokenArg.getD st.runToken
  · rw [if_pos h1]
    rfl
  · rw [if_neg h1]
    by_cases h2 : st.lock = true
    · rw [if_pos h2]
      rfl
    · rw [if_neg h2]
      simp only [EM_bind_apply, modifyE_apply, tryCatchE_apply]
      cases hI : (pollOnceEncInner env (tokenArg.getD st.runToken)) { st with lock := true } with
      | mk r s1 =>
          cases r with
          | ok a => rfl
          | error e => rfl

/-- C9 (amended): a tick of the encounters watcher never propagates an error
(the body is wrapped in try/catch, so rpc exhaustion degrades that tick to a
no-op and the interval keeps running); the mints watcher has no such guard,
so a thrown error does escape its pollOnce — but any erroring mints tick
leaves the persisted session (and hence the cursor) unchanged. -/
theorem C9_tick_degradation :
    (∀ (env : EncEnv) (tokenArg : Option Nat) (st : EncSt),
      ((pollOnceEnc env tokenArg) st).1 = Except.ok PUnit.unit) ∧
    (∀ (env : MintEnv) (chatId : Nat) (st : MintSt) (e : String),
      ((pollOnceMints env chatId) st).1 = Except.error e →
        (((pollOnceMints env chatId) st).2).store = st.store) :=
  ⟨fun env tokenArg st => pollOnceEnc_ok env tokenArg st,
   fun env chatId st e he => (pollOnceMints_spec env chatId st).1 e he⟩

/-- C9 counterexample: with an enabled subscriber and the head query's
retries exhausted, the mints pollOnce rejects with the rpc error instead of
degrading to a caught no-op: the error propagates out of the tick. -/
theorem C9_mints_tick_throw_counterexample :
    (pollOnceMints mintEnvBase 0) c9St = (Except.error "timeout: eth_blockNumber", c9St) := rfl

/-- Witness for C9 at concrete states: an encounters tick on the baseline
environment resolves, and the throwing mints tick leaves the store intact. -/
theorem C9_tick_degradation_witness :
    ((pollOnceEnc encEnvBase none) encStBase).1 = Except.ok PUnit.unit ∧
    (((pollOnceMints mintEnvBase 0) c9St).2).store = c9St.store :=
  ⟨C9_tick_degradation.1 encEnvBase none encStBase,
   C9_tick_degradation.2 mintEnvBase 0 c9St "timeout: eth_blockNumber" rfl⟩

theorem EPres_refl (s : EncSt) : EPres s s := ⟨rfl, rfl⟩

theorem EPres_trans : ∀ a b c : EncSt, EPres a b → EPres b c → EPres a c :=
  fun _ _ _ h1 h2 => ⟨h2.1.trans h1.1, h2.2.trans h1.2⟩

theorem EPres_of_eq {a b : EncSt} (h : b = a) : EPres a b := by
  rw [h]
  exact EPres_refl a

theorem oppRetryEncAux_state (env : EncEnv) (charId : Nat) :
    ∀ (l i : Nat) (st : EncSt), ((oppRetryEncAux env charId l i) st).2 = st := by
  intro l
  induction l with
  | zero => intro i st; rfl
  | succ l ih =>
      intro i st
      rw [oppRetryEncAux]
      simp only [EM_bind_apply, liftE_apply]
      cases env.oppVeras i charId with
      | error e => rfl
      | ok opp =>
          dsimp only
          by_cases h : opp.length ≠ 0
          · rw [if_pos h]
            rfl
          · rw [if_neg h]
            by_cases h2 : l = 0
            · rw [if_pos h2]
              rfl
            · rw [if_neg h2]
              exact ih (i + 1) st

theorem encOppLoop_EPres (env : EncEnv) (bn : Nat) (tx : String) (charId : Nat)
    (u : Option String) (sess : Session) :
    ∀ (l : List Nat) (st : EncSt), EPres st ((encOppLoop env bn tx charId u sess l st).2) := by
  intro l
  induction l with
  | nil => intro st; exact EPres_refl st
  | cons v rest ih =>
      intro st
      rw [encOppLoop]
      refine bind_pres EPres EPres_trans _ _ st ⟨rfl, rfl⟩ fun a1 s1 => ?_
      refine bind_getE_pres EPres _ s1 ?_
      refine bind_pres EPres EPres_trans _ _ s1 ⟨rfl, rfl⟩ fun a2 s2 => ?_
      dsimp only
      by_cases hd1 : (seenWithTtl s1.seenEvent
          (toString bn ++ ":" ++ tx ++ ":" ++ toString v) bn EVENT_DEDUP_TTL).1 = true
      · rw [if_pos hd1]
        exact ih s2
      · rw [if_neg hd1]
        refine bind_getE_pres EPres _ s2 ?_
        refine bind_pres EPres EPres_trans _ _ s2 ⟨rfl, rfl⟩ fun a3 s3 => ?_
        dsimp only
        by_cases hd2 : (seenWithTtl s2.seenSticky
            (toString charId ++ ":" ++ toString v) bn STICKY_TTL).1 = true
        · rw [if_pos hd2]
          exact ih s3
        · rw [if_neg hd2]
          refine bind_pres EPres EPres_trans _ _ s3 ⟨rfl, rfl⟩ fun hv s4 => ?_
          by_cases hup : usernamePass sess.usernames u = true
          · rw [if_pos hup]
            exact bind_pres EPres EPres_trans _ _ s4 ⟨rfl, rfl⟩ fun a5 s5 => ih s5
          · rw [if_neg hup]
            exact ih s4

theorem sendEncounterForCharacter_EPres (env : EncEnv) (bn : Nat) (tx : String)
    (charId : Nat) (sess : Session) (token : Nat) (st : EncSt) :
    EPres st (((sendEncounterForCharacter env bn tx charId sess token) st).2) := by
  rw [sendEncounterForCharacter]
  refine bind_pres EPres EPres_trans _ _ st ?_ fun opp s1 => ?_
  · rw [oppRetryEnc]
    exact EPres_of_eq (oppRetryEncAux_state env charId 3 0 st)
  · refine bind_pres EPres EPres_trans _ _ s1
      (encOppLoop_EPres env bn tx charId _ sess opp s1) fun a2 s2 => EPres_refl s2

theorem fetchEncBatches_state (env : EncEnv) (toB step : Nat) :
    ∀ (bs : List Nat) (st : EncSt), ((fetchEncBatches env toB step bs) st).2 = st := by
  intro bs
  induction bs with
  | nil => intro st; rfl
  | cons b rest ih =>
      intro st
      rw [fetchEncBatches]
      simp only [EM_bind_apply, liftE_apply]
      cases env.getLogs b (min toB (b + step - 1)) with
      | error e => rfl
      | ok logs =>
          dsimp only
          cases hrest : fetchEncBatches env toB step rest st with
          | mk r2 s2 =>
              have h2 : s2 = st := by
                have h3 := ih st
                rw [hrest] at h3
                exact h3
              cases r2 with
              | ok more => exact h2
              | error e => exact h2

theorem getEncounterRowsAscEnc_state (env : EncEnv) (a b : Nat) (st : EncSt) :
    ((getEncounterRowsAscEnc env a b) st).2 = st := by
  rw [getEncounterRowsAscEnc]
  simp only [EM_bind_apply]
  cases hf : (fetchEncBatches env b BLOCK_BATCH (batchStarts a b BLOCK_BATCH)) st with
  | mk r s1 =>
      have h2 : s1 = st := by
        have h3 := fetchEncBatches_state env b BLOCK_BATCH (batchStarts a b BLOCK_BATCH) st
        rw [hf] at h3
        exact h3
      cases r with
      | ok logs => exact h2
      | error e => exact h2

theorem encProcessLoop_spec (env : EncEnv) (sess : Session) (token : Nat) :
    ∀ (rows : List EncRow) (l0 : Option Key) (st : EncSt),
      (((encProcessLoop env sess token rows l0) st).2).store = st.store ∧
      (∃ ks, (((encProcessLoop env sess token rows l0) st).2).processed
          = st.processed ++ ks ∧ ∀ k ∈ ks, k ∈ rows.map EncRow.toKey) ∧
      ∀ lv, ((encProcessLoop env sess token rows l0) st).1 = Except.ok lv →
        lv = l0 ∨ ∃ r0 ∈ rows, lv = some r0.toKey := by
  intro rows
  induction rows with
  | nil =>
      intro l0 st
      exact ⟨rfl, ⟨[], by rw [List.append_nil]; rfl,
        fun k hk => absurd hk (List.not_mem_nil k)⟩,
        fun lv h => Or.inl (Except.ok.inj h).symm⟩
  | cons r rest ih =>
      intro l0 st
      rw [encProcessLoop]
      simp only [EM_bind_apply, modifyE_apply]
      cases hh : (sendEncounterForCharacter env r.bn r.h r.charId sess token)
          { st with processed := st.processed ++ [r.toKey] } with
      | mk hr s2 =>
          have hA := sendEncounterForCharacter_EPres env r.bn r.h r.charId sess token
            { st with processed := st.processed ++ [r.toKey] }
          rw [hh] at hA
          obtain ⟨hst, hpr⟩ := hA
          dsimp only at hst hpr
          cases hr with
          | error e =>
              dsimp only
              refine ⟨hst, ⟨[r.toKey], hpr, ?_⟩, fun lv h => Except.noConfusion h⟩
              intro k hk
              rcases List.mem_singleton.mp hk with rfl
              exact List.mem_map_of_mem EncRow.toKey (List.mem_cons_self r rest)
          | ok b =>
              dsimp only
              obtain ⟨i1, ⟨ks2, i2, i3⟩, ilast⟩ := ih (some r.toKey) s2
              refine ⟨i1.trans hst, ⟨r.toKey :: ks2, ?_, ?_⟩, fun lv h => ?_⟩
              · rw [i2, hpr, List.append_assoc, List.singleton_append]
              · intro k hk
                rcases List.mem_cons.mp hk with rfl | hk2
                · exact List.mem_map_of_mem EncRow.toKey (List.mem_cons_self r rest)
                · rw [List.map_cons]
                  exact List.mem_cons_of_mem _ (i3 k hk2)
              · rcases ilast lv h with rfl | ⟨r0, hr0, hlv⟩
                · exact Or.inr ⟨r, List.mem_cons_self r rest, rfl⟩
                · exact Or.inr ⟨r0, List.mem_cons_of_mem r hr0, hlv⟩

theorem encCursorOf_eq_of_store {a b : EncSt} (h : a.store = b.store) :
    encCursorOf a = encCursorOf b := by
  unfold encCursorOf
  rw [h]

theorem encCursorOf_of_store_eq {st : EncSt} {s : Session} (h : st.store = some s) :
    encCursorOf st = s.lastCursor := by
  unfold encCursorOf
  rw [h]
  rfl

theorem pollOnceEncInner_spec (env : EncEnv) (token : Nat) (st : EncSt) :
    cursorLe (encCursorOf st) (encCursorOf (((pollOnceEncInner env token) st).2)) ∧
    ∃ ks, (((pollOnceEncInner env token) st).2).processed = st.processed ++ ks ∧
      ∀ k ∈ ks, isAfter k (encCursorOf st) = true := by
  rw [pollOnceEncInner, encGetSession]
  simp only [EM_bind_apply, getE_apply, EM_pure_apply]
  by_cases hEn : (st.store.getD defaultSession).enabled = true
  · rw [if_neg (not_not_intro hEn)]
    cases hBN : env.blockNumber with
    | error e =>
        simp only [EM_bind_apply, liftE_apply, hBN]
        exact ⟨cursorLe_refl _, [], by rw [List.append_nil], fun k hk =>
          absurd hk (List.not_mem_nil k)⟩
    | ok head =>
        simp only [EM_bind_apply, liftE_apply, hBN]
        by_cases hLt : head < (match (st.store.getD defaultSession).lastCursor with
          | some c => c.bn
          | none => head)
        · rw [if_pos hLt]
          exact ⟨cursorLe_refl _, [], by simp only [EM_pure_apply, List.append_nil], fun k hk =>
            absurd hk (List.not_mem_nil k)⟩
        · rw [if_neg hLt]
          simp only [EM_bind_apply]
          cases hRows : (getEncounterRowsAscEnc env (match
              (st.store.getD defaultSession).lastCursor with
            | some c => c.bn
            | none => head) head) st with
          | mk r2 s2 =>
              have hs2 : s2 = st := by
                have h3 := getEncounterRowsAscEnc_state env (match
                    (st.store.getD defaultSession).lastCursor with
                  | some c => c.bn
                  | none => head) head st
                rw [hRows] at h3
                exact h3
              rw [hs2]
              cases r2 with
              | error e =>
                  exact ⟨cursorLe_refl _, [], by rw [List.append_nil], fun k hk =>
                    absurd hk (List.not_mem_nil k)⟩
              | ok rows0 =>
                  dsimp only
                  cases hL : (encProcessLoop env (st.store.getD defaultSession) token
                      (rows0.filter (fun r => isAfter r.toKey
                        (st.store.getD defaultSession).lastCursor)) none) st with
                  | mk rl s3 =>
                      have hlp := encProcessLoop_spec env (st.store.getD defaultSession) token
                        (rows0.filter (fun r => isAfter r.toKey
                          (st.store.getD defaultSession).lastCursor)) none st
                      rw [hL] at hlp
                      obtain ⟨p1, ⟨ks, p2, p3⟩, plast⟩ := hlp
                      dsimp only at p1 p2
                      have hksAfter : ∀ k ∈ ks, isAfter k (encCursorOf st) = true := by
                        intro k hk
                        rcases List.mem_map.mp (p3 k hk) with ⟨r, hrf, rfl⟩
                        exact (List.mem_filter.mp hrf).2
                      cases rl with
                      | error e =>
                          refine ⟨?_, ks, p2, hksAfter⟩
                          rw [encCursorOf_eq_of_store p1.symm]
                          exact cursorLe_refl _
                      | ok lv =>
                          cases lv with
                          | none =>
                              simp only [EM_pure_apply]
                              refine ⟨?_, ks, p2, hksAfter⟩
                              rw [encCursorOf_eq_of_store p1.symm]
                              exact cursorLe_refl _
                          | some k =>
                              simp only [encSetSession, modifyE_apply]
                              refine ⟨?_, ks, p2, hksAfter⟩
                              rcases plast (some k) rfl with hlv | ⟨r0, hr0, hlv⟩
                              · exact Option.noConfusion hlv
                              · have hkk : k = r0.toKey := Option.some.inj hlv
                                have haf : isAfter r0.toKey
                                    (st.store.getD defaultSession).lastCursor = true :=
                                  (List.mem_filter.mp hr0).2
                                have hcf : encCursorOf { s3 with
                                    store := some { st.store.getD defaultSession with
                                      lastCursor := some k } } = some k :=
                                  encCursorOf_of_store_eq rfl
                                rw [hcf, hkk]
                                exact cursorLe_of_isAfter haf
  · rw [if_pos hEn]
    exact ⟨cursorLe_refl _, [], by simp only [EM_pure_apply, List.append_nil], fun k hk =>
      absurd hk (List.not_mem_nil k)⟩

theorem pollOnceEnc_spec (env : EncEnv) (tokenArg : Option Nat) (st : EncSt) :
    cursorLe (encCursorOf st) (encCursorOf (((pollOnceEnc env tokenArg) st).2)) ∧
    ∃ ks, (((pollOnceEnc env tokenArg) st).2).processed = st.processed ++ ks ∧
      ∀ k ∈ ks, isAfter k (encCursorOf st) = true := by
  rw [pollOnceEnc]
  rw [EM_bind_apply, getE_apply]
  dsimp only
  by_cases h1 : st.runToken ≠ tokenArg.getD st.runToken
  · rw [if_pos h1]
    exact ⟨cursorLe_refl _, [], by simp only [EM_pure_apply]; rw [List.append_nil],
      fun k hk => absurd hk (List.not_mem_nil k)⟩
  · rw [if_neg h1]
    by_cases h2 : st.lock = true
    · rw [if_pos h2]
      exact ⟨cursorLe_refl _, [], by simp only [EM_pure_apply]; rw [List.append_nil],
        fun k hk => absurd hk (List.not_mem_nil k)⟩
    · rw [if_neg h2]
      simp only [EM_bind_apply, modifyE_apply, tryCatchE_apply]
      cases hI : (pollOnceEncInner env (tokenArg.getD st.runToken))
          { st with lock := true } with
      | mk r s1 =>
          have hsp := pollOnceEncInner_spec env (tokenArg.getD st.runToken)
            { st with lock := true }
          rw [hI] at hsp
          obtain ⟨hc, ks, hp, ha⟩ := hsp
          dsimp only at hp
          rw [encCursorOf_eq_of_store
            (show ({ st with lock := true } : EncSt).store = st.store from rfl)] at hc
          have ha2 : ∀ k ∈ ks, isAfter k (encCursorOf st) = true := by
            intro k hk
            have := ha k hk
            rw [encCursorOf_eq_of_store
              (show ({ st with lock := true } : EncSt).store = st.store from rfl)] at this
            exact this
          cases r with
          | ok a =>
              dsimp only
              refine ⟨?_, ks, hp, ha2⟩
              rw [encCursorOf_eq_of_store
                (show ({ s1 with lock := false } : EncSt).store = s1.store from rfl)]
              exact hc
          | error e =>
              dsimp only
              simp only [EM_pure_apply]
              refine ⟨?_, ks, hp, ha2⟩
              rw [encCursorOf_eq_of_store
                (show ({ s1 with lock := false } : EncSt).store = s1.store from rfl)]
              exact hc

theorem runBackfillLoop_spec (env : EncEnv) (tokenAt : Nat → Nat) (token : Nat)
    (s : Session) :
    ∀ (rows : List EncRow) (i : Nat) (cur : Option Key) (st : EncSt),
      curAdv s.lastCursor cur →
      ((((runBackfillLoop env tokenAt token s rows i cur) st).2).store = st.store ∨
        ∃ k, isAfter k s.lastCursor = true ∧
          (((runBackfillLoop env tokenAt token s rows i cur) st).2).store
            = some { s with lastCursor := some k }) ∧
      ∃ ks, (((runBackfillLoop env tokenAt token s rows i cur) st).2).processed
          = st.processed ++ ks ∧
        ∀ k ∈ ks, isAfter k s.lastCursor = true := by
  intro rows
  induction rows with
  | nil =>
      intro i cur st hadv
      exact ⟨Or.inl rfl, [], by rw [List.append_nil]; rfl,
        fun k hk => absurd hk (List.not_mem_nil k)⟩
  | cons r rest ih =>
      intro i cur st hadv
      rw [runBackfillLoop_cons]
      by_cases h1 : tokenAt i ≠ token ∨ ¬ (st.store.getD defaultSession).enabled
      · rw [if_pos h1]
        exact ⟨Or.inl rfl, [], by rw [List.append_nil], fun k hk =>
          absurd hk (List.not_mem_nil k)⟩
      · rw [if_neg h1]
        by_cases h2 : cur.isSome ∧ ¬ isAfter r.toKey cur
        · rw [if_pos h2]
          exact ih (i + 1) cur st hadv
        · rw [if_neg h2]
          have hAfterCur : isAfter r.toKey cur = true ∨ cur = none := by
            cases hcv : cur with
            | none => exact Or.inr rfl
            | some c1 =>
                left
                by_contra hB
                exact h2 ⟨by rw [hcv]; rfl, by rw [hcv]; exact hB⟩
          have hafK : isAfter r.toKey s.lastCursor = true := by
            rcases hadv with rfl | ⟨k1, rfl, hk1⟩
            · rcases hAfterCur with h | h
              · exact h
              · rw [h]
                rfl
            · rcases hAfterCur with h | h
              · exact isAfter_trans h hk1
              · exact Option.noConfusion h
          simp only [EM_bind_apply, modifyE_apply]
          cases hh : (sendEncounterForCharacter env r.bn r.h r.charId s token)
              { st with processed := st.processed ++ [r.toKey] } with
          | mk hr s2 =>
              have hA := sendEncounterForCharacter_EPres env r.bn r.h r.charId s token
                { st with processed := st.processed ++ [r.toKey] }
              rw [hh] at hA
              obtain ⟨hst, hpr⟩ := hA
              dsimp only at hst hpr
              cases hr with
              | error e =>
                  dsimp only
                  refine ⟨Or.inl hst, [r.toKey], hpr, ?_⟩
                  intro k hk
                  rcases List.mem_singleton.mp hk with rfl
                  exact hafK
              | ok b =>
                  dsimp only
                  simp only [EM_bind_apply, encSetSession, modifyE_apply]
                  obtain ⟨hstore, ks2, hp2, ha2⟩ := ih (i + 1) (some r.toKey)
                    { s2 with store := some { s with lastCursor := some r.toKey } }
                    (Or.inr ⟨r.toKey, rfl, hafK⟩)
                  refine ⟨?_, r.toKey :: ks2, ?_, ?_⟩
                  · rcases hstore with h | ⟨k1, hk1, heq⟩
                    · rw [h]
                      exact Or.inr ⟨r.toKey, hafK, rfl⟩
                    · exact Or.inr ⟨k1, hk1, heq⟩
                  · rw [hp2]
                    dsimp only
                    rw [hpr, List.append_assoc, List.singleton_append]
                  · intro k hk
                    rcases List.mem_cons.mp hk with rfl | hk2
                    · exact hafK
                    · exact ha2 k hk2

theorem EM_bind_eq_ok (x : EM σ α) (f : α → EM σ β) (s : σ) (a : α) (s1 : σ)
    (h : x s = (Except.ok a, s1)) : (x >>= f) s = f a s1 := by
  show EM.bind x f s = f a s1
  rw [EM.bind, h]

theorem EM_bind_eq_err (x : EM σ α) (f : α → EM σ β) (s : σ) (e : String) (s1 : σ)
    (h : x s = (Except.error e, s1)) : (x >>= f) s = (Except.error e, s1) := by
  show EM.bind x f s = (Except.error e, s1)
  rw [EM.bind, h]

set_option maxRecDepth 4000 in
theorem runBackfill_spec (env : EncEnv) (tokenAt : Nat → Nat) (head token : Nat)
    (st : EncSt) :
    cursorLe (encCursorOf st) (encCursorOf (((runBackfill env tokenAt head token) st).2)) ∧
    ∃ ks, (((runBackfill env tokenAt head token) st).2).processed = st.processed ++ ks ∧
      ∀ k ∈ ks, isAfter k (encCursorOf st) = true := by
  cases hRows : (getEncounterRowsAscEnc env (head - BACKFILL_BLOCKS) head) st with
  | mk r0 s1 =>
      have hs1 : s1 = st := by
        have h3 := getEncounterRowsAscEnc_state env (head - BACKFILL_BLOCKS) head st
        rw [hRows] at h3
        exact h3
      cases r0 with
      | error e =>
          have hEq : (runBackfill env tokenAt head token) st = (Except.error e, st) := by
            have h1 := EM_bind_eq_err (getEncounterRowsAscEnc env (head - BACKFILL_BLOCKS) head)
              (fun rows0 => encGetSession >>= fun s =>
                runBackfillLoop env tokenAt token s
                  (if 0 < BACKFILL_LIMIT ∧ BACKFILL_LIMIT < rows0.length
                    then rows0.drop (rows0.length - BACKFILL_LIMIT) else rows0) 0
                  s.lastCursor)
              st e s1 hRows
            rw [hs1] at h1
            exact h1
          rw [hEq]
          exact ⟨cursorLe_refl _, [], by rw [List.append_nil], fun k hk =>
            absurd hk (List.not_mem_nil k)⟩
      | ok rows0 =>
          have hEq : (runBackfill env tokenAt head token) st
              = (runBackfillLoop env tokenAt token (st.store.getD defaultSession)
                  (if 0 < BACKFILL_LIMIT ∧ BACKFILL_LIMIT < rows0.length
                    then rows0.drop (rows0.length - BACKFILL_LIMIT) else rows0) 0
                  (st.store.getD defaultSession).lastCursor) st := by
            have h1 := EM_bind_eq_ok (getEncounterRowsAscEnc env (head - BACKFILL_BLOCKS) head)
              (fun rows0 => encGetSession >>= fun s =>
                runBackfillLoop env tokenAt token s
                  (if 0 < BACKFILL_LIMIT ∧ BACKFILL_LIMIT < rows0.length
                    then rows0.drop (rows0.length - BACKFILL_LIMIT) else rows0) 0
                  s.lastCursor)
              st rows0 s1 hRows
            rw [hs1] at h1
            exact h1
          rw [hEq]
          obtain ⟨hstore, ks, hp, ha⟩ := runBackfillLoop_spec env tokenAt token
            (st.store.getD defaultSession)
            (if 0 < BACKFILL_LIMIT ∧ BACKFILL_LIMIT < rows0.length
              then rows0.drop (rows0.length - BACKFILL_LIMIT) else rows0) 0
            (st.store.getD defaultSession).lastCursor st (Or.inl rfl)
          refine ⟨?_, ks, hp, ha⟩
          rcases hstore with h | ⟨k1, hk1, heq⟩
          · rw [encCursorOf_eq_of_store h.symm]
            exact cursorLe_refl _
          · rw [encCursorOf_of_store_eq heq]
            exact cursorLe_of_isAfter hk1



/-- C2: for both watcher families the persisted cursor never moves backward
across a poll tick or a backfill run, and every row handed to per-row
processing in a tick or backfill step has its (block, txIndex, logIndex) key
strictly after the cursor persisted at the start — rerunning with the same
cursor and chain state processes nothing at or before it. -/
theorem C2_cursor_monotone_idempotent (envE : EncEnv) (tokenArg : Option Nat)
    (stE : EncSt) (envM : MintEnv) (chatId : Nat) (stM : MintSt)
    (tokenAt : Nat → Nat) (head token : Nat) (stB : EncSt) :
    (cursorLe (encCursorOf stE) (encCursorOf (((pollOnceEnc envE tokenArg) stE).2)) ∧
      ∃ ks, (((pollOnceEnc envE tokenArg) stE).2).processed = stE.processed ++ ks ∧
        ∀ k ∈ ks, isAfter k (encCursorOf stE) = true) ∧
    (cursorLe (mintCursorOf stM) (mintCursorOf (((pollOnceMints envM chatId) stM).2)) ∧
      ∃ ks, (((pollOnceMints envM chatId) stM).2).processed = stM.processed ++ ks ∧
        ∀ k ∈ ks, isAfter k (mintCursorOf stM) = true) ∧
    (cursorLe (encCursorOf stB) (encCursorOf (((runBackfill envE tokenAt head token) stB).2)) ∧
      ∃ ks, (((runBackfill envE tokenAt head token) stB).2).processed = stB.processed ++ ks ∧
        ∀ k ∈ ks, isAfter k (encCursorOf stB) = true) :=
  ⟨pollOnceEnc_spec envE tokenArg stE,
   ⟨(pollOnceMints_spec envM chatId stM).2.1, (pollOnceMints_spec envM chatId stM).2.2⟩,
   runBackfill_spec envE tokenAt head token stB⟩

/-- Witness for C2 at concrete baseline states. -/
theorem C2_cursor_monotone_idempotent_witness :
    cursorLe (encCursorOf encStBase) (encCursorOf (((pollOnceEnc encEnvBase none) encStBase).2)) ∧
    cursorLe (mintCursorOf c9St) (mintCursorOf (((pollOnceMints mintEnvBase 0) c9St).2)) ∧
    cursorLe (encCursorOf encStBase)
      (encCursorOf (((runBackfill encEnvBase (fun i => 0) 100 0) encStBase).2)) :=
  ⟨(C2_cursor_monotone_idempotent encEnvBase none encStBase mintEnvBase 0 c9St
      (fun i => 0) 100 0 encStBase).1.1,
   (C2_cursor_monotone_idempotent encEnvBase none encStBase mintEnvBase 0 c9St
      (fun i => 0) 100 0 encStBase).2.1.1,
   (C2_cursor_monotone_idempotent encEnvBase none encStBase mintEnvBase 0 c9St
      (fun i => 0) 100 0 encStBase).2.2.1⟩

theorem jsHas_jsSet_self [DecidableEq κ] (m : List (κ × β)) (k : κ) (v : β) :
    jsHas (jsSet m k v) k = true := by
  rw [jsHas, jsGet_jsSet_self]
  rfl

theorem bind_trace (x : EM MintSt α) (f : α → EM MintSt β) (s : MintSt)
    (hx : ((x s).2).trace = s.trace) (hf : ∀ a s1, (((f a s1)).2).trace = s1.trace) :
    (((x >>= f) s).2).trace = s.trace := by
  refine bind_pres (fun a b => b.trace = a.trace) ?_ x f s hx hf
  intro a b c h1 h2
  exact h2.trans h1

theorem tryKeysAttrib_trace (env : MintEnv) (tok : Nat) :
    ∀ (ks : List String) (st : MintSt), (((tryKeysAttrib env tok ks) st).2).trace = st.trace := by
  intro ks
  induction ks with
  | nil => intro st; rfl
  | cons k rest ih =>
      intro st
      rw [tryKeysAttrib]
      cases hm : (match bytes32ToAddressOrNull k with
        | none => none
        | some addr =>
            match env.selectedCharacterId addr with
            | Except.error _ => none
            | Except.ok charId =>
                if 0 < charId ∧ characterOwnsOpponentVera env charId tok = true then
                  match usernameFromCharacterIdM env charId with
                  | some u => if strTruthy (some u) then some (charId, u) else none
                  | none => none
                else none : Option (Nat × String)) with
      | some cu =>
          obtain ⟨c, u⟩ := cu
          exact bind_trace _ _ st rfl fun a s1 => rfl
      | none =>
          dsimp only
          cases hm2 : (match hexToNat? k with
            | none => none
            | some charId =>
                if 0 < charId ∧ characterOwnsOpponentVera env charId tok = true then
                  match usernameFromCharacterIdM env charId with
                  | some u => if strTruthy (some u) then some (charId, u) else none
                  | none => none
                else none : Option (Nat × String)) with
          | some cu =>
              obtain ⟨c, u⟩ := cu
              exact bind_trace _ _ st rfl fun a s1 => rfl
          | none => exact ih st

theorem scanLogsStrict_trace (env : MintEnv) (tok : Nat) :
    ∀ (ls : List RLog) (st : MintSt), (((scanLogsStrict env tok ls) st).2).trace = st.trace := by
  intro ls
  induction ls with
  | nil => intro st; rfl
  | cons lg rest ih =>
      intro st
      rw [scanLogsStrict]
      by_cases hc : strLower lg.topic0 ≠ TOPIC_STORE_DELETE_RECORD ∨
          strLower lg.topic1 ≠ TABLE_VERA_TOKEN_BACKLOG
      · rw [if_pos hc]
        exact ih st
      · rw [if_neg hc]
        cases lg.keyTuple with
        | none => exact ih st
        | some kt =>
            dsimp only
            by_cases hk : kt.length = 0
            · rw [if_pos hk]
              exact ih st
            · rw [if_neg hk]
              refine bind_trace _ _ st (tryKeysAttrib_trace env tok kt st) fun a s1 => ?_
              cases a with
              | some a2 => rfl
              | none => exact ih s1

theorem scanLogsBroad_trace (env : MintEnv) (tok : Nat) :
    ∀ (ls : List RLog) (st : MintSt), (((scanLogsBroad env tok ls) st).2).trace = st.trace := by
  intro ls
  induction ls with
  | nil => intro st; rfl
  | cons lg rest ih =>
      intro st
      rw [scanLogsBroad]
      by_cases hc : strLower lg.topic0 ≠ TOPIC_STORE_SET_RECORD ∧
          strLower lg.topic0 ≠ TOPIC_STORE_DELETE_RECORD
      · rw [if_pos hc]
        exact ih st
      · rw [if_neg hc]
        cases lg.keyTuple with
        | none => exact ih st
        | some kt =>
            dsimp only
            by_cases hk : kt.length = 0
            · rw [if_pos hk]
              exact ih st
            · rw [if_neg hk]
              refine bind_trace _ _ st (tryKeysAttrib_trace env tok kt st) fun a s1 => ?_
              cases a with
              | some a2 => rfl
              | none => exact ih s1

theorem tryAttributionFromSameTx_trace (env : MintEnv) (tx : String) (tok : Nat)
    (st : MintSt) : (((tryAttributionFromSameTx env tx tok) st).2).trace = st.trace := by
  rw [tryAttributionFromSameTx]
  refine bind_trace _ _ st (congrArg MintSt.trace (waitReceipt_state env st)) fun rc s1 => ?_
  cases rc with
  | none => rfl
  | some logs =>
      refine bind_trace _ _ s1 (scanLogsStrict_trace env tok logs s1) fun r1 s2 => ?_
      cases r1 with
      | some a => rfl
      | none =>
          refine bind_trace _ _ s2 (scanLogsBroad_trace env tok logs s2) fun r2 s3 => ?_
          cases r2 with
          | some a => rfl
          | none => rfl

theorem probeLoop_trace (env : MintEnv) (tok : Nat) :
    ∀ (cs : List Nat) (st : MintSt), (((probeLoop env tok cs) st).2).trace = st.trace := by
  intro cs
  induction cs with
  | nil => intro st; rfl
  | cons c rest ih =>
      intro st
      rw [probeLoop]
      cases env.oppVeraIds c with
      | error e => exact ih st
      | ok ids =>
          dsimp only
          by_cases hm : ids.contains tok
          · rw [if_pos hm]
            exact bind_trace _ _ st rfl fun a s1 => rfl
          · rw [if_neg hm]
            exact ih st

theorem tryAttributionByOpponentProbe_trace (env : MintEnv) (tok : Nat) (st : MintSt) :
    (((tryAttributionByOpponentProbe env tok) st).2).trace = st.trace := by
  rw [tryAttributionByOpponentProbe]
  exact bind_trace _ _ st (probeLoop_trace env tok _ st) fun r s1 => rfl

theorem backscanLoop_trace (env : MintEnv) (tok : Nat) :
    ∀ (rows : List EncRow) (st : MintSt),
      (((backscanLoop env tok rows) st).2).trace = st.trace := by
  intro rows
  induction rows with
  | nil => intro st; rfl
  | cons r rest ih =>
      intro st
      rw [backscanLoop]
      cases env.oppVeraIds r.charId with
      | error e => exact ih st
      | ok opp =>
          dsimp only
          by_cases hm : opp.contains tok
          · rw [if_pos hm]
            exact bind_trace _ _ st rfl fun a s1 => rfl
          · rw [if_neg hm]
            exact ih st

theorem populateAttributionNearMint_trace (env : MintEnv) (bn tok : Nat) (st : MintSt) :
    (((populateAttributionNearMint env bn tok) st).2).trace = st.trace := by
  rw [populateAttributionNearMint]
  refine bind_trace _ _ st
    (congrArg MintSt.trace (getEncounterRowsAscM_state env _ _ st)) fun rows s1 => ?_
  exact bind_trace _ _ s1 (backscanLoop_trace env tok rows s1) fun r s2 => rfl

theorem traceMark_bind_eq (t : Strat) (f : PUnit → EM MintSt α) (s : MintSt) :
    (traceMark t >>= f) s = f PUnit.unit { s with trace := s.trace ++ [t] } := rfl

/-- C7: attribution resolution records its source attempts in strict priority
order (shared cache, same-transaction scan, live probe, historical backscan)
as a prefix of that fixed order, stopping early exactly on success: when the
result is an unresolved attribution every one of the four sources was tried.
A successful handleMint resolution is written to the shared attribution cache
(entry for the token with the resolved username and a fresh TTL), and a
failed resolution leaves the mint recorded on the pending queue. -/
theorem C7_attribution_priority (env : MintEnv) (chatId bn : Nat) (tx : String)
    (tok : Nat) (st : MintSt) :
    (∃ n, 1 ≤ n ∧ n ≤ 4 ∧
      (((tryResolveAttribution env bn tx tok) st).2).trace
        = st.trace ++ ([Strat.cacheQ, Strat.sameTx, Strat.probe, Strat.backscan].take n)) ∧
    (∀ a, ((tryResolveAttribution env bn tx tok) st).1 = Except.ok a →
      strTruthy a.username = false →
      (((tryResolveAttribution env bn tx tok) st).2).trace
        = st.trace ++ [Strat.cacheQ, Strat.sameTx, Strat.probe, Strat.backscan]) ∧
    (∀ u, ((handleMintPre env chatId bn tx tok) st).1 = Except.ok (some u) →
      ∃ c, jsGet ((((handleMintPre env chatId bn tx tok) st).2).cache) tok
          = some { charId := c, username := u, expiresAt := env.now + TTL_MS }) ∧
    (((handleMintPre env chatId bn tx tok) st).1 = Except.ok none →
      (seenWithTtl st.seenEvent (toString bn ++ ":" ++ tx ++ ":" ++ toString tok) bn
        EVENT_DEDUP_TTL).1 = false →
      jsHas ((((handleMintPre env chatId bn tx tok) st).2).pending) (pendKey tok) = true) := by
  have hmain : (∃ n, 1 ≤ n ∧ n ≤ 4 ∧
      (((tryResolveAttribution env bn tx tok) st).2).trace
        = st.trace ++ ([Strat.cacheQ, Strat.sameTx, Strat.probe, Strat.backscan].take n)) ∧
      (∀ a, ((tryResolveAttribution env bn tx tok) st).1 = Except.ok a →
        strTruthy a.username = false →
        (((tryResolveAttribution env bn tx tok) st).2).trace
          = st.trace ++ [Strat.cacheQ, Strat.sameTx, Strat.probe, Strat.backscan]) := by
    have hsplit : (tryResolveAttribution env bn tx tok) st
        = (if strTruthy (match (getAttribution st.cache tok env.now).1 with
            | some cu => ({ charId := some cu.1, username := cu.2 } : MaybeAttrib)
            | none => MaybeAttrib.none0).username then
            pure (match (getAttribution st.cache tok env.now).1 with
            | some cu => ({ charId := some cu.1, username := cu.2 } : MaybeAttrib)
            | none => MaybeAttrib.none0)
          else
            (do
              traceMark Strat.sameTx
              let a ← tryAttributionFromSameTx env tx tok
              if strTruthy a.username then pure a
              else do
                traceMark Strat.probe
                let b ← tryAttributionByOpponentProbe env tok
                if strTruthy b.username then pure b
                else do
                  traceMark Strat.backscan
                  let c ← populateAttributionNearMint env bn tok
                  if strTruthy c.username then pure c
                  else pure MaybeAttrib.none0))
          { st with
            cache := (getAttribution st.cache tok env.now).2
            trace := st.trace ++ [Strat.cacheQ] } := rfl
    by_cases hc : strTruthy (match (getAttribution st.cache tok env.now).1 with
        | some cu => ({ charId := some cu.1, username := cu.2 } : MaybeAttrib)
        | none => MaybeAttrib.none0).username = true
    · have hEq : (tryResolveAttribution env bn tx tok) st
          = (Except.ok (match (getAttribution st.cache tok env.now).1 with
              | some cu => ({ charId := some cu.1, username := cu.2 } : MaybeAttrib)
              | none => MaybeAttrib.none0),
             { st with
               cache := (getAttribution st.cache tok env.now).2
               trace := st.trace ++ [Strat.cacheQ] }) := by
        rw [hsplit, if_pos hc]
        rfl
      refine ⟨⟨1, by omega, by omega, ?_⟩, ?_⟩
      · rw [hEq]
        rfl
      · intro a ha hfalse
        rw [hEq] at ha
        have h2 := Except.ok.inj ha
        rw [← h2] at hfalse
        rw [hfalse] at hc
        exact Bool.noConfusion hc
    · have hEq1 : (tryResolveAttribution env bn tx tok) st
          = ((tryAttributionFromSameTx env tx tok >>= fun a =>
              if strTruthy a.username then pure a
              else do
                traceMark Strat.probe
                let b ← tryAttributionByOpponentProbe env tok
                if strTruthy b.username then pure b
                else do
                  traceMark Strat.backscan
                  let c ← populateAttributionNearMint env bn tok
                  if strTruthy c.username then pure c
                  else pure MaybeAttrib.none0) : EM MintSt MaybeAttrib)
            { st with
              cache := (getAttribution st.cache tok env.now).2
              trace := st.trace ++ [Strat.cacheQ] ++ [Strat.sameTx] } := by
        rw [hsplit, if_neg hc]
        rfl
      cases hA : (tryAttributionFromSameTx env tx tok)
          { st with
            cache := (getAttribution st.cache tok env.now).2
            trace := st.trace ++ [Strat.cacheQ] ++ [Strat.sameTx] } with
      | mk rA s4 =>
          have htA := tryAttributionFromSameTx_trace env tx tok
            { st with
              cache := (getAttribution st.cache tok env.now).2
              trace := st.trace ++ [Strat.cacheQ] ++ [Strat.sameTx] }
          rw [hA] at htA
          dsimp only at htA
          cases rA with
          | error e =>
              have hEq2 : (tryResolveAttribution env bn tx tok) st = (Except.error e, s4) :=
                hEq1.trans (EM_bind_eq_err _ _ _ e s4 hA)
              refine ⟨⟨2, by omega, by omega, ?_⟩, fun a ha => ?_⟩
              · rw [hEq2]
                dsimp only
                rw [htA, List.append_assoc]
                rfl
              · rw [hEq2] at ha
                exact Except.noConfusion ha
          | ok a1 =>
              have hEq2 : (tryResolveAttribution env bn tx tok) st
                  = ((if strTruthy a1.username then pure a1
                      else do
                        traceMark Strat.probe
                        let b ← tryAttributionByOpponentProbe env tok
                        if strTruthy b.username then pure b
                        else do
                          traceMark Strat.backscan
                          let c ← populateAttributionNearMint env bn tok
                          if strTruthy c.username then pure c
                          else pure MaybeAttrib.none0) : EM MintSt MaybeAttrib) s4 :=
                hEq1.trans (EM_bind_eq_ok _ _ _ a1 s4 hA)
              by_cases h1 : strTruthy a1.username = true
              · have hEq3 : (tryResolveAttribution env bn tx tok) st = (Except.ok a1, s4) := by
                  rw [hEq2, if_pos h1]
                  rfl
                refine ⟨⟨2, by omega, by omega, ?_⟩, ?_⟩
                · rw [hEq3]
                  dsimp only
                  rw [htA, List.append_assoc]
                  rfl
                · intro a ha hfalse
                  rw [hEq3] at ha
                  have h3 := Except.ok.inj ha
                  rw [← h3] at hfalse
                  rw [hfalse] at h1
                  exact Bool.noConfusion h1
              · have hEq3 : (tryResolveAttribution env bn tx tok) st
                    = ((tryAttributionByOpponentProbe env tok >>= fun b =>
                        if strTruthy b.username then pure b
                        else do
                          traceMark Strat.backscan
                          let c ← populateAttributionNearMint env bn tok
                          if strTruthy c.username then pure c
                          else pure MaybeAttrib.none0) : EM MintSt MaybeAttrib)
                      { s4 with trace := s4.trace ++ [Strat.probe] } := by
                  rw [hEq2, if_neg h1]
                  rfl
                cases hB : (tryAttributionByOpponentProbe env tok)
                    { s4 with trace := s4.trace ++ [Strat.probe] } with
                | mk rB s6 =>
                    have htB := tryAttributionByOpponentProbe_trace env tok
                      { s4 with trace := s4.trace ++ [Strat.probe] }
                    rw [hB] at htB
                    dsimp only at htB
                    cases rB with
                    | error e =>
                        have hEq4 : (tryResolveAttribution env bn tx tok) st
                            = (Except.error e, s6) :=
                          hEq3.trans (EM_bind_eq_err _ _ _ e s6 hB)
                        refine ⟨⟨3, by omega, by omega, ?_⟩, fun a ha => ?_⟩
                        · rw [hEq4]
                          dsimp only
                          rw [htB, htA, List.append_assoc, List.append_assoc]
                          rfl
                        · rw [hEq4] at ha
                          exact Except.noConfusion ha
                    | ok b1 =>
                        have hEq4 : (tryResolveAttribution env bn tx tok) st
                            = ((if strTruthy b1.username then pure b1
                                else do
                                  traceMark Strat.backscan
                                  let c ← populateAttributionNearMint env bn tok
                                  if strTruthy c.username then pure c
                                  else pure MaybeAttrib.none0) : EM MintSt MaybeAttrib) s6 :=
                          hEq3.trans (EM_bind_eq_ok _ _ _ b1 s6 hB)
                        by_cases h2 : strTruthy b1.username = true
                        · have hEq5 : (tryResolveAttribution env bn tx tok) st
                              = (Except.ok b1, s6) := by
                            rw [hEq4, if_pos h2]
                            rfl
                          refine ⟨⟨3, by omega, by omega, ?_⟩, ?_⟩
                          · rw [hEq5]
                            dsimp only
                            rw [htB, htA, List.append_assoc, List.append_assoc]
                            rfl
                          · intro a ha hfalse
                            rw [hEq5] at ha
                            have h4 := Except.ok.inj ha
                            rw [← h4] at hfalse
                            rw [hfalse] at h2
                            exact Bool.noConfusion h2
                        · have hEq5 : (tryResolveAttribution env bn tx tok) st
                              = ((populateAttributionNearMint env bn tok >>= fun c =>
                                  if strTruthy c.username then pure c
                                  else pure MaybeAttrib.none0) : EM MintSt MaybeAttrib)
                                { s6 with trace := s6.trace ++ [Strat.backscan] } := by
                            rw [hEq4, if_neg h2]
                            exact traceMark_bind_eq Strat.backscan _ s6
                          cases hC : (populateAttributionNearMint env bn tok)
                              { s6 with trace := s6.trace ++ [Strat.backscan] } with
                          | mk rC s8 =>
                              have htC := populateAttributionNearMint_trace env bn tok
                                { s6 with trace := s6.trace ++ [Strat.backscan] }
                              rw [hC] at htC
                              dsimp only at htC
                              have htFull : s8.trace = st.trace ++
                                  [Strat.cacheQ, Strat.sameTx, Strat.probe, Strat.backscan] := by
                                rw [htC, htB, htA, List.append_assoc, List.append_assoc,
                                  List.append_assoc]
                                rfl
                              cases rC with
                              | error e =>
                                  have hEq6 : (tryResolveAttribution env bn tx tok) st
                                      = (Except.error e, s8) :=
                                    hEq5.trans (EM_bind_eq_err _ _ _ e s8 hC)
                                  refine ⟨⟨4, by omega, by omega, ?_⟩, fun a ha => ?_⟩
                                  · rw [hEq6]
                                    exact htFull
                                  · rw [hEq6] at ha
                                    exact Except.noConfusion ha
                              | ok c1 =>
                                  have hEq6 : (tryResolveAttribution env bn tx tok) st
                                      = ((if strTruthy c1.username then pure c1
                                          else pure MaybeAttrib.none0)
                                          : EM MintSt MaybeAttrib) s8 :=
                                    hEq5.trans (EM_bind_eq_ok _ _ _ c1 s8 hC)
                                  by_cases h3 : strTruthy c1.username = true
                                  · have hEq7 : (tryResolveAttribution env bn tx tok) st
                                        = (Except.ok c1, s8) := by
                                      rw [hEq6, if_pos h3]
                                      rfl
                                    refine ⟨⟨4, by omega, by omega, ?_⟩, ?_⟩
                                    · rw [hEq7]
                                      exact htFull
                                    · intro a ha hfalse
                                      rw [hEq7] at ha
                                      have h4 := Except.ok.inj ha
                                      rw [← h4] at hfalse
                                      rw [hfalse] at h3
                                      exact Bool.noConfusion h3
                                  · have hEq7 : (tryResolveAttribution env bn tx tok) st
                                        = (Except.ok MaybeAttrib.none0, s8) := by
                                      rw [hEq6, if_neg h3]
                                      rfl
                                    refine ⟨⟨4, by omega, by omega, ?_⟩, ?_⟩
                                    · rw [hEq7]
                                      exact htFull
                                    · intro a ha hfalse
                                      rw [hEq7]
                                      exact htFull
  have hpre : (∀ u, ((handleMintPre env chatId bn tx tok) st).1 = Except.ok (some u) →
      ∃ c, jsGet ((((handleMintPre env chatId bn tx tok) st).2).cache) tok
          = some { charId := c, username := u, expiresAt := env.now + TTL_MS }) ∧
      (((handleMintPre env chatId bn tx tok) st).1 = Except.ok none →
        (seenWithTtl st.seenEvent (toString bn ++ ":" ++ tx ++ ":" ++ toString tok) bn
          EVENT_DEDUP_TTL).1 = false →
        jsHas ((((handleMintPre env chatId bn tx tok) st).2).pending)
          (pendKey tok) = true) := by
    rw [handleMintPre]
    simp only [EM_bind_apply, getE_apply, setE_apply]
    by_cases hd : (seenWithTtl st.seenEvent
        (toString bn ++ ":" ++ tx ++ ":" ++ toString tok) bn EVENT_DEDUP_TTL).1 = true
    · rw [if_pos hd]
      simp only [EM_pure_apply]
      refine ⟨fun u hu => ?_, fun hn hmiss => ?_⟩
      · exact Option.noConfusion (Except.ok.inj hu)
      · rw [hmiss] at hd
        exact Bool.noConfusion hd
    · rw [if_neg hd]
      simp only [EM_bind_apply]
      cases hA : (tryResolveAttribution env bn tx tok)
          { st with seenEvent := (seenWithTtl st.seenEvent
              (toString bn ++ ":" ++ tx ++ ":" ++ toString tok) bn EVENT_DEDUP_TTL).2 } with
      | mk rA s3 =>
          cases rA with
          | error e =>
              exact ⟨fun u hu => Except.noConfusion hu, fun hn hmiss => Except.noConfusion hn⟩
          | ok attrib =>
              dsimp only
              by_cases ht : strTruthy attrib.username = true
              · rw [if_pos ht]
                simp only [EM_bind_apply, cacheSetM, modifyE_apply, EM_pure_apply]
                refine ⟨fun u hu => ?_, fun hn hmiss => ?_⟩
                · have hu2 := Option.some.inj (Except.ok.inj hu)
                  refine ⟨attrib.charId.getD 0, ?_⟩
                  rw [← hu2]
                  rw [setFromEncounter]
                  exact jsGet_jsSet_self _ _ _
                · exact Option.noConfusion (Except.ok.inj hn)
              · rw [if_neg ht]
                simp only [EM_bind_apply, getE_apply]
                by_cases hp : jsHas s3.pending (pendKey tok) = true
                · rw [if_pos hp]
                  simp only [EM_pure_apply]
                  exact ⟨fun u hu => Option.noConfusion (Except.ok.inj hu),
                    fun hn hmiss => hp⟩
                · rw [if_neg hp]
                  simp only [EM_bind_apply, setE_apply, EM_pure_apply]
                  refine ⟨fun u hu => Option.noConfusion (Except.ok.inj hu),
                    fun hn hmiss => ?_⟩
                  exact jsHas_jsSet_self _ _ _
  exact ⟨hmain.1, hmain.2, hpre.1, hpre.2⟩

/-- Witness for C7: with every source empty the resolver tries all four
sources in order; a cache-hit mint is written back to the shared cache; an
unresolvable mint is left on the pending queue. -/
theorem C7_attribution_priority_witness :
    (((tryResolveAttribution c3Env1 101 "0xt7" 7) c3St0).2).trace
      = c3St0.trace ++ [Strat.cacheQ, Strat.sameTx, Strat.probe, Strat.backscan] ∧
    (∃ c, jsGet ((((handleMintPre c3Env2 0 102 "0xt8" 8) c3St0).2).cache) 8
        = some { charId := c, username := some "bob", expiresAt := c3Env2.now + TTL_MS }) ∧
    jsHas ((((handleMintPre c3Env1 0 101 "0xt7" 7) c3St0).2).pending) (pendKey 7) = true :=
  ⟨(C7_attribution_priority c3Env1 0 101 "0xt7" 7 c3St0).2.1 MaybeAttrib.none0 rfl rfl,
   (C7_attribution_priority c3Env2 0 102 "0xt8" 8 c3St0).2.2.1 (some "bob") rfl,
   (C7_attribution_priority c3Env1 0 101 "0xt7" 7 c3St0).2.2.2 rfl rfl⟩

theorem filter_scan_of_all_pending (d : List Card)
    (hall : ∀ cd ∈ d, cd.fromPending = true) :
    d.filter (fun c => c.fromPending = false) = [] := by
  induction d with
  | nil => rfl
  | cons a t ih =>
      have ha := hall a (List.mem_cons_self a t)
      rw [List.filter_cons]
      simp only [ha]
      exact ih fun cd hcd => hall cd (List.mem_cons_of_mem a hcd)

theorem filter_scan_of_all_scan (d : List Card)
    (hall : ∀ cd ∈ d, cd.fromPending = false) :
    d.filter (fun c => c.fromPending = false) = d := by
  induction d with
  | nil => rfl
  | cons a t ih =>
      have ha := hall a (List.mem_cons_self a t)
      have ih2 := ih fun cd hcd => hall cd (List.mem_cons_of_mem a hcd)
      have hc : (decide (a.fromPending = false)) = true := by
        rw [ha]
        rfl
      rw [List.filter_cons, if_pos hc, ih2]

theorem scanBns_eq_of_sink (st s1 : MintSt) (d : List Card) (h : s1.sink = st.sink ++ d)
    (hall : ∀ cd ∈ d, cd.fromPending = true) : scanBns s1 = scanBns st := by
  unfold scanBns
  rw [h, List.filter_append, filter_scan_of_all_pending d hall, List.append_nil]

theorem scanBns_append_scan (st s1 : MintSt) (d : List Card) (h : s1.sink = st.sink ++ d)
    (hall : ∀ cd ∈ d, cd.fromPending = false) :
    scanBns s1 = scanBns st ++ d.map Card.bn := by
  unfold scanBns
  rw [h, List.filter_append, filter_scan_of_all_scan d hall, List.map_append]

theorem mint_tick_inv (env : MintEnv) (chatId : Nat) (st : MintSt)
    (hok : ((pollOnceMints env chatId) st).1 = Except.ok PUnit.unit)
    (hsorted : List.Sorted (fun a b => a ≤ b) (scanBns st))
    (hbound : scanBns st = [] ∨
      ∃ c, mintCursorOf st = some c ∧ ∀ b ∈ scanBns st, b ≤ c.bn) :
    List.Sorted (fun a b => a ≤ b) (scanBns (((pollOnceMints env chatId) st).2)) ∧
    (scanBns (((pollOnceMints env chatId) st).2) = [] ∨
      ∃ c, mintCursorOf (((pollOnceMints env chatId) st).2) = some c ∧
        ∀ b ∈ scanBns (((pollOnceMints env chatId) st).2), b ≤ c.bn) := by
  have hsp := mintScanPhase_spec env st
  rw [pollOnceMints] at hok ⊢
  simp only [EM_bind_apply] at hok ⊢
  cases hS : (mintScanPhase env) st with
  | mk rs s1 =>
      rw [hS] at hsp hok
      obtain ⟨h1, h2, ⟨d0, hd0, hd0t⟩, hokS⟩ := hsp
      dsimp only at h1 h2 hd0
      have hscan1 : scanBns s1 = scanBns st := scanBns_eq_of_sink st s1 d0 hd0 hd0t
      cases rs with
      | error e =>
          dsimp only at hok
          exact Except.noConfusion hok
      | ok ropt =>
          dsimp only at hok ⊢
          cases ropt with
          | none =>
              dsimp only
              simp only [EM_pure_apply]
              refine ⟨by rw [hscan1]; exact hsorted, ?_⟩
              rcases hbound with hb | ⟨c, hc1, hc2⟩
              · exact Or.inl (by rw [hscan1]; exact hb)
              · refine Or.inr ⟨c, ?_, fun b hb => hc2 b (by rw [hscan1] at hb; exact hb)⟩
                rw [mintCursorOf_eq_of_store h1]
                exact hc1
          | some pr =>
              obtain ⟨s, todo⟩ := pr
              obtain ⟨hsess, hsort, hafter⟩ := hokS s todo rfl
              dsimp only at hok ⊢
              simp only [EM_bind_apply] at hok ⊢
              cases hL : (mintProcessLoop env chatId s todo none) s1 with
              | mk rl s2 =>
                  rw [hL] at hok
                  have hlp := mintProcessLoop_spec env chatId s todo none s1
                  rw [hL] at hlp
                  obtain ⟨l1, hks, ⟨d2, l4, l5, l6⟩, llast⟩ := hlp
                  dsimp only at l1 l4
                  have hscan2 : scanBns s2 = scanBns st ++ d2.map Card.bn := by
                    rw [scanBns_append_scan s1 s2 d2 l4 l6, hscan1]
                  have hcur0 : mintCursorOf st = s.lastCursor := by
                    rw [mintCursorOf, hsess]
                  cases rl with
                  | error e =>
                      dsimp only at hok
                      exact Except.noConfusion hok
                  | ok lv =>
                      dsimp only at hok ⊢
                      cases lv with
                      | none =>
                          dsimp only
                          simp only [EM_pure_apply]
                          rcases llast none rfl with ⟨htd, hlv⟩ | ⟨r0, hg, hlv⟩
                          · have hd2 : d2.map Card.bn = [] := by
                              rw [htd] at l5
                              simp only [List.map_nil] at l5
                              exact List.sublist_nil.mp l5
                            have hscan2b : scanBns s2 = scanBns st := by
                              rw [hscan2, hd2, List.append_nil]
                            refine ⟨by rw [hscan2b]; exact hsorted, ?_⟩
                            rcases hbound with hb | ⟨c, hc1, hc2⟩
                            · exact Or.inl (by rw [hscan2b]; exact hb)
                            · refine Or.inr ⟨c, ?_,
                                fun b hb => hc2 b (by rw [hscan2b] at hb; exact hb)⟩
                              rw [mintCursorOf_eq_of_store (l1.trans h1)]
                              exact hc1
                          · exact Option.noConfusion hlv
                      | some kk =>
                          simp only [mintSetSession, modifyE_apply]
                          rcases llast (some kk) rfl with ⟨htd, hlv⟩ | ⟨r0, hg, hlv⟩
                          · exact Option.noConfusion hlv
                          · have hkk : kk = r0.toKey := Option.some.inj hlv
                            have hr0 : r0 ∈ todo := by
                              obtain ⟨hne, hxe⟩ := List.mem_getLast?_eq_getLast
                                (show r0 ∈ todo.getLast? from hg)
                              rw [hxe]
                              exact List.getLast_mem hne
                            have hbnsorted : List.Pairwise (fun a b => a ≤ b)
                                (d2.map Card.bn) := by
                              refine List.Pairwise.sublist l5 ?_
                              refine List.Pairwise.map _ ?_ hsort
                              intro a b hab
                              exact bn_le_of_keyLe hab
                            have hcross : ∀ a ∈ scanBns st, ∀ b ∈ d2.map Card.bn,
                                a ≤ b := by
                              intro a ha b hb
                              rcases hbound with hb0 | ⟨c, hc1, hc2⟩
                              · rw [hb0] at ha
                                exact absurd ha (List.not_mem_nil a)
                              · have hbt : b ∈ todo.map (fun x => x.bn) := l5.subset hb
                                rcases List.mem_map.mp hbt with ⟨r, hr, rfl⟩
                                have hfa := hafter r hr
                                rw [← hcur0, hc1] at hfa
                                exact le_trans (hc2 a ha) (bn_le_of_isAfter hfa)
                            have hscanF : scanBns { s2 with
                                store := some { s with lastCursor := some kk } }
                                = scanBns st ++ d2.map Card.bn := by
                              rw [show scanBns { s2 with
                                  store := some { s with lastCursor := some kk } }
                                = scanBns s2 from rfl, hscan2]
                            refine ⟨?_, Or.inr ⟨kk, ?_, ?_⟩⟩
                            · rw [hscanF]
                              exact List.pairwise_append.mpr ⟨hsorted, hbnsorted, hcross⟩
                            · exact mintCursorOf_set s2 s kk
                            · intro b hb
                              rw [hscanF] at hb
                              rcases List.mem_append.mp hb with hb1 | hb2
                              · rcases hbound with hb0 | ⟨c, hc1, hc2⟩
                                · rw [hb0] at hb1
                                  exact absurd hb1 (List.not_mem_nil b)
                                · have hfa := hafter r0 hr0
                                  rw [← hcur0, hc1] at hfa
                                  rw [hkk]
                                  exact le_trans (hc2 b hb1) (bn_le_of_isAfter hfa)
                              · have hbt : b ∈ todo.map (fun x => x.bn) := l5.subset hb2
                                rcases List.mem_map.mp hbt with ⟨r, hr, rfl⟩
                                have hle := pairwise_keyLe_getLast MintRow.toKey todo r0
                                  hsort hg r hr
                                rw [hkk]
                                exact bn_le_of_keyLe hle

theorem runMintPolls_inv (chatId : Nat) :
    ∀ (envs : List MintEnv) (st : MintSt),
      List.Sorted (fun a b => a ≤ b) (scanBns st) →
      (scanBns st = [] ∨ ∃ c, mintCursorOf st = some c ∧ ∀ b ∈ scanBns st, b ≤ c.bn) →
      mintTicksOk chatId envs st →
      List.Sorted (fun a b => a ≤ b) (scanBns (runMintPolls chatId envs st)) := by
  intro envs
  induction envs with
  | nil => intro st h1 h2 h3; exact h1
  | cons env rest ih =>
      intro st h1 h2 h3
      obtain ⟨hok1, hok2⟩ := h3
      obtain ⟨j1, j2⟩ := mint_tick_inv env chatId st hok1 h1 h2
      rw [runMintPolls]
      exact ih (((pollOnceMints env chatId) st).2) j1 j2 hok2

/-- C3 counterexample: over three ticks, the mint of token 8 at block 102 is
delivered by the scan of tick 2 while the mint of token 7 at block 101 is
delivered later by the pending-attribution drain of tick 3 — the sink holds
the block-102 card before the block-101 card, so delivery order is not
monotonic in the ordering key once pending-queue deliveries are included. -/
theorem C3_delivery_order_counterexample :
    c3Run.sink = [c3Card8, c3Card7] ∧ c3Card7.bn < c3Card8.bn :=
  ⟨by decide, by decide⟩

/-- C3 (amended): deliveries that originate from the fresh-mint scan are
monotone in the ordering key across any run of successful poll ticks — their
block numbers form a nondecreasing sequence in sink order; deliveries
re-emitted from the pending-attribution queue carry no such guarantee. -/
theorem C3_scan_delivery_monotone (chatId : Nat) (envs : List MintEnv) (st : MintSt)
    (hsink : st.sink = []) (hok : mintTicksOk chatId envs st) :
    List.Sorted (fun a b => a ≤ b) (scanBns (runMintPolls chatId envs st)) := by
  have h0 : scanBns st = [] := by
    unfold scanBns
    rw [hsink]
    rfl
  refine runMintPolls_inv chatId envs st ?_ (Or.inl h0) hok
  rw [h0]
  exact List.sorted_nil

/-- Witness for C3 at the two-mint single-tick scenario: both cards resolve
from the cache and the scan-originated block numbers come out sorted. -/
theorem C3_scan_delivery_monotone_witness :
    List.Sorted (fun a b => a ≤ b) (scanBns (runMintPolls 0 [c4Env] c4St0)) :=
  C3_scan_delivery_monotone 0 [c4Env] c4St0 rfl ⟨rfl, trivial⟩

end Valhalla
